import Mathlib

/-!
# YttSource controller: reference index, watch mappers, archive extraction, reconciliation

A shallow embedding of `controllers/yttsource_controller.go`,
`controllers/yttsource_transformations.go`, `controllers/yttsource_predicates.go` and
`controllers/utils.go`.

* Go maps are finite tables (`GoMap`), read through `GoMap.lookup`.
* `libsveltosset.Set` (a map-backed set of object references) is a
  duplicate-free list (`libsveltosset.Set`).
* Pointer updates (`r.getReferenceMapForEntry(ref).Insert(x)`) are written
  back into the table they point into.
* The mutex `PolicyMux` is not represented: every operation below is one
  atomic step on the reconciler state.
* Paths are character sequences; `filepath.Clean`, `filepath.Join` and
  `strings.HasPrefix` follow the Unix behaviour of the Go library.
* The file system is a table from cleaned paths to nodes; the archive is the
  sequence of entries the tar reader yields.
-/

namespace YttController

/-! ## Kubernetes value types -/

/-- The four fields of `corev1.ObjectReference` the controller fills in. -/
structure ObjectReference where
  APIVersion : String
  Kind : String
  Namespace : String
  Name : String
  deriving DecidableEq, Repr

/-- The type `types.NamespacedName`. -/
structure NamespacedName where
  Namespace : String
  Name : String
  deriving DecidableEq, Repr

/-- The type `schema.GroupVersionKind`. -/
structure GroupVersionKind where
  Group : String
  Version : String
  Kind : String
  deriving DecidableEq, Repr

/-- The method `GroupVersion.String`: `group/version`, or the bare version for the core group. -/
def GroupVersionKind.GroupVersionString (gvk : GroupVersionKind) : String :=
  if gvk.Group.length > 0 then gvk.Group ++ "/" ++ gvk.Version else gvk.Version

/-- The type `YttSourceSpec` of `api/v1alpha1/yttsource_types.go`. -/
structure YttSourceSpec where
  Namespace : String
  Name : String
  Kind : String
  Path : String := ""
  deriving DecidableEq, Repr

/-- The type `YttSourceStatus`. -/
structure YttSourceStatus where
  Resources : String := ""
  FailureMessage : Option String := none
  deriving DecidableEq, Repr

/-- The type `YttSource`: object metadata (namespace, name, deletion timestamp), spec and status. -/
structure YttSource where
  Namespace : String
  Name : String
  Spec : YttSourceSpec
  Status : YttSourceStatus := {}
  DeletionTimestamp : Option Nat := none
  deriving DecidableEq, Repr

/-- The type `reconcile.Request`. -/
structure Request where
  NamespacedName : NamespacedName
  deriving DecidableEq, Repr

/-! ## Constants of the imported API packages -/

/-- The value of `corev1.SchemeGroupVersion.String()`. -/
def corev1GroupVersion : String := "v1"
/-- The value of `sourcev1.GroupVersion.String()`. -/
def sourcev1GroupVersion : String := "source.toolkit.fluxcd.io/v1"
/-- The value of `sourcev1b2.GroupVersion.String()`. -/
def sourcev1b2GroupVersion : String := "source.toolkit.fluxcd.io/v1beta2"
/-- The constant `sourcev1.GitRepositoryKind`. -/
def GitRepositoryKind : String := "GitRepository"
/-- The constant `sourcev1b2.OCIRepositoryKind`. -/
def OCIRepositoryKind : String := "OCIRepository"
/-- The constant `sourcev1b2.BucketKind`. -/
def BucketKind : String := "Bucket"
/-- The constant `libsveltosv1alpha1.ConfigMapReferencedResourceKind`. -/
def ConfigMapReferencedResourceKind : String := "ConfigMap"
/-- The constant `libsveltosv1alpha1.SecretReferencedResourceKind`. -/
def SecretReferencedResourceKind : String := "Secret"

/-! ## Go maps -/

/-- A Go `map[κ]ν`: a finite table of bindings; the first binding of a key is the one read. -/
structure GoMap (κ ν : Type) where
  entries : List (κ × ν)
  deriving DecidableEq

namespace GoMap

variable {κ ν : Type} [DecidableEq κ]

/-- The result of `make(map[κ]ν)`. -/
def empty : GoMap κ ν := ⟨[]⟩

/-- The read `v, ok := m[k]`. -/
def lookup (m : GoMap κ ν) (k : κ) : Option ν :=
  (m.entries.find? (fun p => decide (p.1 = k))).map Prod.snd

/-- The assignment `m[k] = v`. -/
def store (m : GoMap κ ν) (k : κ) (v : ν) : GoMap κ ν :=
  ⟨(k, v) :: m.entries.filter (fun p => decide (p.1 ≠ k))⟩

/-- The statement `delete(m, k)`. -/
def delete (m : GoMap κ ν) (k : κ) : GoMap κ ν :=
  ⟨m.entries.filter (fun p => decide (p.1 ≠ k))⟩

/-- One pass of `for i := range m` that applies `f` to the value stored under every key. -/
def mapValues (f : ν → ν) (m : GoMap κ ν) : GoMap κ ν :=
  ⟨m.entries.map (fun p => (p.1, f p.2))⟩

end GoMap

end YttController

/-! ## The set of object references of `libsveltos/lib/set` -/

namespace libsveltosset

open YttController

/-- The type `libsveltosset.Set`: a `map[corev1.ObjectReference]bool`, so no member occurs twice. -/
structure Set where
  data : List ObjectReference
  nodup : data.Nodup

namespace Set

/-- Two sets are equal when their tables hold the same members in the same order. -/
instance instDecidableEq : DecidableEq Set := fun a b =>
  decidable_of_iff (a.data = b.data) (by cases a; cases b; simp)

/-- The zero value `&libsveltosset.Set{}`. -/
def empty : Set := ⟨[], List.nodup_nil⟩

/-- The method `Has`. -/
def Has (s : Set) (entry : ObjectReference) : Bool := decide (entry ∈ s.data)

/-- The method `Insert`. -/
def Insert (s : Set) (entry : ObjectReference) : Set :=
  if h : entry ∈ s.data then s
  else ⟨s.data ++ [entry], by
    rw [List.nodup_append]
    refine ⟨s.nodup, List.nodup_singleton _, ?_⟩
    intro a ha hb
    rw [List.mem_singleton] at hb
    exact h (hb ▸ ha)⟩

/-- The method `Erase`. -/
def Erase (s : Set) (entry : ObjectReference) : Set :=
  ⟨s.data.filter (fun x => decide (x ≠ entry)), s.nodup.filter _⟩

/-- The method `Len`. -/
def Len (s : Set) : Nat := s.data.length

/-- The method `Items`: the members, in the order the table yields them. -/
def Items (s : Set) : List ObjectReference := s.data

/-- The method `Difference`: the members of `s` that are not in `b`. -/
def Difference (s b : Set) : List ObjectReference :=
  s.data.filter (fun k => !b.Has k)

end Set

end libsveltosset

namespace YttController

/-! ## The reconciler state -/

/-- What `r.Scheme` knows about the `YttSource` Go type: the apiVersion and kind that
`addTypeInformationToObject` stamps on it (the group-version constant is declared outside
the files at hand, so it is a parameter of the state). -/
structure Scheme where
  yttSourceAPIVersion : String
  yttSourceKind : String
  deriving DecidableEq, Repr

/-- The index part of `YttSourceReconciler`. -/
structure YttSourceReconciler where
  Scheme : Scheme
  ReferenceMap : GoMap ObjectReference libsveltosset.Set
  YttSourceMap : GoMap NamespacedName libsveltosset.Set

/-- A reconciler as `main.go` builds it: both maps made empty. -/
def YttSourceReconciler.new (scheme : YttController.Scheme) : YttSourceReconciler :=
  ⟨scheme, GoMap.empty, GoMap.empty⟩

/-- The function `getKeyFromObject` applied to a `YttSource`. -/
def getKeyFromObject (scheme : Scheme) (obj : YttSource) : ObjectReference :=
  { Namespace := obj.Namespace
    Name := obj.Name
    Kind := scheme.yttSourceKind
    APIVersion := scheme.yttSourceAPIVersion }

/-- The function `getReferenceAPIVersion`. The `OCIRepository` case has an empty body and
Go cases do not fall through, so it leaves the switch and reaches the final `return ""`. -/
def getReferenceAPIVersion (yttSource : YttSource) : String :=
  if yttSource.Spec.Kind = ConfigMapReferencedResourceKind then corev1GroupVersion
  else if yttSource.Spec.Kind = SecretReferencedResourceKind then corev1GroupVersion
  else if yttSource.Spec.Kind = OCIRepositoryKind then ""
  else if yttSource.Spec.Kind = BucketKind then sourcev1b2GroupVersion
  else if yttSource.Spec.Kind = GitRepositoryKind then sourcev1GroupVersion
  else ""

/-- The method `getCurrentReference`. -/
def getCurrentReference (yttSource : YttSource) : ObjectReference :=
  { APIVersion := getReferenceAPIVersion yttSource
    Kind := yttSource.Spec.Kind
    Namespace := yttSource.Spec.Namespace
    Name := yttSource.Spec.Name }

/-- The method `getReferenceMapForEntry`: the set stored under `entry`, after storing an
empty one when there was none; returned with the table as it is afterwards. -/
def getReferenceMapForEntry (m : GoMap ObjectReference libsveltosset.Set)
    (entry : ObjectReference) : libsveltosset.Set × GoMap ObjectReference libsveltosset.Set :=
  match m.lookup entry with
  | some s => (s, m)
  | none => (libsveltosset.Set.empty, m.store entry libsveltosset.Set.empty)

/-- The statement `r.getReferenceMapForEntry(entry).Insert(x)`. -/
def insertForEntry (m : GoMap ObjectReference libsveltosset.Set)
    (entry x : ObjectReference) : GoMap ObjectReference libsveltosset.Set :=
  let (s, m1) := getReferenceMapForEntry m entry
  m1.store entry (s.Insert x)

/-- The statement `r.getReferenceMapForEntry(entry).Erase(x)`. -/
def eraseForEntry (m : GoMap ObjectReference libsveltosset.Set)
    (entry x : ObjectReference) : GoMap ObjectReference libsveltosset.Set :=
  let (s, m1) := getReferenceMapForEntry m entry
  m1.store entry (s.Erase x)

/-- The method `updateMaps`. -/
def updateMaps (r : YttSourceReconciler) (yttSource : YttSource) : YttSourceReconciler :=
  let ref := getCurrentReference yttSource
  let currentReference := libsveltosset.Set.empty.Insert ref
  let yttSourceName : NamespacedName := ⟨yttSource.Namespace, yttSource.Name⟩
  let toBeRemoved : List ObjectReference :=
    match r.YttSourceMap.lookup yttSourceName with
    | some v => v.Difference currentReference
    | none => []
  let yttSourceInfo := getKeyFromObject r.Scheme yttSource
  let rm1 := insertForEntry r.ReferenceMap ref yttSourceInfo
  let rm2 := toBeRemoved.foldl
    (fun m referencedResource => eraseForEntry m referencedResource yttSourceInfo) rm1
  { r with ReferenceMap := rm2, YttSourceMap := r.YttSourceMap.store yttSourceName currentReference }

/-- The method `cleanMaps`. -/
def cleanMaps (r : YttSourceReconciler) (yttSource : YttSource) : YttSourceReconciler :=
  let ysm := r.YttSourceMap.delete ⟨yttSource.Namespace, yttSource.Name⟩
  let yttSourceInfo := getKeyFromObject r.Scheme yttSource
  { r with
    YttSourceMap := ysm
    ReferenceMap := r.ReferenceMap.mapValues (fun yttSourceSet => yttSourceSet.Erase yttSourceInfo) }

/-- The members of the set the watch mappers read under `ref`:
`r.getReferenceMapForEntry(&ref).Items()`. -/
def dependentsOf (m : GoMap ObjectReference libsveltosset.Set) (ref : ObjectReference) :
    List ObjectReference :=
  (getReferenceMapForEntry m ref).1.Items

/-! ## Watch mappers -/

/-- The dynamic Go type of a watched `client.Object`, as the type switches see it. -/
inductive GoType where
  | GitRepository
  | OCIRepository
  | Bucket
  | ConfigMap
  | Secret
  | Other
  deriving DecidableEq, Repr

/-- A watched `client.Object`: its Go type, the value of
`o.GetObjectKind().GroupVersionKind()`, and its namespace and name. -/
structure ClientObject where
  goType : GoType
  gvk : GroupVersionKind
  Namespace : String
  Name : String
  deriving DecidableEq, Repr

/-- The zero value of `ctrl.Request`, as `make([]ctrl.Request, n)` fills the slice with. -/
def Request.zero : Request := ⟨⟨"", ""⟩⟩

/-- The loop `for i := range consumers { requests[i] = ctrl.Request{...} }`, from index `i` on. -/
def assignRequests : List ObjectReference → Nat → List Request → List Request
  | [], _, requests => requests
  | c :: consumers, i, requests =>
    assignRequests consumers (i + 1) (requests.set i ⟨⟨c.Namespace, c.Name⟩⟩)

/-- The common tail of both mappers: size the slice from `Len()`, read `Items()`, fill it. -/
def requeueForKey (r : YttSourceReconciler) (key : ObjectReference) :
    List Request × YttSourceReconciler :=
  let (s1, m1) := getReferenceMapForEntry r.ReferenceMap key
  let requests := List.replicate s1.Len Request.zero
  let (s2, m2) := getReferenceMapForEntry m1 key
  let consumers := s2.Items
  (assignRequests consumers 0 requests, { r with ReferenceMap := m2 })

/-- The key `requeueYttSourceForFluxSources` builds from the watched object. -/
def fluxSourceKey (o : ClientObject) : ObjectReference :=
  match o.goType with
  | .GitRepository =>
    { APIVersion := sourcev1GroupVersion, Kind := GitRepositoryKind
      Namespace := o.Namespace, Name := o.Name }
  | .OCIRepository =>
    { APIVersion := sourcev1b2GroupVersion, Kind := OCIRepositoryKind
      Namespace := o.Namespace, Name := o.Name }
  | .Bucket =>
    { APIVersion := sourcev1b2GroupVersion, Kind := BucketKind
      Namespace := o.Namespace, Name := o.Name }
  | _ =>
    { APIVersion := o.gvk.GroupVersionString, Kind := o.gvk.Kind
      Namespace := o.Namespace, Name := o.Name }

/-- The key `requeueYttSourceForReference` builds from the watched object. -/
def referenceKey (o : ClientObject) : ObjectReference :=
  match o.goType with
  | .ConfigMap =>
    { APIVersion := corev1GroupVersion, Kind := ConfigMapReferencedResourceKind
      Namespace := o.Namespace, Name := o.Name }
  | .Secret =>
    { APIVersion := corev1GroupVersion, Kind := SecretReferencedResourceKind
      Namespace := o.Namespace, Name := o.Name }
  | _ =>
    { APIVersion := o.gvk.GroupVersionString, Kind := o.gvk.Kind
      Namespace := o.Namespace, Name := o.Name }

/-- The method `requeueYttSourceForFluxSources`: the requests, and the state afterwards. -/
def requeueYttSourceForFluxSources (r : YttSourceReconciler) (o : ClientObject) :
    List Request × YttSourceReconciler :=
  requeueForKey r (fluxSourceKey o)

/-- The method `requeueYttSourceForReference`: the requests, and the state afterwards. -/
def requeueYttSourceForReference (r : YttSourceReconciler) (o : ClientObject) :
    List Request × YttSourceReconciler :=
  requeueForKey r (referenceKey o)

/-- Index states reachable from the empty index by `updateMaps`, `cleanMaps` and the two
watch-mapper lookups. -/
inductive Reachable (scheme : Scheme) : YttSourceReconciler → Prop where
  | init : Reachable scheme (YttSourceReconciler.new scheme)
  | update (r : YttSourceReconciler) (y : YttSource) :
      Reachable scheme r → Reachable scheme (updateMaps r y)
  | clean (r : YttSourceReconciler) (y : YttSource) :
      Reachable scheme r → Reachable scheme (cleanMaps r y)
  | lookupReference (r : YttSourceReconciler) (o : ClientObject) :
      Reachable scheme r → Reachable scheme (requeueYttSourceForReference r o).2
  | lookupFlux (r : YttSourceReconciler) (o : ClientObject) :
      Reachable scheme r → Reachable scheme (requeueYttSourceForFluxSources r o).2

/-- Index states reachable from the empty index by `updateMaps` and `cleanMaps` alone. -/
inductive ReachableByWrites (scheme : Scheme) : YttSourceReconciler → Prop where
  | init : ReachableByWrites scheme (YttSourceReconciler.new scheme)
  | update (r : YttSourceReconciler) (y : YttSource) :
      ReachableByWrites scheme r → ReachableByWrites scheme (updateMaps r y)
  | clean (r : YttSourceReconciler) (y : YttSource) :
      ReachableByWrites scheme r → ReachableByWrites scheme (cleanMaps r y)

/-- Every reference recorded for an object lists that object among its dependents. -/
def ForwardInv (r : YttSourceReconciler) : Prop :=
  ∀ (n : NamespacedName) (s : libsveltosset.Set) (ref : ObjectReference),
    r.YttSourceMap.lookup n = some s → ref ∈ s.Items →
      (⟨r.Scheme.yttSourceAPIVersion, r.Scheme.yttSourceKind, n.Namespace, n.Name⟩ :
        ObjectReference) ∈ dependentsOf r.ReferenceMap ref

/-- Every dependent carries the object type of the scheme and is recorded under exactly the
reference whose set it sits in. -/
def BackwardInv (r : YttSourceReconciler) : Prop :=
  ∀ (ref x : ObjectReference), x ∈ dependentsOf r.ReferenceMap ref →
    x.APIVersion = r.Scheme.yttSourceAPIVersion ∧ x.Kind = r.Scheme.yttSourceKind ∧
      ∃ s, r.YttSourceMap.lookup ⟨x.Namespace, x.Name⟩ = some s ∧ s.Items = [ref]

/-! ## Sample objects -/

/-- The scheme of the running controller: `YttSource` in `extension.projectsveltos.io/v1alpha1`. -/
def sampleScheme : Scheme := ⟨"extension.projectsveltos.io/v1alpha1", "YttSource"⟩

/-- A `YttSource` `ns1/src` that references the ConfigMap `cfg/a`. -/
def sampleA : YttSource :=
  { Namespace := "ns1", Name := "src", Spec := { Namespace := "cfg", Name := "a", Kind := "ConfigMap" } }

/-- The same `YttSource` `ns1/src` after its spec was edited to reference the ConfigMap `cfg/b`. -/
def sampleB : YttSource :=
  { Namespace := "ns1", Name := "src", Spec := { Namespace := "cfg", Name := "b", Kind := "ConfigMap" } }

/-- A `YttSource` `ns1/oci` that references the OCIRepository `flux/repo`. -/
def sampleOCI : YttSource :=
  { Namespace := "ns1", Name := "oci"
    Spec := { Namespace := "flux", Name := "repo", Kind := "OCIRepository" } }

/-- The OCIRepository `flux/repo` as a watch event delivers it (type metadata not set). -/
def sampleOCIObject : ClientObject :=
  { goType := .OCIRepository, gvk := ⟨"", "", ""⟩, Namespace := "flux", Name := "repo" }

/-- A `YttSource` `ns1/src` whose `spec.namespace` is left empty. -/
def sampleNoNamespace : YttSource :=
  { Namespace := "ns1", Name := "src", Spec := { Namespace := "", Name := "a", Kind := "ConfigMap" } }

/-- The ConfigMap `cfg/a` as a watch event delivers it. -/
def sampleConfigMap : ClientObject :=
  { goType := .ConfigMap, gvk := ⟨"", "", ""⟩, Namespace := "cfg", Name := "a" }

/-- An index whose dependents set for the ConfigMap `cfg/a` holds two references that share
kind, namespace `ns1` and name `src` and differ in apiVersion. -/
def sampleSharedNameIndex : YttSourceReconciler :=
  { Scheme := sampleScheme
    ReferenceMap := GoMap.empty.store ⟨"v1", "ConfigMap", "cfg", "a"⟩
      ((libsveltosset.Set.empty.Insert
          ⟨"extension.projectsveltos.io/v1alpha1", "YttSource", "ns1", "src"⟩).Insert
        ⟨"extension.projectsveltos.io/v1beta1", "YttSource", "ns1", "src"⟩)
    YttSourceMap := GoMap.empty }

/-- The request a mapper builds for one consumer. -/
def requestFor (c : ObjectReference) : Request := ⟨⟨c.Namespace, c.Name⟩⟩

/-- A second `YttSource`, `ns2/other`, that references the same ConfigMap `cfg/a` as `sampleA`. -/
def sampleC : YttSource :=
  { Namespace := "ns2", Name := "other"
    Spec := { Namespace := "cfg", Name := "a", Kind := "ConfigMap" } }

/-- The index after `sampleA` and `sampleC` were both reconciled. -/
def sampleFanOutIndex : YttSourceReconciler :=
  updateMaps (updateMaps (YttSourceReconciler.new sampleScheme) sampleA) sampleC

/-! ## Paths (`path/filepath` and `strings` on Unix) -/

/-- A path or entry name, as the sequence of its characters. -/
abbrev Path := List Char

/-- One step of `filepath.Clean` over the `/`-separated elements of a path: empty and `.`
elements are dropped, a `..` element removes the element before it when there is one to
remove, is dropped at the root of a rooted path, and is kept otherwise. The stack holds the
elements kept so far, last one first. -/
def cleanStep (rooted : Bool) (stack : List Path) (c : Path) : List Path :=
  if c = [] ∨ c = ['.'] then stack
  else if c = ['.', '.'] then
    match stack with
    | top :: rest => if top = ['.', '.'] then c :: stack else rest
    | [] => if rooted then [] else [c]
  else c :: stack

/-- The function `filepath.Clean`. -/
def Clean (path : Path) : Path :=
  if path = [] then ['.']
  else
    let rooted : Bool := path.head? = some '/'
    let stack := (path.splitOn '/').foldl (cleanStep rooted) []
    let out := (if rooted then ['/'] else []) ++ ['/'].intercalate stack.reverse
    if out = [] then ['.'] else out

/-- The function `filepath.Join` on two elements: leading empty elements are skipped and the
rest, joined by `/`, is cleaned. -/
def Join (a b : Path) : Path :=
  if a ≠ [] then Clean (a ++ '/' :: b)
  else if b ≠ [] then Clean b
  else []

/-- The function `strings.HasPrefix`. -/
def HasPrefix (s pre : Path) : Bool := pre.isPrefixOf s

/-! ## File system (`os`) -/

/-- The content of a file. -/
abbrev Bytes := List Nat

/-- What a path names: a directory, or a regular file with its content. -/
inductive Node where
  | dir
  | file (content : Bytes)
  deriving DecidableEq, Repr

/-- The file system: the nodes that exist, by cleaned path. Permission bits, symbolic links
and resource limits are not represented. -/
abbrev FileSystem := GoMap Path Node

/-- Errors of `extractTarGz`: its own path check, the `os` errors, and a reader error. -/
inductive Error where
  | outsideOfDestination (name : Path)
  | notDir (path : Path)
  | isDir (path : Path)
  | notExist (path : Path)
  | exist (path : Path)
  | read (msg : String)
  deriving DecidableEq, Repr

/-- The function `os.Stat`: the root and the working directory always exist. -/
def Stat (fs : FileSystem) (path : Path) : Option Node :=
  if path = ['/'] ∨ path = ['.'] then some .dir else fs.lookup path

/-- The parent `path[:i]` computed by `os.MkdirAll`: drop trailing separators, then the last
element, then the separator before it. -/
def dirOf (path : Path) : Path :=
  (((path.reverse.dropWhile (fun c => c == '/')).dropWhile (fun c => c != '/')).drop 1).reverse

/-- The directory that holds the last element of `path`: the root or the working directory
when `dirOf` is empty. -/
def containerOf (path : Path) : Path :=
  if dirOf path = [] then (if path.head? = some '/' then ['/'] else ['.']) else dirOf path

/-- The function `os.Mkdir`. -/
def Mkdir (fs : FileSystem) (path : Path) : FileSystem × Option Error :=
  match Stat fs path with
  | some _ => (fs, some (.exist path))
  | none =>
    match Stat fs (containerOf path) with
    | some .dir => (fs.store path .dir, none)
    | some (.file _) => (fs, some (.notDir path))
    | none => (fs, some (.notExist path))

/-- The function `os.MkdirAll`, with the depth of its recursion on the parent bounded by `fuel`. -/
def MkdirAllAux : Nat → FileSystem → Path → FileSystem × Option Error
  | 0, fs, path => (fs, some (.notExist path))
  | fuel + 1, fs, path =>
    match Stat fs path with
    | some .dir => (fs, none)
    | some (.file _) => (fs, some (.notDir path))
    | none =>
      let parent := dirOf path
      let (fs1, err) := if parent.length > 0 then MkdirAllAux fuel fs parent else (fs, none)
      match err with
      | some e => (fs1, some e)
      | none =>
        match Mkdir fs1 path with
        | (fs2, none) => (fs2, none)
        | (fs2, some e) => if Stat fs2 path = some .dir then (fs2, none) else (fs2, some e)

/-- The function `os.MkdirAll`: each parent is shorter than its path, so `length + 1` levels
of recursion are enough. -/
def MkdirAll (fs : FileSystem) (path : Path) : FileSystem × Option Error :=
  MkdirAllAux (path.length + 1) fs path

/-- The call `os.OpenFile(path, os.O_CREATE|os.O_RDWR, mode)`: an existing file is opened as
it is (not truncated), a missing one is created empty. -/
def OpenFile (fs : FileSystem) (path : Path) : FileSystem × Option Error :=
  match Stat fs path with
  | some .dir => (fs, some (.isDir path))
  | some (.file _) => (fs, none)
  | none =>
    match Stat fs (containerOf path) with
    | some .dir => (fs.store path (.file []), none)
    | some (.file _) => (fs, some (.notDir path))
    | none => (fs, some (.notExist path))

/-- The call `io.Copy(file, r)` on a file just opened: `data` is written from offset 0 over
what the file held. -/
def copyTo (fs : FileSystem) (path : Path) (data : Bytes) : FileSystem :=
  match fs.lookup path with
  | some (.file old) => fs.store path (.file (data ++ old.drop data.length))
  | _ => fs

/-! ## Archive extraction -/

/-- The constant `maxSize`. -/
def maxSize : Nat := 20 * 1024 * 1024

/-- The field `header.Typeflag`, as far as `extractTarGz` tells values apart. -/
inductive Typeflag where
  | TypeReg
  | TypeDir
  | other
  deriving DecidableEq, Repr

/-- One entry of the tar stream: `header.Name`, `header.Typeflag` and the entry data. -/
structure TarEntry where
  Name : Path
  Typeflag : Typeflag
  data : Bytes := []
  deriving DecidableEq, Repr

/-- What `tarReader.Next()` yields for the file `src`: the entries in order, then `io.EOF`
(`readError = none`) or an error. A `src` that cannot be opened or is not gzip data is the
archive with no entries and that error. -/
structure Archive where
  entries : List TarEntry
  readError : Option Error := none

/-- The limited reader `io.LimitReader(r, n)` on the bytes of `r`. -/
def LimitReader (data : Bytes) (n : Nat) : Bytes := data.take n

/-- The loop of `extractTarGz` over the entries: the file system when it stops, and the
error it returns (`none` for `nil`). -/
def extractEntries (dest : Path) (readError : Option Error) :
    FileSystem → List TarEntry → FileSystem × Option Error
  | fs, [] => (fs, readError)
  | fs, header :: rest =>
    let target := Join dest (Clean header.Name)
    if !HasPrefix target dest then (fs, some (.outsideOfDestination header.Name))
    else
      match header.Typeflag with
      | .TypeDir =>
        match MkdirAll fs target with
        | (fs1, some err) => (fs1, some err)
        | (fs1, none) => extractEntries dest readError fs1 rest
      | .TypeReg =>
        match OpenFile fs target with
        | (fs1, some err) => (fs1, some err)
        | (fs1, none) =>
          extractEntries dest readError (copyTo fs1 target (LimitReader header.data maxSize)) rest
      | .other => extractEntries dest readError fs rest

/-- The function `extractTarGz`, on the archive read from `src`. -/
def extractTarGz (src : Archive) (dest : Path) (fs : FileSystem) : FileSystem × Option Error :=
  extractEntries dest src.readError fs src.entries

/-- The destination `/tmp/dest`, existing and empty. -/
def sampleDestFS : FileSystem := GoMap.empty.store "/tmp/dest".toList .dir

/-- An archive whose only entry is the root directory of a walked tree (empty name). -/
def sampleRootOnly : Archive := { entries := [⟨[], .TypeDir, []⟩] }

/-- An archive with a file `ok.txt` followed by a directory entry named `../../etc`. -/
def sampleEscaping : Archive :=
  { entries := [⟨"ok.txt".toList, .TypeReg, [1, 2]⟩, ⟨"../../etc".toList, .TypeDir, []⟩,
      ⟨"late.txt".toList, .TypeReg, [3]⟩] }

/-! ## Archives produced by walking a directory tree -/

/-- A plain path element: not empty, without separator, and neither `.` nor `..`. -/
def isPlainElement (c : Path) : Bool :=
  decide (c ≠ [] ∧ '/' ∉ c ∧ c ≠ ['.'] ∧ c ≠ ['.', '.'])

/-- A cleaned path made of plain elements, rooted (`/tmp/dest`) or not (`out/dest`), as
`os.MkdirTemp` and `path.Join` return it. -/
def isPlainPath (p : Path) : Bool :=
  match p.splitOn '/' with
  | [] :: c :: rest => (c :: rest).all isPlainElement
  | comps => comps.all isPlainElement

/-- The name a tree walk gives an entry: empty for the root, else the plain elements of the
path below the root joined by `/`. -/
def isWalkName (n : Path) : Bool :=
  n = [] || (n.splitOn '/').all isPlainElement

/-- Every entry other than the root and the entries directly below it comes after the
directory entry of its parent; `seen` holds the names of the directory entries so far. -/
def parentsPrecede : List Path → List TarEntry → Bool
  | _, [] => true
  | seen, e :: rest =>
    (e.Name = [] || dirOf e.Name = [] || decide (dirOf e.Name ∈ seen)) &&
      parentsPrecede (if e.Typeflag = .TypeDir then e.Name :: seen else seen) rest

/-- A directory entry, or a regular-file entry below the root with at most `maxSize` bytes. -/
def isWalkEntry (e : TarEntry) : Bool :=
  isWalkName e.Name &&
    (e.Typeflag = .TypeDir ||
      (e.Typeflag = .TypeReg && e.Name ≠ [] && decide (e.data.length ≤ maxSize)))

/-- An archive as a walk of a directory tree produces it: directory and regular-file
entries, one per path, each after the directory entry of its parent. -/
def isWalkArchive (entries : List TarEntry) : Bool :=
  entries.all isWalkEntry && decide (entries.map TarEntry.Name).Nodup &&
    parentsPrecede [] entries

/-- The path below `dest` that the entry name `n` stands for. -/
def targetOf (dest n : Path) : Path := if n = [] then dest else dest ++ '/' :: n

/-- The node an extracted entry leaves at its target. -/
def nodeOf (e : TarEntry) : Node :=
  if e.Typeflag = .TypeDir then .dir else .file e.data

/-- The state of the destination after the entries `done` were extracted into it: `dest` is a
directory, every entry below the root is at its target, and nothing else is below `dest`. -/
def WalkInv (dest : Path) (fs : FileSystem) (done : List TarEntry) : Prop :=
  fs.lookup dest = some .dir ∧
  (∀ e ∈ done, e.Name ≠ [] → fs.lookup (targetOf dest e.Name) = some (nodeOf e)) ∧
  (∀ p, (dest ++ ['/']) <+: p → fs.lookup p ≠ none →
    ∃ e ∈ done, e.Name ≠ [] ∧ p = targetOf dest e.Name)

/-- The archive of the repository's extraction test: the root, `test.txt`, the directory
`testdir` and `testdir/test.txt`, in the order of the walk. -/
def sampleWalk : Archive :=
  { entries := [⟨[], .TypeDir, []⟩, ⟨"test.txt".toList, .TypeReg, [84, 104, 105, 115]⟩,
      ⟨"testdir".toList, .TypeDir, []⟩, ⟨"testdir/test.txt".toList, .TypeReg, [65, 110]⟩] }

/-- An archive with the single regular file `a.txt`. -/
def sampleOneFile : Archive := { entries := [⟨"a.txt".toList, .TypeReg, [1]⟩] }

/-! ## Backend objects and the collaborators of a reconciliation -/

/-- A Go `error`, by the text `err.Error()` returns. -/
abbrev GoError := String

/-- A Go `[]byte` value: `nil`, or a slice that may be empty. -/
abbrev GoBytes := Option Bytes

/-- The type `sourcev1.Artifact` of the Flux source API. -/
structure Artifact where
  Path : String
  URL : String
  Revision : String
  Digest : String
  LastUpdateTime : Int
  Size : Option Int
  Metadata : Option (GoMap String String)
  deriving DecidableEq

/-- A GitRepository, OCIRepository or Bucket: the kind its type metadata carries (the value
of `GetObjectKind().GroupVersionKind().Kind`), namespace, name and `Status.Artifact`. -/
structure FluxObject where
  Kind : String
  Namespace : String
  Name : String
  Artifact : Option Artifact
  deriving DecidableEq

/-- The type `corev1.ConfigMap`, with the fields an update can change. -/
structure ConfigMap where
  Namespace : String
  Name : String
  ResourceVersion : String := ""
  Labels : Option (GoMap String String) := none
  Data : Option (GoMap String String) := none
  BinaryData : Option (GoMap String GoBytes) := none
  deriving DecidableEq

/-- The type `corev1.Secret`, with the fields an update can change (`SecretType` is the
field `Type`). -/
structure Secret where
  Namespace : String
  Name : String
  ResourceVersion : String := ""
  Labels : Option (GoMap String String) := none
  SecretType : String := ""
  Data : Option (GoMap String GoBytes) := none
  deriving DecidableEq

/-- The constant `libsveltosv1alpha1.ClusterProfileSecretType`. -/
def ClusterProfileSecretType : String := "addons.projectsveltos.io/cluster-profile"

/-- The text of `libsveltosv1alpha1.ErrSecretTypeNotSupported`. -/
def ErrSecretTypeNotSupported : GoError := "unsupported secret type"

/-- An error of the API client: whether `apierrors.IsNotFound` holds of it, and its text. -/
structure ApiError where
  notFound : Bool
  text : String
  deriving DecidableEq

/-- What `c.Get` answers for each kind of object. -/
structure Client where
  getYttSource : NamespacedName → Except ApiError YttSource
  getConfigMap : NamespacedName → Except ApiError ConfigMap
  getSecret : NamespacedName → Except ApiError Secret
  getGitRepository : NamespacedName → Except ApiError FluxObject
  getOCIRepository : NamespacedName → Except ApiError FluxObject
  getBucket : NamespacedName → Except ApiError FluxObject

/-- The collaborators outside the repository: the API client, the patch helper of cluster-api,
`os.MkdirTemp`, the gzip and tar readers, the Flux archive fetcher and the ytt engine. -/
structure Env where
  client : Client
  newHelper : YttSource → Option GoError
  patch : YttSource → YttSource → Option GoError
  mkdirTemp : FileSystem → String → Except GoError Path
  readArchive : Bytes → Archive
  fetch : String → String → Path → FileSystem → FileSystem × Option GoError
  RunWithFiles : List (String × Bytes) → Except GoError (List String)
  AsBytes : List String → Except GoError String

/-- What a reconciliation does to the outside, in order. -/
inductive Action where
  | get (name : NamespacedName)
  | getBackend (kind : String) (name : NamespacedName)
  | mkdirTemp (pattern : String)
  | writeFile (path : Path)
  | extract (src dest : Path)
  | fetch (url digest : String) (dir : Path)
  | render (dirPath : Path)
  | removeAll (path : Path)
  | patch (obj : YttSource)
  deriving DecidableEq

/-- The part of the world a reconciliation changes: the file system, and the record of its
actions. -/
structure World where
  fs : FileSystem
  trace : List Action

/-- Record one action. -/
def World.log (w : World) (a : Action) : World := { w with trace := w.trace ++ [a] }

/-- The text of an extraction error, as `err.Error()` gives it. -/
def Error.text : Error → GoError
  | .outsideOfDestination name =>
    "tar archive entry " ++ String.mk name ++ " is outside of destination directory"
  | .notDir path => String.mk path ++ ": not a directory"
  | .isDir path => String.mk path ++ ": is a directory"
  | .notExist path => String.mk path ++ ": no such file or directory"
  | .exist path => String.mk path ++ ": file exists"
  | .read msg => msg

/-- The function `os.WriteFile`: create or truncate the file and write `data`. -/
def WriteFile (fs : FileSystem) (path : Path) (data : Bytes) : FileSystem × Option Error :=
  match Stat fs path with
  | some .dir => (fs, some (.isDir path))
  | some (.file _) => (fs.store path (.file data), none)
  | none =>
    match Stat fs (containerOf path) with
    | some .dir => (fs.store path (.file data), none)
    | some (.file _) => (fs, some (.notDir path))
    | none => (fs, some (.notExist path))

/-- Whether `p` is `path` or lies below it. -/
def isAtOrBelow (path p : Path) : Bool :=
  p == path || (path ++ ['/']).isPrefixOf p

/-- The function `os.RemoveAll`: remove `path` and everything below it. -/
def RemoveAll (fs : FileSystem) (path : Path) : FileSystem :=
  ⟨fs.entries.filter (fun e => !isAtOrBelow path e.1)⟩

/-- The function `extractTarGz` on the file `src` of the file system: open it, decode what
`io.LimitReader(tarball, maxSize)` passes of it with the gzip and tar readers, extract the
entries. -/
def extractTarGzFile (env : Env) (fs : FileSystem) (src dest : Path) :
    FileSystem × Option Error :=
  match Stat fs src with
  | some (.file content) => extractTarGz (env.readArchive (LimitReader content maxSize)) dest fs
  | some .dir => (fs, some (.isDir src))
  | none => (fs, some (.notExist src))

/-! ## Rendering input -/

/-- Byte order on names, as `sort.Strings` compares them. -/
def pathLE : Path → Path → Bool
  | [], _ => true
  | _ :: _, [] => false
  | a :: as, b :: bs =>
    if a.toNat < b.toNat then true
    else if b.toNat < a.toNat then false
    else pathLE as bs

/-- Insert a name into a sorted list of names. -/
def insertPath (p : Path) : List Path → List Path
  | [] => [p]
  | q :: rest => if pathLE p q then p :: q :: rest else q :: insertPath p rest

/-- Sort names in byte order. -/
def sortPaths (l : List Path) : List Path := l.foldr insertPath []

/-- The names of the entries of the directory `dir`, sorted, as `filepath.Walk` reads them. -/
def readDirNames (fs : FileSystem) (dir : Path) : List Path :=
  let pre := if dir.getLast? = some '/' then dir else dir ++ ['/']
  let names := (fs.entries.map Prod.fst).filterMap (fun p =>
    if pre.isPrefixOf p then
      let name := p.drop pre.length
      if name ≠ [] ∧ '/' ∉ name then some name else none
    else none)
  sortPaths names.dedup

/-- The walk of `filepath.Walk` with the callback of `getFilesRecursively`: the paths that
are not directories, in the order the walk meets them; `fuel` bounds the depth. -/
def walkFiles : Nat → FileSystem → Path → List Path
  | 0, _, _ => []
  | fuel + 1, fs, path =>
    match Stat fs path with
    | some (.file _) => [path]
    | some .dir =>
      (readDirNames fs path).flatMap (fun name => walkFiles fuel fs (Join path name))
    | none => []

/-- The function `getFilesRecursively`. A chain of nested directories is a chain of distinct
entries of the file system, so its number of entries bounds the depth. -/
def getFilesRecursively (fs : FileSystem) (dir : Path) : Except GoError (List Path) :=
  match Stat fs dir with
  | none => .error ("lstat " ++ String.mk dir ++ ": no such file or directory")
  | some _ => .ok (walkFiles (fs.entries.length + 2) fs dir)

/-- The function `readFileContent`. -/
def readFileContent (fs : FileSystem) (file : Path) : Except GoError Bytes :=
  match Stat fs file with
  | some (.file content) => .ok content
  | some .dir => .error ("read " ++ String.mk file ++ ": is a directory")
  | none => .error ("open " ++ String.mk file ++ ": no such file or directory")

/-- The loop of `templatesAsInput` from index `i` on: each file is read and wrapped under the
name `tpl<i>-<namespace>-<name>/<path>`. -/
def templatesAsInputFrom (fs : FileSystem) (yttSource : YttSource) :
    Nat → List Path → Except GoError (List (String × Bytes))
  | _, [] => .ok []
  | i, file :: rest =>
    match readFileContent fs file with
    | .error e => .error e
    | .ok content =>
      match templatesAsInputFrom fs yttSource (i + 1) rest with
      | .error e => .error e
      | .ok files =>
        .ok (("tpl" ++ toString i ++ "-" ++ yttSource.Namespace ++ "-" ++ yttSource.Name ++
          "/" ++ String.mk file, content) :: files)

/-- The function `templatesAsInput`. -/
def templatesAsInput (fs : FileSystem) (dirPath : Path) (yttSource : YttSource) :
    Except GoError (List (String × Bytes)) :=
  match getFilesRecursively fs dirPath with
  | .error e => .error e
  | .ok currentFiles => templatesAsInputFrom fs yttSource 0 currentFiles

/-! ## Source resolution -/

/-- The text of `types.NamespacedName.String()`. -/
def NamespacedName.text (n : NamespacedName) : String := n.Namespace ++ "/" ++ n.Name

/-- The function `getConfigMap`. -/
def getConfigMap (env : Env) (w : World) (configmapName : NamespacedName) :
    Except GoError ConfigMap × World :=
  let w1 := w.log (.getBackend ConfigMapReferencedResourceKind configmapName)
  match env.client.getConfigMap configmapName with
  | .error err => (.error err.text, w1)
  | .ok configMap => (.ok configMap, w1)

/-- The function `getSecret`. -/
def getSecret (env : Env) (w : World) (secretName : NamespacedName) :
    Except GoError Secret × World :=
  let w1 := w.log (.getBackend SecretReferencedResourceKind secretName)
  match env.client.getSecret secretName with
  | .error err => (.error err.text, w1)
  | .ok secret =>
    if secret.SecretType ≠ ClusterProfileSecretType then (.error ErrSecretTypeNotSupported, w1)
    else (.ok secret, w1)

/-- One case of the switch of `getSource`: `c.Get` of the object; not-found gives `nil, nil`. -/
def getFluxObject (w : World) (kind : String) (namespacedName : NamespacedName)
    (get : NamespacedName → Except ApiError FluxObject) :
    Except GoError (Option FluxObject) × World :=
  let w1 := w.log (.getBackend kind namespacedName)
  match get namespacedName with
  | .error err =>
    if err.notFound then (.ok none, w1)
    else (.error ("unable to get source '" ++ namespacedName.text ++ "': " ++ err.text), w1)
  | .ok obj => (.ok (some obj), w1)

/-- The function `getSource`. -/
def getSource (env : Env) (w : World) (ref : ObjectReference) :
    Except GoError (Option FluxObject) × World :=
  let namespacedName : NamespacedName := ⟨ref.Namespace, ref.Name⟩
  if ref.Kind = GitRepositoryKind then
    getFluxObject w ref.Kind namespacedName env.client.getGitRepository
  else if ref.Kind = OCIRepositoryKind then
    getFluxObject w ref.Kind namespacedName env.client.getOCIRepository
  else if ref.Kind = BucketKind then
    getFluxObject w ref.Kind namespacedName env.client.getBucket
  else (.error ("source `" ++ ref.Name ++ "` kind '" ++ ref.Kind ++ "' not supported"), w)

/-- The function `prepareFileSystemWithData`. -/
def prepareFileSystemWithData (env : Env) (w : World)
    (binaryData : Option (GoMap String GoBytes)) (ref : ObjectReference) :
    Except GoError Path × World :=
  let key := "ytt.tar.gz"
  match binaryData.bind (fun m => m.lookup key) with
  | none => (.error (key ++ " missing"), w)
  | some binaryTarGz =>
    let w1 := w.log (.mkdirTemp ("ytt-" ++ ref.Namespace ++ "-" ++ ref.Name))
    match env.mkdirTemp w.fs ("ytt-" ++ ref.Namespace ++ "-" ++ ref.Name) with
    | .error err => (.error ("tmp dir error: " ++ err), w1)
    | .ok tmpDir =>
      let filePath := Join tmpDir key.toList
      let w2 := { w1 with fs := w1.fs.store tmpDir .dir }.log (.writeFile filePath)
      match WriteFile w2.fs filePath (binaryTarGz.getD []) with
      | (fs3, some err) => (.error err.text, { w2 with fs := fs3 })
      | (fs3, none) =>
        let extracted := Join tmpDir "extracted".toList
        let w3 := { w2 with fs := fs3 }.log (.extract filePath extracted)
        match extractTarGzFile env w3.fs filePath extracted with
        | (fs4, some err) => (.error err.text, { w3 with fs := fs4 })
        | (fs4, none) => (.ok extracted, { w3 with fs := fs4 })

/-- The function `prepareFileSystemWithConfigMap`. -/
def prepareFileSystemWithConfigMap (env : Env) (w : World) (ref : ObjectReference) :
    Except GoError Path × World :=
  match getConfigMap env w ⟨ref.Namespace, ref.Name⟩ with
  | (.error err, w1) => (.error err, w1)
  | (.ok configMap, w1) => prepareFileSystemWithData env w1 configMap.BinaryData ref

/-- The function `prepareFileSystemWithSecret`. -/
def prepareFileSystemWithSecret (env : Env) (w : World) (ref : ObjectReference) :
    Except GoError Path × World :=
  match getSecret env w ⟨ref.Namespace, ref.Name⟩ with
  | (.error err, w1) => (.error err, w1)
  | (.ok secret, w1) => prepareFileSystemWithData env w1 secret.Data ref

/-- The function `prepareFileSystemWithFluxSource`. When the source has no artifact it
returns the empty path together with `err`, which is `nil` at that point. -/
def prepareFileSystemWithFluxSource (env : Env) (w : World) (ref : ObjectReference) :
    Except GoError Path × World :=
  match getSource env w ref with
  | (.error err, w1) => (.error err, w1)
  | (.ok none, w1) =>
    (.error ("source " ++ ref.Kind ++ " " ++ ref.Namespace ++ "/" ++ ref.Name ++ " not found"),
      w1)
  | (.ok (some fluxSource), w1) =>
    match fluxSource.Artifact with
    | none => (.ok [], w1)
    | some artifact =>
      let w2 := w1.log (.mkdirTemp ("kustomization-" ++ ref.Namespace ++ "-" ++ ref.Name))
      match env.mkdirTemp w1.fs ("kustomization-" ++ ref.Namespace ++ "-" ++ ref.Name) with
      | .error err => (.error ("tmp dir error: " ++ err), w2)
      | .ok tmpDir =>
        let w3 := { w2 with fs := w2.fs.store tmpDir .dir }.log
          (.fetch artifact.URL artifact.Digest tmpDir)
        match env.fetch artifact.URL artifact.Digest tmpDir w3.fs with
        | (fs4, some err) => (.error err, { w3 with fs := fs4 })
        | (fs4, none) => (.ok tmpDir, { w3 with fs := fs4 })

/-- The method `prepareFileSystem`. -/
def prepareFileSystem (env : Env) (w : World) (yttSource : YttSource) :
    Except GoError Path × World :=
  let ref := getCurrentReference yttSource
  if ref.Kind = ConfigMapReferencedResourceKind then prepareFileSystemWithConfigMap env w ref
  else if ref.Kind = SecretReferencedResourceKind then prepareFileSystemWithSecret env w ref
  else prepareFileSystemWithFluxSource env w ref

/-! ## Reconciliation -/

/-- The steps of `reconcileNormal` once the staging directory exists: check the build path,
gather the files, run ytt, serialise the documents. -/
def renderStagingDir (env : Env) (w : World) (tmpDir : Path) (yttSource : YttSource) :
    Except GoError String × World :=
  let dirPath := Join tmpDir yttSource.Spec.Path.toList
  match Stat w.fs dirPath with
  | none => (.error ("stat " ++ String.mk dirPath ++ ": no such file or directory"), w)
  | some _ =>
    match templatesAsInput w.fs dirPath yttSource with
    | .error err => (.error err, w)
    | .ok input =>
      let w1 := w.log (.render dirPath)
      match env.RunWithFiles input with
      | .error err => (.error err, w1)
      | .ok docSet =>
        match env.AsBytes docSet with
        | .error err => (.error err, w1)
        | .ok bs => (.ok bs, w1)

/-- The method `reconcileNormal`: the rendered text or the error, the index and the world
afterwards. The deferred `os.RemoveAll(tmpDir)` runs when the function returns after the
staging directory was obtained. -/
def reconcileNormal (env : Env) (r : YttSourceReconciler) (w : World) (yttSource : YttSource) :
    Except GoError String × YttSourceReconciler × World :=
  let r1 := updateMaps r yttSource
  match prepareFileSystem env w yttSource with
  | (.error err, w1) => (.error err, r1, w1)
  | (.ok tmpDir, w1) =>
    if tmpDir = [] then (.ok "", r1, w1)
    else
      match renderStagingDir env w1 tmpDir yttSource with
      | (res, w2) =>
        (res, r1, { w2 with fs := RemoveAll w2.fs tmpDir }.log (.removeAll tmpDir))

/-- The method `Close`: the status patch through the patch helper created from the object as
it was loaded. -/
def Close (env : Env) (w : World) (loaded yttSource : YttSource) : Option GoError × World :=
  (env.patch loaded yttSource, w.log (.patch yttSource))

/-- What `Reconcile` leaves: the error it returns (`none` for `nil`), the object in memory
when it was loaded, the index and the world. -/
structure ReconcileResult where
  reterr : Option GoError
  object : Option YttSource
  r : YttSourceReconciler
  world : World

/-- The deferred function of `Reconcile`: close the scope, and return its error when there
is one in place of the error the body returned. -/
def closeDeferred (env : Env) (r : YttSourceReconciler) (w : World)
    (loaded yttSource : YttSource) (bodyErr : Option GoError) : ReconcileResult :=
  match Close env w loaded yttSource with
  | (some err, w1) => ⟨some err, some yttSource, r, w1⟩
  | (none, w1) => ⟨bodyErr, some yttSource, r, w1⟩

/-- The method `Reconcile`. -/
def Reconcile (env : Env) (r : YttSourceReconciler) (w : World) (req : NamespacedName) :
    ReconcileResult :=
  let w1 := w.log (.get req)
  match env.client.getYttSource req with
  | .error err =>
    if err.notFound then ⟨none, none, r, w1⟩
    else ⟨some ("Failed to fetch YttSource " ++ req.text ++ ": " ++ err.text), none, r, w1⟩
  | .ok yttSource =>
    match env.newHelper yttSource with
    | some err => ⟨some ("failed to init patch helper: " ++ err), some yttSource, r, w1⟩
    | none =>
      if yttSource.DeletionTimestamp.isSome then
        closeDeferred env (cleanMaps r yttSource) w1 yttSource yttSource none
      else
        match reconcileNormal env r w1 yttSource with
        | (.error err, r2, w2) =>
          closeDeferred env r2 w2 yttSource
            { yttSource with Status := { FailureMessage := some err, Resources := "" } }
            (some err)
        | (.ok resources, r2, w2) =>
          closeDeferred env r2 w2 yttSource
            { yttSource with Status := { FailureMessage := none, Resources := resources } }
            none

/-- Whether an action is a status patch. -/
def Action.isPatch : Action → Bool
  | .patch _ => true
  | _ => false

/-- Whether an action is an artifact fetch. -/
def Action.isFetch : Action → Bool
  | .fetch _ _ _ => true
  | _ => false

/-- The world `w1` continues `w`: its record is that of `w` followed by actions none of
which is a status patch. -/
def World.ContinuedBy (w w1 : World) : Prop :=
  ∃ added : List Action, w1.trace = w.trace ++ added ∧ ∀ a ∈ added, a.isPatch = false

/-! ## A sample cluster -/

/-- The not-found error of the API client. -/
def sampleNotFound : ApiError := ⟨true, "not found"⟩

/-- A `YttSource` `ns1/git` that references the GitRepository `flux/repo`. -/
def sampleGitSource : YttSource :=
  { Namespace := "ns1", Name := "git"
    Spec := { Namespace := "flux", Name := "repo", Kind := "GitRepository" } }

/-- A `YttSource` `ns1/cm` that references the ConfigMap `cfg/nopayload`. -/
def sampleConfigMapSource : YttSource :=
  { Namespace := "ns1", Name := "cm"
    Spec := { Namespace := "cfg", Name := "nopayload", Kind := "ConfigMap" } }

/-- A `YttSource` `ns1/gone` marked for deletion, with a rendered status. -/
def sampleDeleted : YttSource :=
  { Namespace := "ns1", Name := "gone"
    Spec := { Namespace := "cfg", Name := "nopayload", Kind := "ConfigMap" }
    Status := { Resources := "kind: Namespace", FailureMessage := none }
    DeletionTimestamp := some 1 }

/-- A cluster with the three sample objects, the GitRepository `flux/repo` without artifact
and the ConfigMap `cfg/nopayload` without binary data. -/
def sampleClient : Client :=
  { getYttSource := fun n =>
      if n = ⟨"ns1", "git"⟩ then .ok sampleGitSource
      else if n = ⟨"ns1", "cm"⟩ then .ok sampleConfigMapSource
      else if n = ⟨"ns1", "gone"⟩ then .ok sampleDeleted
      else .error sampleNotFound
    getConfigMap := fun n =>
      if n = ⟨"cfg", "nopayload"⟩ then .ok { Namespace := "cfg", Name := "nopayload" }
      else .error sampleNotFound
    getSecret := fun _ => .error sampleNotFound
    getGitRepository := fun n =>
      if n = ⟨"flux", "repo"⟩ then .ok ⟨"", "flux", "repo", none⟩ else .error sampleNotFound
    getOCIRepository := fun _ => .error sampleNotFound
    getBucket := fun _ => .error sampleNotFound }

/-- Collaborators that never fail. -/
def sampleEnv : Env :=
  { client := sampleClient
    newHelper := fun _ => none
    patch := fun _ _ => none
    mkdirTemp := fun _ pattern => .ok ("/tmp/" ++ pattern ++ "-1").toList
    readArchive := fun _ => sampleWalk
    fetch := fun _ _ _ fs => (fs, none)
    RunWithFiles := fun files => .ok (files.map Prod.fst)
    AsBytes := fun docs => .ok (String.intercalate "---" docs) }

/-- A world with the temporary directory `/tmp` and no action recorded. -/
def sampleWorld : World := ⟨GoMap.empty.store "/tmp".toList .dir, []⟩

/-- Whether an action creates a temporary directory. -/
def Action.isMkdirTemp : Action → Bool
  | .mkdirTemp _ => true
  | _ => false

/-! ## Change filter (`yttsource_predicates.go`) -/

/-- The keys of a Go map, each once. -/
def GoMap.keys {κ ν : Type} [DecidableEq κ] (m : GoMap κ ν) : List κ :=
  (m.entries.map Prod.fst).dedup

/-- The value of `len(m)`. -/
def GoMap.Len {κ ν : Type} [DecidableEq κ] (m : GoMap κ ν) : Nat := m.keys.length

/-- The function `reflect.DeepEqual` on two `[]byte` values: both nil or both non-nil, and
the same bytes. -/
def deepEqualBytes (a b : GoBytes) : Bool :=
  match a, b with
  | none, none => true
  | some x, some y => x.length == y.length && x == y
  | _, _ => false

/-- The function `reflect.DeepEqual` on two maps with string keys, `eqv` comparing the
values: both nil or both non-nil, the same length, and every key of the first bound in the
second to a deeply equal value. -/
def deepEqualMap {ν : Type} (eqv : ν → ν → Bool) (a b : Option (GoMap String ν)) : Bool :=
  match a, b with
  | none, none => true
  | some m1, some m2 =>
    m1.Len == m2.Len &&
      m1.keys.all (fun k =>
        match m1.lookup k, m2.lookup k with
        | some v1, some v2 => eqv v1 v2
        | _, _ => false)
  | _, _ => false

/-- The type `event.UpdateEvent`; `ObjectOld` may be a nil pointer. -/
structure UpdateEvent (α : Type) where
  ObjectOld : Option α
  ObjectNew : α

/-- The type `event.CreateEvent`. -/
structure CreateEvent (α : Type) where
  Object : α

/-- The type `event.DeleteEvent`. -/
structure DeleteEvent (α : Type) where
  Object : α

/-- The type `event.GenericEvent`. -/
structure GenericEvent (α : Type) where
  Object : α

/-- The type `predicate.Funcs`. -/
structure Funcs (α : Type) where
  CreateFunc : CreateEvent α → Bool
  DeleteFunc : DeleteEvent α → Bool
  UpdateFunc : UpdateEvent α → Bool
  GenericFunc : GenericEvent α → Bool

/-- The function `CreateFuncTrue`. -/
def CreateFuncTrue {α : Type} (_e : CreateEvent α) : Bool := true

/-- The function `DeleteFuncTrue`. -/
def DeleteFuncTrue {α : Type} (_e : DeleteEvent α) : Bool := true

/-- The function `GenericFuncFalse`. -/
def GenericFuncFalse {α : Type} (_e : GenericEvent α) : Bool := false

/-- The function `ConfigMapPredicates`. -/
def ConfigMapPredicates : Funcs ConfigMap :=
  { UpdateFunc := fun e =>
      let newConfigMap := e.ObjectNew
      match e.ObjectOld with
      | none => true
      | some oldConfigMap =>
        if !deepEqualMap deepEqualBytes oldConfigMap.BinaryData newConfigMap.BinaryData then true
        else false
    CreateFunc := fun e => CreateFuncTrue e
    DeleteFunc := fun e => DeleteFuncTrue e
    GenericFunc := fun e => GenericFuncFalse e }

/-- The function `SecretPredicates`. -/
def SecretPredicates : Funcs Secret :=
  { UpdateFunc := fun e =>
      let newSecret := e.ObjectNew
      match e.ObjectOld with
      | none => true
      | some oldSecret =>
        if !deepEqualMap deepEqualBytes oldSecret.Data newSecret.Data then true
        else false
    CreateFunc := fun e => CreateFuncTrue e
    DeleteFunc := fun e => DeleteFuncTrue e
    GenericFunc := fun e => GenericFuncFalse e }

/-- The function `reflect.DeepEqual` on two artifacts: every field deeply equal. -/
def deepEqualArtifact (a b : Artifact) : Bool :=
  a.Path == b.Path && a.URL == b.URL && a.Revision == b.Revision && a.Digest == b.Digest &&
    a.LastUpdateTime == b.LastUpdateTime && a.Size == b.Size &&
    deepEqualMap (fun x y : String => x == y) a.Metadata b.Metadata

/-- The function `isArtifactSame`. -/
def isArtifactSame (oldArtifact newArtifact : Option Artifact) : Bool :=
  if oldArtifact.isNone ∧ newArtifact.isSome then false
  else if oldArtifact.isSome ∧ newArtifact.isNone then false
  else
    match oldArtifact, newArtifact with
    | some a, some b => deepEqualArtifact a b
    | none, none => true
    | _, _ => false

/-- One case of the switch of `hasArtifactChanged`: the two type assertions to the Go type
of the case, which panic (`none`) when the watched object is of another Go type, then the
comparison. -/
def artifactCase (caseType goType : GoType) (objNew : FluxObject) (objOld : Option FluxObject) :
    Option Bool :=
  if goType ≠ caseType then none
  else
    match objOld with
    | none => some true
    | some old => some (!isArtifactSame old.Artifact objNew.Artifact)

/-- The function `hasArtifactChanged` on objects of Go type `goType`; the switch is on the
kind in the type metadata of the new object. -/
def hasArtifactChanged (goType : GoType) (objNew : FluxObject) (objOld : Option FluxObject) :
    Option Bool :=
  if objNew.Kind = GitRepositoryKind then artifactCase .GitRepository goType objNew objOld
  else if objNew.Kind = BucketKind then artifactCase .Bucket goType objNew objOld
  else if objNew.Kind = OCIRepositoryKind then artifactCase .OCIRepository goType objNew objOld
  else some false

/-- The function `fluxCreatePredicate`. -/
def fluxCreatePredicate (_obj : FluxObject) : Bool := true

/-- The function `fluxUpdatePredicate`. -/
def fluxUpdatePredicate (goType : GoType) (objNew : FluxObject) (objOld : Option FluxObject) :
    Option Bool :=
  (hasArtifactChanged goType objNew objOld).map (fun changed => if changed then true else false)

/-- The function `fluxDeletePredicate`. -/
def fluxDeletePredicate (_obj : FluxObject) : Bool := true

/-- The function `fluxGenericPredicate`. -/
def fluxGenericPredicate (_obj : FluxObject) : Bool := false

/-- The typed predicates `FluxGitRepositoryPredicate`, `FluxOCIRepositoryPredicate` and
`FluxBucketPredicate`, by the Go type they are instantiated at. -/
structure FluxPredicate where
  goType : GoType

/-- The method `Create` of the typed predicates. -/
def FluxPredicate.Create (_p : FluxPredicate) (obj : CreateEvent FluxObject) : Bool :=
  fluxCreatePredicate obj.Object

/-- The method `Update` of the typed predicates. -/
def FluxPredicate.Update (p : FluxPredicate) (obj : UpdateEvent FluxObject) : Option Bool :=
  fluxUpdatePredicate p.goType obj.ObjectNew obj.ObjectOld

/-- The method `Delete` of the typed predicates. -/
def FluxPredicate.Delete (_p : FluxPredicate) (obj : DeleteEvent FluxObject) : Bool :=
  fluxDeletePredicate obj.Object

/-- The method `Generic` of the typed predicates. -/
def FluxPredicate.Generic (_p : FluxPredicate) (obj : GenericEvent FluxObject) : Bool :=
  fluxGenericPredicate obj.Object

/-- The predicate `FluxGitRepositoryPredicate`. -/
def FluxGitRepositoryPredicate : FluxPredicate := ⟨.GitRepository⟩

/-- The predicate `FluxOCIRepositoryPredicate`. -/
def FluxOCIRepositoryPredicate : FluxPredicate := ⟨.OCIRepository⟩

/-- The predicate `FluxBucketPredicate`. -/
def FluxBucketPredicate : FluxPredicate := ⟨.Bucket⟩

/-- The bytes the payload field holds under key `k`: none when the key is absent, no bytes
for a nil or empty value. -/
def payloadAt (m : Option (GoMap String GoBytes)) (k : String) : Option Bytes :=
  (m.bind (fun g => g.lookup k)).map (fun v => v.getD [])

/-- The ConfigMap `cfg/a` with a nil `BinaryData` map. -/
def sampleNilPayload : ConfigMap := { Namespace := "cfg", Name := "a", BinaryData := none }

/-- The ConfigMap `cfg/a` with an empty, non-nil `BinaryData` map. -/
def sampleEmptyPayload : ConfigMap :=
  { Namespace := "cfg", Name := "a", BinaryData := some GoMap.empty }

/-- An artifact of the GitRepository `flux/repo`. -/
def sampleArtifact : Artifact :=
  { Path := "gitrepository/flux/repo/1.tar.gz", URL := "http://source/repo/latest.tar.gz"
    Revision := "main@sha1:aaa", Digest := "sha256:1111", LastUpdateTime := 100
    Size := some 10, Metadata := none }

/-- The same artifact reported with another revision: URL and digest as before. -/
def sampleArtifactOtherRevision : Artifact :=
  { sampleArtifact with Revision := "main@sha1:bbb" }

/-- The ConfigMap `cfg/a` with the payload bytes 1, 2, 3. -/
def samplePayload : ConfigMap :=
  { Namespace := "cfg", Name := "a"
    BinaryData := some (GoMap.empty.store "ytt.tar.gz" (some [1, 2, 3])) }

/-- The ConfigMap `cfg/a` with the payload bytes 1, 2, 4: one byte differs. -/
def samplePayloadOtherByte : ConfigMap :=
  { Namespace := "cfg", Name := "a"
    BinaryData := some (GoMap.empty.store "ytt.tar.gz" (some [1, 2, 4])) }

/-- The GitRepository `flux/repo` as a watch event delivers it: no kind in the type
metadata, no artifact. -/
def sampleGitNotReady : FluxObject := ⟨"", "flux", "repo", none⟩

/-- The GitRepository `flux/repo` as a watch event delivers it, with its artifact. -/
def sampleGitReady : FluxObject := ⟨"", "flux", "repo", some sampleArtifact⟩

/-! ## Samples for the resolver and the orchestrator -/

/-- A `YttSource` `ns1/nokind` whose `spec.kind` is left empty. -/
def sampleNoKind : YttSource :=
  { Namespace := "ns1", Name := "nokind", Spec := { Namespace := "cfg", Name := "a", Kind := "" } }

/-- A second object of the index, `ns1/src2`, beside `sampleA`. -/
def sampleOther : YttSource :=
  { Namespace := "ns1", Name := "src2"
    Spec := { Namespace := "cfg", Name := "a", Kind := "ConfigMap" } }

/-- The ConfigMap `cfg/tpl` with a payload under the key `ytt.tar.gz`. -/
def sampleTemplates : ConfigMap :=
  { Namespace := "cfg", Name := "tpl"
    BinaryData := some (GoMap.empty.store "ytt.tar.gz" (some [31, 139, 8])) }

/-- A `YttSource` `ns1/ok` that references the ConfigMap `cfg/tpl`. -/
def sampleRendered : YttSource :=
  { Namespace := "ns1", Name := "ok"
    Spec := { Namespace := "cfg", Name := "tpl", Kind := "ConfigMap" } }

/-- The sample cluster with `ns1/ok` and the ConfigMap `cfg/tpl`. -/
def samplePayloadClient : Client :=
  { sampleClient with
    getYttSource := fun n =>
      if n = ⟨"ns1", "ok"⟩ then .ok sampleRendered else .error sampleNotFound
    getConfigMap := fun n =>
      if n = ⟨"cfg", "tpl"⟩ then .ok sampleTemplates else .error sampleNotFound }

/-- Collaborators that never fail, over the cluster with the payload; the payload decodes to
the archive of the extraction test. -/
def samplePayloadEnv : Env := { sampleEnv with client := samplePayloadClient }

/-- An archive with the single regular file `a.yaml` and no directory entry, as
`tar -czf ytt.tar.gz a.yaml` writes it. -/
def sampleFilesOnly : Archive := { entries := [⟨"a.yaml".toList, .TypeReg, [1]⟩] }

/-- The collaborators of `samplePayloadEnv`, with a payload that decodes to `sampleFilesOnly`. -/
def sampleFilesOnlyEnv : Env := { samplePayloadEnv with readArchive := fun _ => sampleFilesOnly }

/-- An archive with two entries for `a.txt`: three bytes, then one byte. -/
def sampleDuplicate : Archive :=
  { entries := [⟨"a.txt".toList, .TypeReg, [1, 2, 3]⟩, ⟨"a.txt".toList, .TypeReg, [9]⟩] }

/-- The file system after `prepareFileSystemWithData` created `/tmp/ytt-cfg-tpl-1` and wrote
the payload into it; the subdirectory `extracted` is not created yet. -/
def sampleStagedFS : FileSystem :=
  (sampleWorld.fs.store "/tmp/ytt-cfg-tpl-1".toList .dir).store
    "/tmp/ytt-cfg-tpl-1/ytt.tar.gz".toList (.file [31, 139, 8])

/-! ## Template identifiers -/

/-- The identifier `fmt.Sprintf("tpl%d-%s-%s/%s", i, namespace, name, file)` that
`templatesAsInput` gives the `i`-th file. -/
def templateName (i : Nat) (ns name : String) (file : Path) : String :=
  "tpl" ++ toString i ++ "-" ++ ns ++ "-" ++ name ++ "/" ++ String.mk file

/-- A character of a Kubernetes name (RFC 1123): a lower-case letter, a digit, `-` or `.`. -/
def isNameChar (c : Char) : Bool := c.isLower || c.isDigit || c == '-' || c == '.'

/-- A valid Kubernetes namespace or object name: made of name characters, with a letter or
digit at both ends (so not empty). -/
def isKubernetesName (s : String) : Bool :=
  s.data.all isNameChar &&
    (match s.data.head? with
      | some c => c.isAlphanum
      | none => false) &&
    (match s.data.getLast? with
      | some c => c.isAlphanum
      | none => false)

/-- The value of a decimal digit. -/
def digitValue (c : Char) : Nat := c.toNat - 48

/-- The number a sequence of decimal digits stands for. -/
def decodeDigits (l : List Char) : Nat := l.foldl (fun a c => 10 * a + digitValue c) 0

/-- A directory `/d` that holds the directory `a` with the file `a/x`, and the file `a.txt`. -/
def sampleTreeFS : FileSystem :=
  (((GoMap.empty.store "/d".toList .dir).store "/d/a".toList .dir).store
    "/d/a/x".toList (.file [1])).store "/d/a.txt".toList (.file [2])

/-- A `YttSource` named `c` in the namespace `a-b`. -/
def sampleDashNamespace : YttSource :=
  { Namespace := "a-b", Name := "c", Spec := { Namespace := "cfg", Name := "tpl", Kind := "ConfigMap" } }

/-- A `YttSource` named `b-c` in the namespace `a`. -/
def sampleDashName : YttSource :=
  { Namespace := "a", Name := "b-c", Spec := { Namespace := "cfg", Name := "tpl", Kind := "ConfigMap" } }

/-! ## Directory trees and the order of a walk -/

/-- The shape of a directory tree: every entry of the file system is a cleaned path of plain
elements, and the directory that holds it exists. -/
def isTree (fs : FileSystem) : Bool :=
  fs.entries.all (fun e => isPlainPath e.1 && decide (Stat fs (containerOf e.1) = some .dir))

/-- The rank of a character in the order of a walk: the separator first, then the other
characters by code. -/
def walkRank (c : Char) : Nat := if c = '/' then 0 else c.toNat + 1

/-- The order in which `filepath.Walk` meets paths: character by character, with the
separator ahead of every other character; that is, element by element, each element in byte
order. -/
def walkLE : Path → Path → Bool
  | [], _ => true
  | _ :: _, [] => false
  | a :: as, b :: bs =>
    if walkRank a < walkRank b then true
    else if walkRank b < walkRank a then false
    else walkLE as bs

/-- The number of entries of the file system below `path`. -/
def countBelow (fs : FileSystem) (path : Path) : Nat :=
  (fs.entries.filter (fun e => (path ++ ['/']).isPrefixOf e.1)).length

-- End of the definitions; lemmas and theorems follow.

/-! ## Lemmas on Go maps and sets -/

namespace GoMap

variable {κ ν : Type} [DecidableEq κ]

@[simp] theorem lookup_empty (k : κ) : (GoMap.empty : GoMap κ ν).lookup k = none := rfl

theorem find_filter_ne (l : List (κ × ν)) (k k1 : κ) (h : k1 ≠ k) :
    (l.filter (fun p => decide (p.1 ≠ k))).find? (fun p => decide (p.1 = k1))
      = l.find? (fun p => decide (p.1 = k1)) := by
  induction l with
  | nil => rfl
  | cons a l ih =>
    by_cases ha : a.1 = k
    · have hne : ¬ a.1 = k1 := fun h1 => h (h1.symm.trans ha)
      have h1 : decide (a.1 ≠ k) = false := by simp [ha]
      have h2 : decide (a.1 = k1) = false := by simp [hne]
      simp only [List.filter_cons, h1, List.find?_cons, h2]
      exact ih
    · have h1 : decide (a.1 ≠ k) = true := by simp [ha]
      simp only [List.filter_cons, h1, if_true, List.find?_cons, ih]

theorem find_filter_self (l : List (κ × ν)) (k : κ) :
    (l.filter (fun p => decide (p.1 ≠ k))).find? (fun p => decide (p.1 = k)) = none := by
  induction l with
  | nil => rfl
  | cons a l ih =>
    by_cases ha : a.1 = k
    · have h1 : decide (a.1 ≠ k) = false := by simp [ha]
      simp only [List.filter_cons, h1]
      exact ih
    · have h1 : decide (a.1 ≠ k) = true := by simp [ha]
      have h2 : decide (a.1 = k) = false := by simp [ha]
      simp only [List.filter_cons, h1, if_true, List.find?_cons, h2]
      exact ih

@[simp] theorem lookup_store_self (m : GoMap κ ν) (k : κ) (v : ν) :
    (m.store k v).lookup k = some v := by
  simp [lookup, store]

theorem lookup_store_ne (m : GoMap κ ν) (k k1 : κ) (v : ν) (h : k1 ≠ k) :
    (m.store k v).lookup k1 = m.lookup k1 := by
  have hk : decide (k = k1) = false := decide_eq_false (fun e => h (Eq.symm e))
  unfold lookup store
  simp only [List.find?_cons, hk]
  rw [find_filter_ne _ _ _ h]

theorem lookup_store (m : GoMap κ ν) (k k1 : κ) (v : ν) :
    (m.store k v).lookup k1 = if k1 = k then some v else m.lookup k1 := by
  by_cases h : k1 = k
  · subst h; simp
  · simp [h, lookup_store_ne _ _ _ _ h]

@[simp] theorem lookup_delete_self (m : GoMap κ ν) (k : κ) : (m.delete k).lookup k = none := by
  unfold lookup delete
  simp only [find_filter_self, Option.map_none']

theorem lookup_delete_ne (m : GoMap κ ν) (k k1 : κ) (h : k1 ≠ k) :
    (m.delete k).lookup k1 = m.lookup k1 := by
  unfold lookup delete
  simp only [find_filter_ne _ _ _ h]

theorem lookup_mapValues (f : ν → ν) (m : GoMap κ ν) (k : κ) :
    (m.mapValues f).lookup k = (m.lookup k).map f := by
  obtain ⟨l⟩ := m
  simp only [lookup, mapValues]
  induction l with
  | nil => rfl
  | cons a l ih =>
    by_cases ha : a.1 = k
    · simp [List.find?_cons, ha]
    · simp only [List.map_cons, List.find?_cons, ha, decide_False]
      exact ih

end GoMap

/-! ## Lemmas on the reference sets -/

open libsveltosset in
theorem Set_mem_Insert (s : Set) (e x : ObjectReference) :
    x ∈ (s.Insert e).Items ↔ x = e ∨ x ∈ s.Items := by
  unfold Set.Insert Set.Items
  by_cases h : e ∈ s.data
  · simp only [h, dite_true]
    constructor
    · exact Or.inr
    · rintro (rfl | hx)
      · exact h
      · exact hx
  · simp only [h, dite_false, List.mem_append, List.mem_singleton]
    exact Or.comm

open libsveltosset in
theorem Set_mem_Erase (s : Set) (e x : ObjectReference) :
    x ∈ (s.Erase e).Items ↔ x ∈ s.Items ∧ x ≠ e := by
  simp [Set.Erase, Set.Items]

open libsveltosset in
theorem Set_Items_singleton (e : ObjectReference) : (Set.empty.Insert e).Items = [e] := by
  simp [Set.Insert, Set.empty, Set.Items]

open libsveltosset in
theorem Set_mem_Difference (s b : Set) (x : ObjectReference) :
    x ∈ s.Difference b ↔ x ∈ s.Items ∧ x ∉ b.Items := by
  simp [Set.Difference, Set.Items, Set.Has]

open libsveltosset in
theorem Set_Has_iff (s : Set) (x : ObjectReference) : s.Has x = true ↔ x ∈ s.Items := by
  simp [Set.Has, Set.Items]

/-! ## Lemmas on the dependents sets -/

theorem dependentsOf_eq (m : GoMap ObjectReference libsveltosset.Set) (ref : ObjectReference) :
    dependentsOf m ref = match m.lookup ref with
      | some s => s.Items
      | none => [] := by
  unfold dependentsOf getReferenceMapForEntry
  cases m.lookup ref <;> rfl

theorem lookup_ensure (m : GoMap ObjectReference libsveltosset.Set) (e : ObjectReference) :
    (getReferenceMapForEntry m e).2.lookup e = some (getReferenceMapForEntry m e).1 := by
  unfold getReferenceMapForEntry
  cases h : m.lookup e with
  | none => simp
  | some s => simpa using h

theorem dependentsOf_ensure (m : GoMap ObjectReference libsveltosset.Set)
    (e ref : ObjectReference) :
    dependentsOf (getReferenceMapForEntry m e).2 ref = dependentsOf m ref := by
  rw [dependentsOf_eq, dependentsOf_eq]
  unfold getReferenceMapForEntry
  cases h : m.lookup e with
  | some s => rfl
  | none =>
    simp only [GoMap.lookup_store]
    by_cases hr : ref = e
    · subst hr; simp [h, libsveltosset.Set.empty, libsveltosset.Set.Items]
    · simp [hr]

theorem dependentsOf_store (m : GoMap ObjectReference libsveltosset.Set)
    (e ref : ObjectReference) (s : libsveltosset.Set) :
    dependentsOf (m.store e s) ref = if ref = e then s.Items else dependentsOf m ref := by
  rw [dependentsOf_eq, dependentsOf_eq, GoMap.lookup_store]
  by_cases hr : ref = e <;> simp [hr]

theorem mem_dependentsOf_insertForEntry (m : GoMap ObjectReference libsveltosset.Set)
    (e k ref x : ObjectReference) :
    x ∈ dependentsOf (insertForEntry m e k) ref ↔
      (ref = e ∧ x = k) ∨ x ∈ dependentsOf m ref := by
  unfold insertForEntry
  simp only [dependentsOf_store]
  by_cases hr : ref = e
  · subst hr
    simp only [if_true, Set_mem_Insert, true_and]
    rfl
  · simp only [hr, if_false, false_and, false_or]
    rw [dependentsOf_ensure]

theorem mem_dependentsOf_eraseForEntry (m : GoMap ObjectReference libsveltosset.Set)
    (e k ref x : ObjectReference) :
    x ∈ dependentsOf (eraseForEntry m e k) ref ↔
      x ∈ dependentsOf m ref ∧ ¬ (ref = e ∧ x = k) := by
  unfold eraseForEntry
  simp only [dependentsOf_store]
  by_cases hr : ref = e
  · subst hr
    simp only [if_true, Set_mem_Erase, true_and]
    rfl
  · simp only [hr, if_false, false_and, not_false_eq_true, and_true]
    rw [dependentsOf_ensure]

theorem mem_dependentsOf_foldl_erase (l : List ObjectReference)
    (m : GoMap ObjectReference libsveltosset.Set) (k ref x : ObjectReference) :
    x ∈ dependentsOf (l.foldl (fun m1 e => eraseForEntry m1 e k) m) ref ↔
      x ∈ dependentsOf m ref ∧ ¬ (ref ∈ l ∧ x = k) := by
  induction l generalizing m with
  | nil => simp
  | cons e l ih =>
    rw [List.foldl_cons, ih, mem_dependentsOf_eraseForEntry]
    simp only [List.mem_cons]
    tauto

theorem mem_dependentsOf_mapValues_Erase (m : GoMap ObjectReference libsveltosset.Set)
    (k ref x : ObjectReference) :
    x ∈ dependentsOf (m.mapValues (fun s => s.Erase k)) ref ↔
      x ∈ dependentsOf m ref ∧ x ≠ k := by
  rw [dependentsOf_eq, dependentsOf_eq, GoMap.lookup_mapValues]
  cases m.lookup ref with
  | none => simp
  | some s => simpa using Set_mem_Erase s k x

/-- The references `updateMaps` drops the object from: the old entry minus the current one. -/
theorem mem_dependentsOf_updateMaps (r : YttSourceReconciler) (y : YttSource)
    (ref x : ObjectReference) :
    x ∈ dependentsOf (updateMaps r y).ReferenceMap ref ↔
      ((ref = getCurrentReference y ∧ x = getKeyFromObject r.Scheme y) ∨
        x ∈ dependentsOf r.ReferenceMap ref) ∧
      ¬ ((∃ v, r.YttSourceMap.lookup ⟨y.Namespace, y.Name⟩ = some v ∧ ref ∈ v.Items ∧
            ref ≠ getCurrentReference y) ∧ x = getKeyFromObject r.Scheme y) := by
  unfold updateMaps
  simp only [mem_dependentsOf_foldl_erase, mem_dependentsOf_insertForEntry]
  cases h : r.YttSourceMap.lookup ⟨y.Namespace, y.Name⟩ with
  | none => simp
  | some v =>
    simp only [Set_mem_Difference, Set_Items_singleton, List.mem_singleton, Option.some.injEq,
      exists_eq_left']

theorem lookup_YttSourceMap_updateMaps (r : YttSourceReconciler) (y : YttSource)
    (n : NamespacedName) :
    (updateMaps r y).YttSourceMap.lookup n =
      if n = ⟨y.Namespace, y.Name⟩ then
        some (libsveltosset.Set.empty.Insert (getCurrentReference y))
      else r.YttSourceMap.lookup n := by
  unfold updateMaps
  simp only [GoMap.lookup_store]

@[simp] theorem Scheme_updateMaps (r : YttSourceReconciler) (y : YttSource) :
    (updateMaps r y).Scheme = r.Scheme := rfl

@[simp] theorem Scheme_cleanMaps (r : YttSourceReconciler) (y : YttSource) :
    (cleanMaps r y).Scheme = r.Scheme := rfl

theorem mem_dependentsOf_cleanMaps (r : YttSourceReconciler) (y : YttSource)
    (ref x : ObjectReference) :
    x ∈ dependentsOf (cleanMaps r y).ReferenceMap ref ↔
      x ∈ dependentsOf r.ReferenceMap ref ∧ x ≠ getKeyFromObject r.Scheme y := by
  unfold cleanMaps
  exact mem_dependentsOf_mapValues_Erase _ _ _ _

theorem lookup_YttSourceMap_cleanMaps (r : YttSourceReconciler) (y : YttSource)
    (n : NamespacedName) :
    (cleanMaps r y).YttSourceMap.lookup n =
      if n = ⟨y.Namespace, y.Name⟩ then none else r.YttSourceMap.lookup n := by
  unfold cleanMaps
  by_cases h : n = ⟨y.Namespace, y.Name⟩
  · subst h; simp
  · simp [h, GoMap.lookup_delete_ne _ _ _ h]

/-! ## Invariants of the reference index -/

theorem key_ne_of_name_ne (scheme : Scheme) (y : YttSource) (n : NamespacedName)
    (h : n ≠ ⟨y.Namespace, y.Name⟩) :
    (⟨scheme.yttSourceAPIVersion, scheme.yttSourceKind, n.Namespace, n.Name⟩ : ObjectReference)
      ≠ getKeyFromObject scheme y := by
  intro e
  apply h
  unfold getKeyFromObject at e
  cases n
  simp only [ObjectReference.mk.injEq] at e
  simp [e.2.2.1, e.2.2.2]

theorem ForwardInv_new (scheme : Scheme) : ForwardInv (YttSourceReconciler.new scheme) := by
  intro n s ref h
  simp [YttSourceReconciler.new] at h

theorem ForwardInv_updateMaps (r : YttSourceReconciler) (y : YttSource) (h : ForwardInv r) :
    ForwardInv (updateMaps r y) := by
  intro n s ref hl hm
  rw [lookup_YttSourceMap_updateMaps] at hl
  rw [mem_dependentsOf_updateMaps, Scheme_updateMaps]
  by_cases hn : n = ⟨y.Namespace, y.Name⟩
  · subst hn
    simp only [if_true, Option.some.injEq] at hl
    subst hl
    rw [Set_Items_singleton, List.mem_singleton] at hm
    subst hm
    refine ⟨Or.inl ⟨rfl, rfl⟩, ?_⟩
    rintro ⟨⟨v, _, _, hne⟩, _⟩
    exact hne rfl
  · simp only [hn, if_false] at hl
    refine ⟨Or.inr (h n s ref hl hm), ?_⟩
    rintro ⟨_, hk⟩
    exact key_ne_of_name_ne r.Scheme y n hn hk

theorem ForwardInv_cleanMaps (r : YttSourceReconciler) (y : YttSource) (h : ForwardInv r) :
    ForwardInv (cleanMaps r y) := by
  intro n s ref hl hm
  rw [lookup_YttSourceMap_cleanMaps] at hl
  rw [mem_dependentsOf_cleanMaps, Scheme_cleanMaps]
  by_cases hn : n = ⟨y.Namespace, y.Name⟩
  · simp [hn] at hl
  · simp only [hn, if_false] at hl
    exact ⟨h n s ref hl hm, key_ne_of_name_ne r.Scheme y n hn⟩

theorem dependentsOf_requeueForKey (r : YttSourceReconciler) (key ref : ObjectReference) :
    dependentsOf (requeueForKey r key).2.ReferenceMap ref = dependentsOf r.ReferenceMap ref := by
  unfold requeueForKey
  simp only [dependentsOf_ensure]

theorem ForwardInv_requeueForKey (r : YttSourceReconciler) (key : ObjectReference)
    (h : ForwardInv r) : ForwardInv (requeueForKey r key).2 := by
  intro n s ref hl hm
  rw [dependentsOf_requeueForKey]
  exact h n s ref hl hm

theorem Reachable_Scheme (scheme : Scheme) (r : YttSourceReconciler) (h : Reachable scheme r) :
    r.Scheme = scheme := by
  induction h with
  | init => rfl
  | update r y _ ih => exact ih
  | clean r y _ ih => exact ih
  | lookupReference r o _ ih => exact ih
  | lookupFlux r o _ ih => exact ih

theorem Reachable_ForwardInv (scheme : Scheme) (r : YttSourceReconciler)
    (h : Reachable scheme r) : ForwardInv r := by
  induction h with
  | init => exact ForwardInv_new scheme
  | update r y _ ih => exact ForwardInv_updateMaps r y ih
  | clean r y _ ih => exact ForwardInv_cleanMaps r y ih
  | lookupReference r o _ ih => exact ForwardInv_requeueForKey r _ ih
  | lookupFlux r o _ ih => exact ForwardInv_requeueForKey r _ ih

theorem BackwardInv_new (scheme : Scheme) : BackwardInv (YttSourceReconciler.new scheme) := by
  intro ref x h
  simp [YttSourceReconciler.new, dependentsOf_eq] at h

theorem BackwardInv_updateMaps (r : YttSourceReconciler) (y : YttSource) (h : BackwardInv r) :
    BackwardInv (updateMaps r y) := by
  intro ref x hx
  rw [mem_dependentsOf_updateMaps] at hx
  obtain ⟨hx, hnot⟩ := hx
  simp only [Scheme_updateMaps, lookup_YttSourceMap_updateMaps]
  rcases hx with ⟨hr, hk⟩ | hold
  · subst hr hk
    refine ⟨rfl, rfl, _, ?_, Set_Items_singleton _⟩
    simp [getKeyFromObject]
  · obtain ⟨ha, hkind, s, hs, hitems⟩ := h ref x hold
    refine ⟨ha, hkind, ?_⟩
    by_cases hn : (⟨x.Namespace, x.Name⟩ : NamespacedName) = ⟨y.Namespace, y.Name⟩
    · have hxk : x = getKeyFromObject r.Scheme y := by
        simp only [NamespacedName.mk.injEq] at hn
        cases x
        simp_all [getKeyFromObject]
      have hcur : ref = getCurrentReference y := by
        by_contra hne
        apply hnot
        refine ⟨⟨s, ?_, ?_, hne⟩, hxk⟩
        · rw [← hn]; exact hs
        · rw [hitems]; exact List.mem_singleton.mpr rfl
      refine ⟨_, if_pos hn, ?_⟩
      rw [Set_Items_singleton, hcur]
    · exact ⟨s, by rw [if_neg hn]; exact hs, hitems⟩

theorem BackwardInv_cleanMaps (r : YttSourceReconciler) (y : YttSource) (h : BackwardInv r) :
    BackwardInv (cleanMaps r y) := by
  intro ref x hx
  rw [mem_dependentsOf_cleanMaps] at hx
  obtain ⟨hold, hne⟩ := hx
  obtain ⟨ha, hkind, s, hs, hitems⟩ := h ref x hold
  simp only [Scheme_cleanMaps, lookup_YttSourceMap_cleanMaps]
  refine ⟨ha, hkind, s, ?_, hitems⟩
  have hn : (⟨x.Namespace, x.Name⟩ : NamespacedName) ≠ ⟨y.Namespace, y.Name⟩ := by
    intro hn
    apply hne
    simp only [NamespacedName.mk.injEq] at hn
    cases x
    simp_all [getKeyFromObject]
  rw [if_neg hn]
  exact hs

theorem ReachableByWrites_BackwardInv (scheme : Scheme) (r : YttSourceReconciler)
    (h : ReachableByWrites scheme r) : BackwardInv r := by
  induction h with
  | init => exact BackwardInv_new scheme
  | update r y _ ih => exact BackwardInv_updateMaps r y ih
  | clean r y _ ih => exact BackwardInv_cleanMaps r y ih

/-! ## Claims on the reference index -/

/-- C1: for every index state and every object, after `updateMaps` registers the object with
reference `refA` and then registers the same object (same namespace and name) with a
different reference `refB`, the dependents set of `refA` does not contain the object and
the dependents set of `refB` does. -/
theorem C1_updateMaps_moves_dependent (r : YttSourceReconciler) (yA yB : YttSource)
    (hns : yA.Namespace = yB.Namespace) (hname : yA.Name = yB.Name)
    (hne : getCurrentReference yA ≠ getCurrentReference yB) :
    (getReferenceMapForEntry (updateMaps (updateMaps r yA) yB).ReferenceMap
        (getCurrentReference yA)).1.Has (getKeyFromObject r.Scheme yA) = false ∧
    (getReferenceMapForEntry (updateMaps (updateMaps r yA) yB).ReferenceMap
        (getCurrentReference yB)).1.Has (getKeyFromObject r.Scheme yA) = true := by
  have hkey : getKeyFromObject r.Scheme yA = getKeyFromObject r.Scheme yB := by
    simp [getKeyFromObject, hns, hname]
  have hl : (updateMaps r yA).YttSourceMap.lookup ⟨yB.Namespace, yB.Name⟩ =
      some (libsveltosset.Set.empty.Insert (getCurrentReference yA)) := by
    rw [lookup_YttSourceMap_updateMaps, hns, hname]
    simp
  constructor
  · rw [Bool.eq_false_iff]
    intro hh
    rw [Set_Has_iff] at hh
    change _ ∈ dependentsOf _ _ at hh
    rw [mem_dependentsOf_updateMaps] at hh
    apply hh.2
    refine ⟨⟨_, hl, ?_, hne⟩, hkey⟩
    rw [Set_Items_singleton]
    exact List.mem_singleton.mpr rfl
  · rw [Set_Has_iff]
    change _ ∈ dependentsOf _ _
    rw [mem_dependentsOf_updateMaps]
    refine ⟨Or.inl ⟨rfl, hkey⟩, ?_⟩
    rintro ⟨⟨v, _, _, h3⟩, _⟩
    exact h3 rfl

/-- C2: in every index state reachable from the empty index by `updateMaps`, `cleanMaps`
and the watch-mapper lookups, whenever `YttSourceMap` maps an object's namespace/name to a
set holding `ref`, the dependents set `ReferenceMap[ref]` contains that object. -/
theorem C2_reference_implies_dependent (scheme : Scheme) (r : YttSourceReconciler)
    (hr : Reachable scheme r) (y : YttSource) (s : libsveltosset.Set) (ref : ObjectReference)
    (hl : r.YttSourceMap.lookup ⟨y.Namespace, y.Name⟩ = some s) (hm : s.Has ref = true) :
    ∃ d, r.ReferenceMap.lookup ref = some d ∧ d.Has (getKeyFromObject r.Scheme y) = true := by
  have h := Reachable_ForwardInv scheme r hr ⟨y.Namespace, y.Name⟩ s ref hl
    ((Set_Has_iff s ref).mp hm)
  rw [dependentsOf_eq] at h
  cases hd : r.ReferenceMap.lookup ref with
  | none => rw [hd] at h; simp at h
  | some d =>
    rw [hd] at h
    exact ⟨d, rfl, (Set_Has_iff d _).mpr h⟩

/-- C3: in every index state reachable from the empty index by `updateMaps` and `cleanMaps`
there are no stale dependents: whenever an object is a member of `ReferenceMap[ref]`,
`YttSourceMap` has an entry for the object's namespace/name and that entry is exactly
the one-element set holding `ref`. -/
theorem C3_no_stale_dependents (scheme : Scheme) (r : YttSourceReconciler)
    (hr : ReachableByWrites scheme r) (ref x : ObjectReference) (d : libsveltosset.Set)
    (hd : r.ReferenceMap.lookup ref = some d) (hx : d.Has x = true) :
    ∃ s, r.YttSourceMap.lookup ⟨x.Namespace, x.Name⟩ = some s ∧ s.Items = [ref] := by
  have hmem : x ∈ dependentsOf r.ReferenceMap ref := by
    rw [dependentsOf_eq, hd]
    exact (Set_Has_iff d x).mp hx
  exact (ReachableByWrites_BackwardInv scheme r hr ref x hmem).2.2

/-- C4: for every index state and every object, after `cleanMaps` on that object
`YttSourceMap` has no entry for its namespace/name, and no dependents set stored in
`ReferenceMap`, under any reference, contains the object. -/
theorem C4_cleanMaps_removes_object (r : YttSourceReconciler) (y : YttSource) :
    (cleanMaps r y).YttSourceMap.lookup ⟨y.Namespace, y.Name⟩ = none ∧
    (∀ (ref : ObjectReference) (d : libsveltosset.Set),
      (cleanMaps r y).ReferenceMap.lookup ref = some d →
        d.Has (getKeyFromObject r.Scheme y) = false) ∧
    (∀ ref : ObjectReference,
      (getReferenceMapForEntry (cleanMaps r y).ReferenceMap ref).1.Has
        (getKeyFromObject r.Scheme y) = false) := by
  have hdep : ∀ ref : ObjectReference,
      getKeyFromObject r.Scheme y ∉ dependentsOf (cleanMaps r y).ReferenceMap ref := by
    intro ref hh
    exact ((mem_dependentsOf_cleanMaps r y ref _).mp hh).2 rfl
  refine ⟨?_, ?_, ?_⟩
  · rw [lookup_YttSourceMap_cleanMaps]; simp
  · intro ref d hd
    have h := hdep ref
    rw [dependentsOf_eq, hd] at h
    rw [Bool.eq_false_iff]
    intro hh
    exact h ((Set_Has_iff d _).mp hh)
  · intro ref
    rw [Bool.eq_false_iff]
    intro hh
    exact hdep ref ((Set_Has_iff _ _).mp hh)

/-- C5: `updateMaps` is idempotent: for every index state and every object, a second
`updateMaps` with the same object leaves every `YttSourceMap` lookup and the membership of
every dependents set as the first call left them. -/
theorem C5_updateMaps_idempotent (r : YttSourceReconciler) (y : YttSource) :
    (∀ n : NamespacedName,
      (updateMaps (updateMaps r y) y).YttSourceMap.lookup n =
        (updateMaps r y).YttSourceMap.lookup n) ∧
    (∀ ref x : ObjectReference,
      (getReferenceMapForEntry (updateMaps (updateMaps r y) y).ReferenceMap ref).1.Has x =
        (getReferenceMapForEntry (updateMaps r y).ReferenceMap ref).1.Has x) := by
  constructor
  · intro n
    rw [lookup_YttSourceMap_updateMaps, lookup_YttSourceMap_updateMaps]
    by_cases hn : n = ⟨y.Namespace, y.Name⟩ <;> simp [hn]
  · intro ref x
    rw [Bool.eq_iff_iff, Set_Has_iff, Set_Has_iff]
    change x ∈ dependentsOf _ _ ↔ x ∈ dependentsOf _ _
    have hl : (updateMaps r y).YttSourceMap.lookup ⟨y.Namespace, y.Name⟩ =
        some (libsveltosset.Set.empty.Insert (getCurrentReference y)) := by
      rw [lookup_YttSourceMap_updateMaps]; simp
    rw [mem_dependentsOf_updateMaps (updateMaps r y) y, Scheme_updateMaps]
    constructor
    · rintro ⟨h1 | h1, _⟩
      · rw [mem_dependentsOf_updateMaps]
        refine ⟨Or.inl h1, ?_⟩
        rintro ⟨⟨v, _, _, h3⟩, _⟩
        exact h3 h1.1
      · exact h1
    · intro h
      refine ⟨Or.inr h, ?_⟩
      rintro ⟨⟨v, hv, hmem, h3⟩, _⟩
      rw [hl] at hv
      cases hv
      rw [Set_Items_singleton, List.mem_singleton] at hmem
      exact h3 hmem


/-- C1 at a concrete input: `ns1/src` re-pointed from the ConfigMap `cfg/a` to `cfg/b` in the empty index. -/
theorem C1_updateMaps_moves_dependent_witness :
    getCurrentReference sampleA ≠ getCurrentReference sampleB ∧
    (getReferenceMapForEntry
        (updateMaps (updateMaps (YttSourceReconciler.new sampleScheme) sampleA) sampleB).ReferenceMap
        (getCurrentReference sampleA)).1.Has (getKeyFromObject sampleScheme sampleA) = false ∧
    (getReferenceMapForEntry
        (updateMaps (updateMaps (YttSourceReconciler.new sampleScheme) sampleA) sampleB).ReferenceMap
        (getCurrentReference sampleB)).1.Has (getKeyFromObject sampleScheme sampleA) = true :=
  ⟨by decide,
    C1_updateMaps_moves_dependent (YttSourceReconciler.new sampleScheme) sampleA sampleB rfl rfl
      (by decide)⟩

/-- C2 at a concrete input: the index after `ns1/src` was registered. -/
theorem C2_reference_implies_dependent_witness :
    Reachable sampleScheme (updateMaps (YttSourceReconciler.new sampleScheme) sampleA) ∧
    ∃ d, (updateMaps (YttSourceReconciler.new sampleScheme) sampleA).ReferenceMap.lookup
        (getCurrentReference sampleA) = some d ∧
      d.Has (getKeyFromObject sampleScheme sampleA) = true :=
  ⟨Reachable.update _ _ Reachable.init,
    C2_reference_implies_dependent sampleScheme
      (updateMaps (YttSourceReconciler.new sampleScheme) sampleA)
      (Reachable.update _ _ Reachable.init) sampleA
      (libsveltosset.Set.empty.Insert (getCurrentReference sampleA))
      (getCurrentReference sampleA) (by decide) (by decide)⟩


/-- C3 at a concrete input: the index after `ns1/src` was registered. -/
theorem C3_no_stale_dependents_witness :
    ReachableByWrites sampleScheme (updateMaps (YttSourceReconciler.new sampleScheme) sampleA) ∧
    ∃ s, (updateMaps (YttSourceReconciler.new sampleScheme) sampleA).YttSourceMap.lookup
        ⟨"ns1", "src"⟩ = some s ∧ s.Items = [getCurrentReference sampleA] :=
  ⟨ReachableByWrites.update _ _ ReachableByWrites.init,
    C3_no_stale_dependents sampleScheme
      (updateMaps (YttSourceReconciler.new sampleScheme) sampleA)
      (ReachableByWrites.update _ _ ReachableByWrites.init)
      (getCurrentReference sampleA) (getKeyFromObject sampleScheme sampleA)
      (libsveltosset.Set.empty.Insert (getKeyFromObject sampleScheme sampleA))
      (by decide) (by decide)⟩

/-! ## Watch mappers -/

theorem take_succ_set (reqs : List Request) (i : Nat) (v : Request) (h : i < reqs.length) :
    (reqs.set i v).take (i + 1) = reqs.take i ++ [v] := by
  induction reqs generalizing i with
  | nil => simp at h
  | cons a reqs ih =>
    cases i with
    | zero => simp
    | succ i =>
      simp only [List.length_cons, Nat.add_lt_add_iff_right] at h
      simp only [List.set_cons_succ, List.take_succ_cons, List.cons_append, ih i h]

theorem assignRequests_eq (cs : List ObjectReference) (i : Nat) (reqs : List Request)
    (h : reqs.length = i + cs.length) :
    assignRequests cs i reqs = reqs.take i ++ cs.map requestFor := by
  induction cs generalizing i reqs with
  | nil =>
    simp only [assignRequests, List.map_nil, List.append_nil]
    rw [List.take_of_length_le]
    simp at h; omega
  | cons c cs ih =>
    simp only [List.length_cons] at h
    rw [assignRequests, ih (i + 1) _ (by rw [List.length_set]; omega),
      take_succ_set _ _ _ (by omega)]
    simp [requestFor]

theorem getReferenceMapForEntry_twice (m : GoMap ObjectReference libsveltosset.Set)
    (key : ObjectReference) :
    (getReferenceMapForEntry (getReferenceMapForEntry m key).2 key).1 =
      (getReferenceMapForEntry m key).1 := by
  have h := lookup_ensure m key
  generalize (getReferenceMapForEntry m key).2 = m1 at h
  generalize (getReferenceMapForEntry m key).1 = s1 at h
  unfold getReferenceMapForEntry
  rw [h]

theorem requeueForKey_requests (r : YttSourceReconciler) (key : ObjectReference) :
    (requeueForKey r key).1 = (dependentsOf r.ReferenceMap key).map requestFor := by
  unfold requeueForKey dependentsOf
  simp only [getReferenceMapForEntry_twice]
  rw [assignRequests_eq]
  · simp
  · simp [libsveltosset.Set.Len, libsveltosset.Set.Items]

/-- After `updateMaps` registered an object, a mapper that builds the very key
`getCurrentReference` built returns a request naming the object. -/
theorem requeueForKey_finds_registered (r : YttSourceReconciler) (y : YttSource) :
    (⟨⟨y.Namespace, y.Name⟩⟩ : Request) ∈
      (requeueForKey (updateMaps r y) (getCurrentReference y)).1 := by
  rw [requeueForKey_requests, List.mem_map]
  refine ⟨getKeyFromObject r.Scheme y, ?_, rfl⟩
  rw [mem_dependentsOf_updateMaps]
  refine ⟨Or.inl ⟨rfl, rfl⟩, ?_⟩
  rintro ⟨⟨v, _, _, h3⟩, _⟩
  exact h3 rfl

/-- For the kinds GitRepository, Bucket, ConfigMap and Secret the key of `getCurrentReference`
is the key the kind's mapper builds for the backend object named by the spec. -/
theorem mapper_key_agrees (y : YttSource) (gvk : GroupVersionKind) :
    (y.Spec.Kind = GitRepositoryKind →
      fluxSourceKey ⟨.GitRepository, gvk, y.Spec.Namespace, y.Spec.Name⟩ = getCurrentReference y) ∧
    (y.Spec.Kind = BucketKind →
      fluxSourceKey ⟨.Bucket, gvk, y.Spec.Namespace, y.Spec.Name⟩ = getCurrentReference y) ∧
    (y.Spec.Kind = ConfigMapReferencedResourceKind →
      referenceKey ⟨.ConfigMap, gvk, y.Spec.Namespace, y.Spec.Name⟩ = getCurrentReference y) ∧
    (y.Spec.Kind = SecretReferencedResourceKind →
      referenceKey ⟨.Secret, gvk, y.Spec.Namespace, y.Spec.Name⟩ = getCurrentReference y) := by
  refine ⟨?_, ?_, ?_, ?_⟩ <;> intro h <;>
    simp [fluxSourceKey, referenceKey, getCurrentReference, getReferenceAPIVersion, h,
      GitRepositoryKind, BucketKind, ConfigMapReferencedResourceKind,
      SecretReferencedResourceKind, OCIRepositoryKind]

/-- C6 (failing input): for the `YttSource` `ns1/oci` of kind OCIRepository referencing
`flux/repo`, `getCurrentReference` builds a key with an empty apiVersion while
`requeueYttSourceForFluxSources` builds the key with `source.toolkit.fluxcd.io/v1beta2`;
after `updateMaps` registered the object, the mapper applied to the OCIRepository
`flux/repo` returns no request. -/
theorem C6_OCIRepository_never_requeued :
    (getCurrentReference sampleOCI).APIVersion = "" ∧
    (fluxSourceKey sampleOCIObject).APIVersion = "source.toolkit.fluxcd.io/v1beta2" ∧
    getCurrentReference sampleOCI ≠ fluxSourceKey sampleOCIObject ∧
    (requeueYttSourceForFluxSources
      (updateMaps (YttSourceReconciler.new sampleScheme) sampleOCI) sampleOCIObject).1 = [] := by
  decide

/-- C7 (as stated, refuted): in the index `sampleSharedNameIndex` the dependents set of the
ConfigMap `cfg/a` has two members, and `requeueYttSourceForReference` returns the request
`ns1/src` twice. -/
theorem C7_request_repeated :
    (getReferenceMapForEntry sampleSharedNameIndex.ReferenceMap
      (referenceKey sampleConfigMap)).1.Len = 2 ∧
    (requeueYttSourceForReference sampleSharedNameIndex sampleConfigMap).1 =
      [⟨⟨"ns1", "src"⟩⟩, ⟨⟨"ns1", "src"⟩⟩] ∧
    ¬ (requeueYttSourceForReference sampleSharedNameIndex sampleConfigMap).1.Nodup := by
  decide

/-- C7 (amended): for every index state and every ConfigMap or Secret object,
`requeueYttSourceForReference` reads the dependents set stored under the key
`v1`/kind/namespace/name of the object and returns a list whose length is the size of that
set and which holds, for each dependent, the request with that dependent's namespace and
name; when no two dependents of the set share namespace and name, no request is
repeated. -/
theorem C7_requeue_one_request_per_dependent (r : YttSourceReconciler) (o : ClientObject)
    (kind : String)
    (hkind : (o.goType = .ConfigMap ∧ kind = ConfigMapReferencedResourceKind) ∨
      (o.goType = .Secret ∧ kind = SecretReferencedResourceKind))
    (hinj : ∀ c1 ∈ dependentsOf r.ReferenceMap ⟨corev1GroupVersion, kind, o.Namespace, o.Name⟩,
      ∀ c2 ∈ dependentsOf r.ReferenceMap ⟨corev1GroupVersion, kind, o.Namespace, o.Name⟩,
        c1.Namespace = c2.Namespace → c1.Name = c2.Name → c1 = c2) :
    (requeueYttSourceForReference r o).1.length =
      (getReferenceMapForEntry r.ReferenceMap
        ⟨corev1GroupVersion, kind, o.Namespace, o.Name⟩).1.Len ∧
    (requeueYttSourceForReference r o).1 =
      (getReferenceMapForEntry r.ReferenceMap
        ⟨corev1GroupVersion, kind, o.Namespace, o.Name⟩).1.Items.map
        (fun c => ⟨⟨c.Namespace, c.Name⟩⟩) ∧
    (∀ c ∈ (getReferenceMapForEntry r.ReferenceMap
        ⟨corev1GroupVersion, kind, o.Namespace, o.Name⟩).1.Items,
      (⟨⟨c.Namespace, c.Name⟩⟩ : Request) ∈ (requeueYttSourceForReference r o).1) ∧
    (requeueYttSourceForReference r o).1.Nodup := by
  have hkey : referenceKey o = ⟨corev1GroupVersion, kind, o.Namespace, o.Name⟩ := by
    rcases hkind with ⟨h, rfl⟩ | ⟨h, rfl⟩ <;> simp [referenceKey, h]
  have hreq : (requeueYttSourceForReference r o).1 =
      (dependentsOf r.ReferenceMap ⟨corev1GroupVersion, kind, o.Namespace, o.Name⟩).map
        requestFor := by
    unfold requeueYttSourceForReference
    rw [requeueForKey_requests, hkey]
  refine ⟨?_, ?_, ?_, ?_⟩
  · rw [hreq, List.length_map]; rfl
  · rw [hreq]; rfl
  · intro c hc
    rw [hreq]
    exact List.mem_map.mpr ⟨c, hc, rfl⟩
  · rw [hreq]
    refine List.Nodup.map_on ?_ (getReferenceMapForEntry r.ReferenceMap _).1.nodup
    intro c1 h1 c2 h2 he
    simp only [requestFor, Request.mk.injEq, NamespacedName.mk.injEq] at he
    exact hinj c1 h1 c2 h2 he.1 he.2

/-- C8 (failing input): for the `YttSource` `ns1/src` whose `spec.namespace` is empty,
the reference computed by `getCurrentReference` has the empty namespace, not `ns1`. -/
theorem C8_empty_namespace_not_defaulted :
    sampleNoNamespace.Spec.Namespace = "" ∧
    (getCurrentReference sampleNoNamespace).Namespace = "" ∧
    (getCurrentReference sampleNoNamespace).Namespace ≠ sampleNoNamespace.Namespace := by
  decide


/-- C7 at a concrete input: two objects reference the ConfigMap `cfg/a`; the mapper returns exactly their two requests. -/
theorem C7_requeue_one_request_per_dependent_witness :
    (requeueYttSourceForReference sampleFanOutIndex sampleConfigMap).1.length = 2 ∧
    (requeueYttSourceForReference sampleFanOutIndex sampleConfigMap).1 =
      [⟨⟨"ns1", "src"⟩⟩, ⟨⟨"ns2", "other"⟩⟩] ∧
    (requeueYttSourceForReference sampleFanOutIndex sampleConfigMap).1.Nodup :=
  have h := C7_requeue_one_request_per_dependent sampleFanOutIndex sampleConfigMap "ConfigMap"
    (Or.inl ⟨rfl, rfl⟩) (by decide)
  ⟨h.1.trans (by decide), by decide, h.2.2.2⟩

theorem BackwardInv_requeueForKey (r : YttSourceReconciler) (key : ObjectReference)
    (h : BackwardInv r) : BackwardInv (requeueForKey r key).2 := by
  intro ref x hx
  rw [dependentsOf_requeueForKey] at hx
  exact h ref x hx

theorem Reachable_BackwardInv (scheme : Scheme) (r : YttSourceReconciler)
    (h : Reachable scheme r) : BackwardInv r := by
  induction h with
  | init => exact BackwardInv_new scheme
  | update r y _ ih => exact BackwardInv_updateMaps r y ih
  | clean r y _ ih => exact BackwardInv_cleanMaps r y ih
  | lookupReference r o _ ih => exact BackwardInv_requeueForKey r _ ih
  | lookupFlux r o _ ih => exact BackwardInv_requeueForKey r _ ih

/-- In a reachable index no two dependents of a set share namespace and name: all of them
carry the object type of the scheme. -/
theorem Reachable_dependents_distinct_names (scheme : Scheme) (r : YttSourceReconciler)
    (h : Reachable scheme r) (ref c1 c2 : ObjectReference)
    (h1 : c1 ∈ dependentsOf r.ReferenceMap ref) (h2 : c2 ∈ dependentsOf r.ReferenceMap ref)
    (hns : c1.Namespace = c2.Namespace) (hname : c1.Name = c2.Name) : c1 = c2 := by
  obtain ⟨a1, k1, _⟩ := Reachable_BackwardInv scheme r h ref c1 h1
  obtain ⟨a2, k2, _⟩ := Reachable_BackwardInv scheme r h ref c2 h2
  cases c1; cases c2
  simp_all

/-! ## Archive extraction: the destination check -/

theorem extractEntries_append_escape (dest : Path) (readError : Option Error)
    (pre : List TarEntry) (e : TarEntry) (post : List TarEntry) (fs : FileSystem)
    (h : HasPrefix (Join dest (Clean e.Name)) dest = false) :
    extractEntries dest readError fs (pre ++ e :: post) =
      match extractEntries dest none fs pre with
      | (fs1, none) => (fs1, some (.outsideOfDestination e.Name))
      | (fs1, some err) => (fs1, some err) := by
  induction pre generalizing fs with
  | nil => simp [extractEntries, h]
  | cons a pre ih =>
    simp only [List.cons_append, extractEntries]
    split
    · rfl
    · split
      · split
        · rfl
        · exact ih _
      · split
        · rfl
        · exact ih _
      · exact ih _

/-- C9 (as stated, refuted): with destination `/tmp/dest`, the root entry of a walked tree
(empty name, directory) has target `/tmp/dest`, the destination itself and so not a strict
descendant of it; `extractTarGz` returns no error. -/
theorem C9_destination_itself_accepted :
    Join "/tmp/dest".toList (Clean []) = "/tmp/dest".toList ∧
    (extractTarGz sampleRootOnly "/tmp/dest".toList sampleDestFS).2 = none := by
  decide

/-- C9 (amended): for every destination, file system and archive, if the target
`Join dest (Clean name)` of an entry does not have `dest` as a string prefix, then
`extractTarGz` stops at that entry: when the entries before it were extracted without
error it returns the "outside of destination directory" error for that entry, otherwise
the error of the earlier entry; in both cases the file system is as the entries before it
left it, so nothing is created for the entry. -/
theorem C9_escaping_entry_rejected (dest : Path) (fs : FileSystem) (pre : List TarEntry)
    (e : TarEntry) (post : List TarEntry) (readError : Option Error)
    (h : HasPrefix (Join dest (Clean e.Name)) dest = false) :
    extractTarGz ⟨pre ++ e :: post, readError⟩ dest fs =
      match extractTarGz ⟨pre, none⟩ dest fs with
      | (fs1, none) => (fs1, some (.outsideOfDestination e.Name))
      | (fs1, some err) => (fs1, some err) :=
  extractEntries_append_escape dest readError pre e post fs h

/-- C9 at a concrete input: the entry `../../etc` after `ok.txt`, destination `/tmp/dest`. -/
theorem C9_escaping_entry_rejected_witness :
    HasPrefix (Join "/tmp/dest".toList (Clean "../../etc".toList)) "/tmp/dest".toList = false ∧
    extractTarGz sampleEscaping "/tmp/dest".toList sampleDestFS =
      ((extractTarGz ⟨[⟨"ok.txt".toList, .TypeReg, [1, 2]⟩], none⟩
          "/tmp/dest".toList sampleDestFS).1,
        some (.outsideOfDestination "../../etc".toList)) :=
  ⟨by decide,
    (C9_escaping_entry_rejected "/tmp/dest".toList sampleDestFS
      [⟨"ok.txt".toList, .TypeReg, [1, 2]⟩] ⟨"../../etc".toList, .TypeDir, []⟩
      [⟨"late.txt".toList, .TypeReg, [3]⟩] none (by decide)).trans (by decide)⟩

/-- The prefix check compares strings: with destination `/tmp/dest`, a directory entry named
`../dest-evil` has target `/tmp/dest-evil`, passes the check and is created next to the
destination. -/
theorem sibling_sharing_prefix_is_created :
    Join "/tmp/dest".toList (Clean "../dest-evil".toList) = "/tmp/dest-evil".toList ∧
    (extractTarGz ⟨[⟨"../dest-evil".toList, .TypeDir, []⟩], none⟩
      "/tmp/dest".toList sampleDestFS).2 = none ∧
    (extractTarGz ⟨[⟨"../dest-evil".toList, .TypeDir, []⟩], none⟩
      "/tmp/dest".toList sampleDestFS).1.lookup "/tmp/dest-evil".toList = some .dir := by
  decide

/-! ## Paths made of plain elements -/

theorem isPlainElement_iff (c : Path) :
    isPlainElement c = true ↔ c ≠ [] ∧ '/' ∉ c ∧ c ≠ ['.'] ∧ c ≠ ['.', '.'] := by
  simp [isPlainElement]

theorem intercalate_cons_cons (c d : Path) (rest : List Path) :
    ['/'].intercalate (c :: d :: rest) = c ++ '/' :: ['/'].intercalate (d :: rest) := by
  simp [List.intercalate, List.flatten]

theorem intercalate_single (c : Path) : ['/'].intercalate [c] = c := by
  simp [List.intercalate, List.flatten]

theorem intercalate_append (X Y : List Path) (hX : X ≠ []) (hY : Y ≠ []) :
    ['/'].intercalate (X ++ Y) = ['/'].intercalate X ++ '/' :: ['/'].intercalate Y := by
  induction X with
  | nil => exact absurd rfl hX
  | cons c X ih =>
    cases X with
    | nil =>
      cases Y with
      | nil => exact absurd rfl hY
      | cons d Y => simp [intercalate_cons_cons, intercalate_single]
    | cons d X =>
      rw [List.cons_append, List.cons_append, intercalate_cons_cons, intercalate_cons_cons,
        ← List.cons_append, ih (List.cons_ne_nil _ _)]
      simp

theorem foldl_cleanStep_plain (rooted : Bool) (X : List Path) (st : List Path)
    (hX : ∀ c ∈ X, isPlainElement c = true) :
    X.foldl (cleanStep rooted) st = X.reverse ++ st := by
  induction X generalizing st with
  | nil => rfl
  | cons c X ih =>
    have hc := (isPlainElement_iff c).mp (hX c (List.mem_cons_self _ _))
    have hstep : cleanStep rooted st c = c :: st := by
      simp [cleanStep, hc.1, hc.2.2.1, hc.2.2.2]
    rw [List.foldl_cons, hstep, ih _ (fun d hd => hX d (List.mem_cons_of_mem _ hd))]
    simp

theorem intercalate_plain_ne_nil (X : List Path) (hX : ∀ c ∈ X, isPlainElement c = true)
    (hne : X ≠ []) : ['/'].intercalate X ≠ [] ∧ (['/'].intercalate X).head? ≠ some '/' := by
  cases X with
  | nil => exact absurd rfl hne
  | cons c X =>
    have hc := (isPlainElement_iff c).mp (hX c (List.mem_cons_self _ _))
    cases c with
    | nil => exact absurd rfl hc.1
    | cons a c =>
      have ha : a ≠ '/' := fun h => hc.2.1 (h ▸ List.mem_cons_self _ _)
      cases X with
      | nil => simp [intercalate_single, ha]
      | cons d X => simp [intercalate_cons_cons, ha]

theorem Clean_intercalate (Z X : List Path) (hZ : ∀ z ∈ Z, '/' ∉ z) (hZne : Z ≠ [])
    (hpath : ['/'].intercalate Z ≠ [])
    (hfold : ∀ r, Z.foldl (cleanStep r) [] = X.reverse)
    (hX : ∀ c ∈ X, isPlainElement c = true) (hXne : X ≠ []) :
    Clean (['/'].intercalate Z) =
      (if (['/'].intercalate Z).head? = some '/' then ['/'] else []) ++ ['/'].intercalate X := by
  unfold Clean
  rw [if_neg hpath]
  simp only [List.splitOn_intercalate _ '/' hZ hZne, hfold, List.reverse_reverse]
  have hne := (intercalate_plain_ne_nil X hX hXne).1
  by_cases hr : (['/'].intercalate Z).head? = some '/'
  · simp [hr]
  · simp [hr, hne]

theorem plain_no_sep (X : List Path) (hX : ∀ c ∈ X, isPlainElement c = true) :
    ∀ z ∈ X, '/' ∉ z :=
  fun z hz => ((isPlainElement_iff z).mp (hX z hz)).2.1

theorem Clean_rel (X : List Path) (hX : ∀ c ∈ X, isPlainElement c = true) (hXne : X ≠ []) :
    Clean (['/'].intercalate X) = ['/'].intercalate X := by
  have h := intercalate_plain_ne_nil X hX hXne
  rw [Clean_intercalate X X (plain_no_sep X hX) hXne h.1
    (fun r => by rw [foldl_cleanStep_plain r X [] hX]; simp) hX hXne]
  simp [h.2]

theorem Clean_rel_dot (X : List Path) (hX : ∀ c ∈ X, isPlainElement c = true) (hXne : X ≠ []) :
    Clean (['/'].intercalate X ++ ['/', '.']) = ['/'].intercalate X := by
  have h := intercalate_plain_ne_nil X hX hXne
  have hform : ['/'].intercalate X ++ ['/', '.'] = ['/'].intercalate (X ++ [['.']]) := by
    rw [intercalate_append X _ hXne (List.cons_ne_nil _ _), intercalate_single]
  have hhead : (['/'].intercalate (X ++ [['.']])).head? ≠ some '/' := by
    rw [← hform]
    cases hx : ['/'].intercalate X with
    | nil => exact absurd hx h.1
    | cons a l =>
      have := h.2
      rw [hx] at this
      simpa using this
  rw [hform, Clean_intercalate (X ++ [['.']]) X ?_ (by simp) ?_ ?_ hX hXne]
  · simp [hhead]
  · intro z hz
    rcases List.mem_append.mp hz with hz | hz
    · exact plain_no_sep X hX z hz
    · simp only [List.mem_singleton] at hz
      subst hz
      decide
  · rw [← hform]; simp
  · intro r
    rw [List.foldl_append, foldl_cleanStep_plain r X [] hX]
    simp [cleanStep]

theorem intercalate_nil_cons (X : List Path) (hXne : X ≠ []) :
    ['/'].intercalate ([] :: X) = '/' :: ['/'].intercalate X := by
  cases X with
  | nil => exact absurd rfl hXne
  | cons d X => rw [intercalate_cons_cons]; rfl

theorem Clean_abs (X : List Path) (hX : ∀ c ∈ X, isPlainElement c = true) (hXne : X ≠ []) :
    Clean ('/' :: ['/'].intercalate X) = '/' :: ['/'].intercalate X := by
  rw [← intercalate_nil_cons X hXne,
    Clean_intercalate ([] :: X) X ?_ (List.cons_ne_nil _ _) ?_ ?_ hX hXne]
  · simp [intercalate_nil_cons X hXne]
  · intro z hz
    rcases List.mem_cons.mp hz with hz | hz
    · subst hz; simp
    · exact plain_no_sep X hX z hz
  · rw [intercalate_nil_cons X hXne]; simp
  · intro r
    rw [List.foldl_cons]
    have : cleanStep r [] [] = [] := by simp [cleanStep]
    rw [this, foldl_cleanStep_plain r X [] hX]
    simp

theorem Clean_abs_dot (X : List Path) (hX : ∀ c ∈ X, isPlainElement c = true) (hXne : X ≠ []) :
    Clean ('/' :: ['/'].intercalate X ++ ['/', '.']) = '/' :: ['/'].intercalate X := by
  have hform : '/' :: ['/'].intercalate X ++ ['/', '.'] =
      ['/'].intercalate ([] :: (X ++ [['.']])) := by
    rw [intercalate_nil_cons _ (by simp), intercalate_append X _ hXne (List.cons_ne_nil _ _),
      intercalate_single]
    rfl
  rw [hform, Clean_intercalate ([] :: (X ++ [['.']])) X ?_ (List.cons_ne_nil _ _) ?_ ?_ hX hXne]
  · rw [← hform]; simp
  · intro z hz
    rcases List.mem_cons.mp hz with hz | hz
    · subst hz; simp
    · rcases List.mem_append.mp hz with hz | hz
      · exact plain_no_sep X hX z hz
      · simp only [List.mem_singleton] at hz
        subst hz
        decide
  · rw [← hform]; simp
  · intro r
    rw [List.foldl_cons]
    have : cleanStep r [] [] = [] := by simp [cleanStep]
    rw [this, List.foldl_append, foldl_cleanStep_plain r X [] hX]
    simp [cleanStep]

theorem isPlainPath_form (p : Path) (h : isPlainPath p = true) :
    ∃ X : List Path, X ≠ [] ∧ (∀ c ∈ X, isPlainElement c = true) ∧
      (p = ['/'].intercalate X ∨ p = '/' :: ['/'].intercalate X) := by
  have hs := List.intercalate_splitOn p '/'
  have hne : p.splitOn '/' ≠ [] := List.splitOnP_ne_nil _ _
  unfold isPlainPath at h
  generalize p.splitOn '/' = L at h hs hne
  split at h
  · rename_i c rest
    refine ⟨c :: rest, List.cons_ne_nil _ _, ?_, Or.inr ?_⟩
    · simpa using h
    · rw [← hs, intercalate_nil_cons _ (List.cons_ne_nil _ _)]
  · rename_i hnot
    cases L with
    | nil => exact absurd rfl hne
    | cons a L =>
      refine ⟨a :: L, List.cons_ne_nil _ _, ?_, Or.inl hs.symm⟩
      simpa using h

theorem isWalkName_form (n : Path) (h : isWalkName n = true) (hn : n ≠ []) :
    ∃ Y : List Path, Y ≠ [] ∧ (∀ c ∈ Y, isPlainElement c = true) ∧ n = ['/'].intercalate Y := by
  have hs := List.intercalate_splitOn n '/'
  have hne : n.splitOn '/' ≠ [] := List.splitOnP_ne_nil _ _
  unfold isWalkName at h
  simp only [Bool.or_eq_true, decide_eq_true_eq, hn, false_or] at h
  exact ⟨n.splitOn '/', hne, by simpa using h, hs.symm⟩

theorem isPlainPath_ne_nil (dest : Path) (hd : isPlainPath dest = true) : dest ≠ [] := by
  obtain ⟨X, hXne, hX, h | h⟩ := isPlainPath_form dest hd
  · rw [h]; exact (intercalate_plain_ne_nil X hX hXne).1
  · rw [h]; exact List.cons_ne_nil _ _

/-- A destination made of plain elements followed by a walk name is a cleaned path. -/
theorem Clean_dest_name (dest n : Path) (hd : isPlainPath dest = true)
    (hw : isWalkName n = true) (hn : n ≠ []) : Clean (dest ++ '/' :: n) = dest ++ '/' :: n := by
  obtain ⟨X, hXne, hX, h | h⟩ := isPlainPath_form dest hd <;>
    obtain ⟨Y, hYne, hY, rfl⟩ := isWalkName_form n hw hn <;> subst h
  · rw [← intercalate_append X Y hXne hYne]
    exact Clean_rel _ (fun c hc => (List.mem_append.mp hc).elim (hX c) (hY c)) (by simp [hXne])
  · rw [List.cons_append, ← intercalate_append X Y hXne hYne]
    exact Clean_abs _ (fun c hc => (List.mem_append.mp hc).elim (hX c) (hY c)) (by simp [hXne])

theorem Clean_walkName (n : Path) (hw : isWalkName n = true) (hn : n ≠ []) : Clean n = n := by
  obtain ⟨Y, hYne, hY, rfl⟩ := isWalkName_form n hw hn
  exact Clean_rel Y hY hYne

theorem Join_Clean_walkName (dest n : Path) (hd : isPlainPath dest = true)
    (hw : isWalkName n = true) : Join dest (Clean n) = targetOf dest n := by
  have hdne := isPlainPath_ne_nil dest hd
  unfold Join targetOf
  rw [if_pos hdne]
  by_cases hn : n = []
  · subst hn
    rw [if_pos rfl]
    have hc : Clean [] = ['.'] := rfl
    rw [hc]
    obtain ⟨X, hXne, hX, h | h⟩ := isPlainPath_form dest hd <;> subst h
    · exact Clean_rel_dot X hX hXne
    · exact Clean_abs_dot X hX hXne
  · rw [if_neg hn, Clean_walkName n hw hn]
    exact Clean_dest_name dest n hd hw hn

theorem Join_walkName (dest n : Path) (hd : isPlainPath dest = true)
    (hw : isWalkName n = true) (hn : n ≠ []) : Join dest n = targetOf dest n := by
  unfold Join targetOf
  rw [if_pos (isPlainPath_ne_nil dest hd), if_neg hn]
  exact Clean_dest_name dest n hd hw hn

theorem HasPrefix_targetOf (dest n : Path) : HasPrefix (targetOf dest n) dest = true := by
  unfold HasPrefix targetOf
  rw [List.isPrefixOf_iff_prefix]
  by_cases hn : n = []
  · rw [if_pos hn]
  · rw [if_neg hn]; exact List.prefix_append _ _

/-! ## Parents of paths -/

theorem dropWhile_append_stop (f : Char → Bool) (l r : List Char) (y : Char)
    (hl : ∀ x ∈ l, f x = true) (hy : f y = false) :
    (l ++ y :: r).dropWhile f = y :: r := by
  induction l with
  | nil => simp [List.dropWhile_cons, hy]
  | cons a l ih =>
    rw [List.cons_append, List.dropWhile_cons, if_pos (hl a (List.mem_cons_self _ _))]
    exact ih (fun x hx => hl x (List.mem_cons_of_mem _ hx))

theorem dirOf_append_element (a c : Path) (hc : c ≠ []) (hsep : '/' ∉ c) :
    dirOf (a ++ '/' :: c) = a := by
  unfold dirOf
  have hrev : (a ++ '/' :: c).reverse = c.reverse ++ '/' :: a.reverse := by simp
  rw [hrev]
  have hall : ∀ x ∈ c.reverse, x ≠ '/' := by
    intro x hx h
    exact hsep (h ▸ List.mem_reverse.mp hx)
  have h1 : (c.reverse ++ '/' :: a.reverse).dropWhile (fun c => c == '/') =
      c.reverse ++ '/' :: a.reverse := by
    cases hr : c.reverse with
    | nil => exact absurd (List.reverse_eq_nil_iff.mp hr) hc
    | cons x xs =>
      have hx : x ≠ '/' := hall x (by rw [hr]; exact List.mem_cons_self _ _)
      rw [List.cons_append, List.dropWhile_cons]
      simp [hx]
  rw [h1, dropWhile_append_stop _ _ _ _ (fun x hx => by simpa using hall x hx) (by simp)]
  simp

theorem dirOf_element (c : Path) (hsep : '/' ∉ c) : dirOf c = [] := by
  unfold dirOf
  have h2 : ((c.reverse.dropWhile (fun c => c == '/')).dropWhile (fun c => c != '/')) = [] := by
    rw [List.dropWhile_eq_nil_iff]
    intro x hx
    have hx1 : x ∈ c := List.mem_reverse.mp ((List.dropWhile_sublist _).subset hx)
    have : x ≠ '/' := fun h => hsep (h ▸ hx1)
    simpa using this
  rw [h2]
  rfl

theorem dirOf_targetOf (dest n : Path) (hw : isWalkName n = true) (hn : n ≠ []) :
    dirOf (targetOf dest n) = targetOf dest (dirOf n) := by
  obtain ⟨Y, hYne, hY, rfl⟩ := isWalkName_form n hw hn
  rcases List.eq_nil_or_concat Y with h | ⟨init, c, rfl⟩
  · exact absurd h hYne
  · simp only [List.concat_eq_append] at hYne hY hw hn ⊢
    have hc := (isPlainElement_iff c).mp (hY c (by simp))
    by_cases hi : init = []
    · subst hi
      simp only [List.nil_append, intercalate_single]
      rw [dirOf_element c hc.2.1]
      unfold targetOf
      rw [if_neg hc.1, if_pos rfl]
      exact dirOf_append_element dest c hc.1 hc.2.1
    · have hparent : ['/'].intercalate init ≠ [] :=
        (intercalate_plain_ne_nil init (fun d hd => hY d (by simp [hd])) hi).1
      rw [intercalate_append init [c] hi (List.cons_ne_nil _ _), intercalate_single,
        dirOf_append_element _ c hc.1 hc.2.1]
      unfold targetOf
      rw [if_neg (by simp), if_neg hparent]
      have : dest ++ '/' :: (['/'].intercalate init ++ '/' :: c) =
          (dest ++ '/' :: ['/'].intercalate init) ++ '/' :: c := by simp
      rw [this]
      exact dirOf_append_element _ c hc.1 hc.2.1

/-! ## File-system steps of one entry -/

theorem MkdirAll_existing (fs : FileSystem) (t : Path) (h : Stat fs t = some .dir) :
    MkdirAll fs t = (fs, none) := by
  unfold MkdirAll MkdirAllAux
  rw [h]

theorem MkdirAll_fresh (fs : FileSystem) (t : Path) (hnone : Stat fs t = none)
    (hpar : dirOf t ≠ []) (hdir : Stat fs (dirOf t) = some .dir) :
    MkdirAll fs t = (fs.store t .dir, none) := by
  have hlen : 0 < (dirOf t).length := List.length_pos.mpr hpar
  have htne : t ≠ [] := by
    intro h; subst h; exact hpar rfl
  obtain ⟨k, hk⟩ : ∃ k, t.length = k + 1 :=
    ⟨t.length - 1, by have := List.length_pos.mpr htne; omega⟩
  have hcont : containerOf t = dirOf t := by
    unfold containerOf; rw [if_neg hpar]
  unfold MkdirAll
  rw [hk]
  unfold MkdirAllAux
  simp only [hnone, hlen, if_true, gt_iff_lt]
  unfold MkdirAllAux
  simp only [hdir]
  unfold Mkdir
  simp only [hnone, hcont, hdir]

theorem OpenFile_fresh (fs : FileSystem) (t : Path) (hnone : Stat fs t = none)
    (hpar : dirOf t ≠ []) (hdir : Stat fs (dirOf t) = some .dir) :
    OpenFile fs t = (fs.store t (.file []), none) := by
  have hcont : containerOf t = dirOf t := by
    unfold containerOf; rw [if_neg hpar]
  unfold OpenFile
  simp only [hnone, hcont, hdir]

theorem copyTo_fresh (fs : FileSystem) (t : Path) (data : Bytes) :
    (copyTo (fs.store t (.file [])) t data).lookup =
      fun p => if p = t then some (.file data) else fs.lookup p := by
  funext p
  unfold copyTo
  simp only [GoMap.lookup_store_self, List.drop_nil, List.append_nil, GoMap.lookup_store]
  by_cases hp : p = t <;> simp [hp]

/-! ## Extraction of a walked tree -/

theorem Stat_of_lookup_dir (fs : FileSystem) (p : Path) (h : fs.lookup p = some .dir) :
    Stat fs p = some .dir := by
  unfold Stat
  split
  · rfl
  · exact h

theorem targetOf_ne_nil (dest n : Path) (hd : dest ≠ []) : targetOf dest n ≠ [] := by
  unfold targetOf
  split
  · exact hd
  · simp

theorem targetOf_inj (dest n m : Path) (hn : n ≠ []) (hm : m ≠ [])
    (h : targetOf dest n = targetOf dest m) : n = m := by
  unfold targetOf at h
  rw [if_neg hn, if_neg hm] at h
  simpa using h

theorem targetOf_ne_dest (dest n : Path) (hn : n ≠ []) : targetOf dest n ≠ dest := by
  unfold targetOf
  rw [if_neg hn]
  intro h
  have := congrArg List.length h
  simp at this

theorem Stat_targetOf (fs : FileSystem) (dest n : Path) (hd : dest ≠ []) (hn : n ≠ []) :
    Stat fs (targetOf dest n) = fs.lookup (targetOf dest n) := by
  unfold Stat targetOf
  rw [if_neg hn]
  have h1 : dest ++ '/' :: n ≠ ['/'] := by
    intro h
    have := congrArg List.length h
    have := List.length_pos.mpr hd
    simp at *
    omega
  have h2 : dest ++ '/' :: n ≠ ['.'] := by
    intro h
    have := congrArg List.length h
    have := List.length_pos.mpr hd
    simp at *
    omega
  simp [h1, h2]

theorem dest_prefix_targetOf (dest n : Path) (hn : n ≠ []) :
    (dest ++ ['/']) <+: targetOf dest n := by
  unfold targetOf
  rw [if_neg hn]
  exact ⟨n, by simp⟩

theorem WalkInv_root (dest : Path) (fs : FileSystem) (done : List TarEntry) (e : TarEntry)
    (he : e.Name = []) (h : WalkInv dest fs done) : WalkInv dest fs (done ++ [e]) := by
  obtain ⟨h1, h2, h3⟩ := h
  refine ⟨h1, ?_, ?_⟩
  · intro e1 he1 hne
    rcases List.mem_append.mp he1 with hm | hm
    · exact h2 e1 hm hne
    · rw [List.mem_singleton] at hm
      subst hm
      exact absurd he hne
  · intro p hp hl
    obtain ⟨e1, hm, hne, hpe⟩ := h3 p hp hl
    exact ⟨e1, List.mem_append_left _ hm, hne, hpe⟩

theorem WalkInv_step (dest : Path) (fs fs1 : FileSystem) (done : List TarEntry) (e : TarEntry)
    (he : e.Name ≠ []) (hfresh : ∀ e1 ∈ done, e1.Name ≠ e.Name)
    (hlk : fs1.lookup = fun p => if p = targetOf dest e.Name then some (nodeOf e) else fs.lookup p)
    (h : WalkInv dest fs done) : WalkInv dest fs1 (done ++ [e]) := by
  obtain ⟨h1, h2, h3⟩ := h
  refine ⟨?_, ?_, ?_⟩
  · rw [hlk]
    have hd : dest ≠ targetOf dest e.Name := fun hh => targetOf_ne_dest dest e.Name he hh.symm
    simp only [if_neg hd]
    exact h1
  · intro e1 he1 hne
    rw [hlk]
    rcases List.mem_append.mp he1 with hm | hm
    · have hdiff : targetOf dest e1.Name ≠ targetOf dest e.Name :=
        fun hh => hfresh e1 hm (targetOf_inj dest _ _ hne he hh)
      simp only [if_neg hdiff]
      exact h2 e1 hm hne
    · rw [List.mem_singleton] at hm
      subst hm
      simp
  · intro p hp hl
    by_cases hpt : p = targetOf dest e.Name
    · exact ⟨e, by simp, he, hpt⟩
    · rw [hlk] at hl
      simp only [if_neg hpt] at hl
      obtain ⟨e1, hm, hne, hpe⟩ := h3 p hp hl
      exact ⟨e1, List.mem_append_left _ hm, hne, hpe⟩

theorem extractEntries_cons_walk (dest : Path) (fs : FileSystem) (e : TarEntry)
    (rest : List TarEntry) (hd : isPlainPath dest = true) (hw : isWalkName e.Name = true) :
    extractEntries dest none fs (e :: rest) =
      match e.Typeflag with
      | .TypeDir =>
        match MkdirAll fs (targetOf dest e.Name) with
        | (fs1, some err) => (fs1, some err)
        | (fs1, none) => extractEntries dest none fs1 rest
      | .TypeReg =>
        match OpenFile fs (targetOf dest e.Name) with
        | (fs1, some err) => (fs1, some err)
        | (fs1, none) =>
          extractEntries dest none
            (copyTo fs1 (targetOf dest e.Name) (LimitReader e.data maxSize)) rest
      | .other => extractEntries dest none fs rest := by
  rw [extractEntries]
  simp only [Join_Clean_walkName dest e.Name hd hw, HasPrefix_targetOf, Bool.not_true,
    Bool.false_eq_true, if_false]

theorem extractEntries_walk (dest : Path) (hd : isPlainPath dest = true) :
    ∀ (rest done : List TarEntry) (seen : List Path) (fs : FileSystem),
      (∀ e ∈ rest, isWalkEntry e = true) →
      ((done ++ rest).map TarEntry.Name).Nodup →
      parentsPrecede seen rest = true →
      (∀ n ∈ seen, ∃ e ∈ done, e.Typeflag = .TypeDir ∧ e.Name = n) →
      WalkInv dest fs done →
      ∃ fs1, extractEntries dest none fs rest = (fs1, none) ∧
        WalkInv dest fs1 (done ++ rest) := by
  intro rest
  induction rest with
  | nil =>
    intro done seen fs _ _ _ _ hinv
    exact ⟨fs, rfl, by simpa using hinv⟩
  | cons e rest ih =>
    intro done seen fs hall hnodup hpar hseen hinv
    have hdne := isPlainPath_ne_nil dest hd
    have he := hall e (List.mem_cons_self _ _)
    unfold isWalkEntry at he
    simp only [Bool.and_eq_true, Bool.or_eq_true, decide_eq_true_eq] at he
    obtain ⟨hw, hkind⟩ := he
    unfold parentsPrecede at hpar
    simp only [Bool.and_eq_true, Bool.or_eq_true, decide_eq_true_eq] at hpar
    obtain ⟨hparent, hpar1⟩ := hpar
    have hnodup1 : (((done ++ [e]) ++ rest).map TarEntry.Name).Nodup := by
      simpa using hnodup
    have hall1 : ∀ e1 ∈ rest, isWalkEntry e1 = true :=
      fun e1 h1 => hall e1 (List.mem_cons_of_mem _ h1)
    have hseen1 : ∀ n ∈ (if e.Typeflag = .TypeDir then e.Name :: seen else seen),
        ∃ e1 ∈ done ++ [e], e1.Typeflag = .TypeDir ∧ e1.Name = n := by
      intro n hn
      have hold : n ∈ seen → ∃ e1 ∈ done ++ [e], e1.Typeflag = .TypeDir ∧ e1.Name = n := by
        intro hs
        obtain ⟨e1, hm, hk⟩ := hseen n hs
        exact ⟨e1, List.mem_append_left _ hm, hk⟩
      by_cases hdir : e.Typeflag = .TypeDir
      · rw [if_pos hdir] at hn
        rcases List.mem_cons.mp hn with hn | hn
        · exact ⟨e, by simp, hdir, hn.symm⟩
        · exact hold hn
      · rw [if_neg hdir] at hn
        exact hold hn
    have hfresh : ∀ e1 ∈ done, e1.Name ≠ e.Name := by
      intro e1 hm heq
      rw [List.map_append, List.nodup_append] at hnodup
      exact hnodup.2.2 (List.mem_map_of_mem _ hm)
        (by rw [heq]; exact List.mem_map_of_mem _ (List.mem_cons_self _ _))
    have key : ∀ fs1, WalkInv dest fs1 (done ++ [e]) →
        ∃ fs2, extractEntries dest none fs1 rest = (fs2, none) ∧
          WalkInv dest fs2 (done ++ e :: rest) := by
      intro fs1 h1
      obtain ⟨fs2, h2, h3⟩ := ih (done ++ [e]) _ fs1 hall1 hnodup1 hpar1 hseen1 h1
      exact ⟨fs2, h2, by simpa using h3⟩
    rw [extractEntries_cons_walk dest fs e rest hd hw]
    by_cases hn : e.Name = []
    · have hdir : e.Typeflag = .TypeDir := by
        rcases hkind with h | ⟨⟨_, h2⟩, _⟩
        · exact h
        · exact absurd hn (by simpa using h2)
      have ht : targetOf dest e.Name = dest := by simp [targetOf, hn]
      simp only [hdir, ht, MkdirAll_existing fs dest (Stat_of_lookup_dir _ _ hinv.1)]
      exact key fs (WalkInv_root dest fs done e hn hinv)
    · have hlook : fs.lookup (targetOf dest e.Name) = none := by
        by_contra hne
        obtain ⟨e1, hm, hne1, hpe⟩ :=
          hinv.2.2 _ (dest_prefix_targetOf dest e.Name hn) hne
        exact hfresh e1 hm (targetOf_inj dest _ _ hne1 hn hpe.symm)
      have hstat : Stat fs (targetOf dest e.Name) = none := by
        rw [Stat_targetOf fs dest e.Name hdne hn]; exact hlook
      have hpeq := dirOf_targetOf dest e.Name hw hn
      have hpne : dirOf (targetOf dest e.Name) ≠ [] := by
        rw [hpeq]; exact targetOf_ne_nil dest _ hdne
      have hpdir : Stat fs (dirOf (targetOf dest e.Name)) = some .dir := by
        rw [hpeq]
        apply Stat_of_lookup_dir
        by_cases hroot : dirOf e.Name = []
        · rw [hroot]
          simpa [targetOf] using hinv.1
        · have hin : dirOf e.Name ∈ seen := by
            rcases hparent with (h | h) | h
            · exact absurd h hn
            · exact absurd h hroot
            · exact h
          obtain ⟨e1, hm, hk, hname⟩ := hseen _ hin
          have := hinv.2.1 e1 hm (by rw [hname]; exact hroot)
          rw [hname] at this
          rw [this]
          simp [nodeOf, hk]
      rcases hkind with hdir | ⟨⟨hreg, _⟩, hsize⟩
      · simp only [hdir, MkdirAll_fresh fs _ hstat hpne hpdir]
        apply key
        refine WalkInv_step dest fs _ done e hn hfresh ?_ hinv
        funext p
        rw [GoMap.lookup_store]
        simp [nodeOf, hdir]
      · simp only [hreg, OpenFile_fresh fs _ hstat hpne hpdir]
        apply key
        refine WalkInv_step dest fs _ done e hn hfresh ?_ hinv
        rw [copyTo_fresh]
        have hdata : LimitReader e.data maxSize = e.data := by
          unfold LimitReader
          exact List.take_of_length_le hsize
        simp [nodeOf, hreg, hdata]

/-- C10 (as stated, refuted): the working directory `.` exists and, in the empty file
system, holds nothing; extracting the one-file archive `a.txt` into it fails with the
"outside of destination directory" error, because the target `Join "." "a.txt"` is `a.txt`,
which does not start with `.`. -/
theorem C10_relative_destination_rejected :
    Stat GoMap.empty ".".toList = some .dir ∧
    isWalkArchive sampleOneFile.entries = true ∧
    Join ".".toList (Clean "a.txt".toList) = "a.txt".toList ∧
    extractTarGz sampleOneFile ".".toList GoMap.empty =
      (GoMap.empty, some (.outsideOfDestination "a.txt".toList)) := by
  decide

/-- C10 (amended): for every destination whose path is a cleaned path of plain elements
(as `os.MkdirTemp` and `path.Join` return it), existing and empty, and every archive as a
tree walk produces it (directory and regular-file entries, one entry per path, each entry
after the directory entry of its parent, each file of at most `maxSize` bytes):
`extractTarGz` returns no error, afterwards every regular-file entry is a file at
`Join dest name` holding exactly the entry's bytes, and every file below `dest` is such an
entry. -/
theorem C10_walk_archive_extracted (dest : Path) (fs : FileSystem) (entries : List TarEntry)
    (hd : isPlainPath dest = true) (ha : isWalkArchive entries = true)
    (hdest : Stat fs dest = some .dir)
    (hempty : ∀ p, (dest ++ ['/']) <+: p → fs.lookup p = none) :
    (extractTarGz ⟨entries, none⟩ dest fs).2 = none ∧
    (∀ e ∈ entries, e.Typeflag = .TypeReg →
      (extractTarGz ⟨entries, none⟩ dest fs).1.lookup (Join dest e.Name) =
        some (.file e.data)) ∧
    (∀ p content, (dest ++ ['/']) <+: p →
      (extractTarGz ⟨entries, none⟩ dest fs).1.lookup p = some (.file content) →
      ∃ e ∈ entries, e.Typeflag = .TypeReg ∧ p = Join dest e.Name ∧ content = e.data) := by
  unfold isWalkArchive at ha
  simp only [Bool.and_eq_true, List.all_eq_true, decide_eq_true_eq] at ha
  obtain ⟨⟨hall, hnodup⟩, hpar⟩ := ha
  have hlook : fs.lookup dest = some .dir := by
    unfold Stat at hdest
    split at hdest
    · rename_i h
      rcases h with h | h <;> subst h <;> exact absurd hd (by decide)
    · exact hdest
  have hinv : WalkInv dest fs [] :=
    ⟨hlook, fun e he => absurd he (List.not_mem_nil _),
      fun p hp hl => absurd (hempty p hp) hl⟩
  obtain ⟨fs1, hrun, h1, h2, h3⟩ :=
    extractEntries_walk dest hd entries [] [] fs hall (by simpa using hnodup) hpar
      (fun n hn => absurd hn (List.not_mem_nil _)) hinv
  simp only [List.nil_append] at h2 h3
  have hres : extractTarGz ⟨entries, none⟩ dest fs = (fs1, none) := hrun
  have hname : ∀ e ∈ entries, e.Typeflag = .TypeReg → isWalkName e.Name = true ∧ e.Name ≠ [] := by
    intro e he hreg
    have := hall e he
    unfold isWalkEntry at this
    simp only [Bool.and_eq_true, Bool.or_eq_true, decide_eq_true_eq, hreg] at this
    rcases this with ⟨hw, h | ⟨⟨_, hne⟩, _⟩⟩
    · exact absurd h (by decide)
    · exact ⟨hw, by simpa using hne⟩
  rw [hres]
  refine ⟨rfl, ?_, ?_⟩
  · intro e he hreg
    obtain ⟨hw, hne⟩ := hname e he hreg
    rw [Join_walkName dest e.Name hd hw hne]
    have := h2 e he hne
    simpa [nodeOf, hreg] using this
  · intro p content hp hl
    obtain ⟨e, he, hne, hpe⟩ := h3 p hp (by simp only [hl]; exact Option.some_ne_none _)
    have hnode := h2 e he hne
    rw [← hpe] at hnode
    simp only [hl] at hnode
    have hw : isWalkName e.Name = true := by
      have := hall e he
      unfold isWalkEntry at this
      simp only [Bool.and_eq_true] at this
      exact this.1
    have hreg : e.Typeflag = .TypeReg := by
      have := hall e he
      unfold isWalkEntry at this
      simp only [Bool.and_eq_true, Bool.or_eq_true, decide_eq_true_eq] at this
      rcases this with ⟨_, h | ⟨⟨h, _⟩, _⟩⟩
      · simp [nodeOf, h] at hnode
      · exact h
    refine ⟨e, he, hreg, ?_, ?_⟩
    · rw [Join_walkName dest e.Name hd hw hne]; exact hpe
    · simpa [nodeOf, hreg] using hnode

theorem sampleDestFS_empty (p : Path) (hp : ("/tmp/dest".toList ++ ['/']) <+: p) :
    sampleDestFS.lookup p = none := by
  unfold sampleDestFS
  rw [GoMap.lookup_store]
  have hne : p ≠ "/tmp/dest".toList := by
    intro h
    subst h
    have := hp.length_le
    simp at this
  rw [if_neg hne]
  rfl

/-- C10 at a concrete input: the archive of the extraction test into the empty `/tmp/dest`. -/
theorem C10_walk_archive_extracted_witness :
    isPlainPath "/tmp/dest".toList = true ∧ isWalkArchive sampleWalk.entries = true ∧
    Stat sampleDestFS "/tmp/dest".toList = some .dir ∧
    (extractTarGz sampleWalk "/tmp/dest".toList sampleDestFS).2 = none ∧
    (extractTarGz sampleWalk "/tmp/dest".toList sampleDestFS).1.lookup
      "/tmp/dest/testdir/test.txt".toList = some (.file [65, 110]) :=
  ⟨by decide, by decide, by decide,
    (C10_walk_archive_extracted "/tmp/dest".toList sampleDestFS sampleWalk.entries
      (by decide) (by decide) (by decide) sampleDestFS_empty).1,
    by decide⟩

/-! ## The recursion bound of `MkdirAll` -/

theorem dirOf_length_lt (path : Path) (h : dirOf path ≠ []) :
    (dirOf path).length < path.length := by
  unfold dirOf at h ⊢
  generalize hr : ((path.reverse.dropWhile (fun c => c == '/')).dropWhile
    (fun c => c != '/')) = r2 at h ⊢
  have hle : r2.length ≤ path.length := by
    rw [← hr, ← List.length_reverse path]
    exact ((List.dropWhile_sublist _).trans (List.dropWhile_sublist _)).length_le
  have hne : r2.drop 1 ≠ [] := fun h0 => h (by rw [h0]; rfl)
  have hpos : 0 < (r2.drop 1).length := List.length_pos.mpr hne
  rw [List.length_reverse]
  rw [List.length_drop] at hpos ⊢
  omega

/-- The result of `MkdirAllAux` does not depend on the bound once the bound exceeds the
length of the path: the recursion of `os.MkdirAll` always ends by itself. -/
theorem MkdirAllAux_fuel (n : Nat) :
    ∀ (m : Nat) (fs : FileSystem) (path : Path), path.length < n → path.length < m →
      MkdirAllAux n fs path = MkdirAllAux m fs path := by
  induction n with
  | zero => intro m fs path h; exact absurd h (Nat.not_lt_zero _)
  | succ n ih =>
    intro m fs path hn hm
    cases m with
    | zero => exact absurd hm (Nat.not_lt_zero _)
    | succ m =>
      unfold MkdirAllAux
      cases Stat fs path with
      | some nd => cases nd <;> rfl
      | none =>
        by_cases hp : (dirOf path).length > 0
        · have hlt := dirOf_length_lt path (List.length_pos.mp hp)
          simp only [hp, if_true]
          rw [ih m fs (dirOf path) (by omega) (by omega)]
        · simp only [hp, if_false]

theorem MkdirAll_fuel_enough (n : Nat) (fs : FileSystem) (path : Path) (h : path.length < n) :
    MkdirAllAux n fs path = MkdirAll fs path :=
  MkdirAllAux_fuel n (path.length + 1) fs path h (Nat.lt_succ_self _)

/-! ## The record of actions of a reconciliation -/

theorem ContinuedBy_refl (w : World) : w.ContinuedBy w :=
  ⟨[], by simp, fun a h => absurd h (List.not_mem_nil _)⟩

theorem ContinuedBy_trans (w w1 w2 : World) (h1 : w.ContinuedBy w1) (h2 : w1.ContinuedBy w2) :
    w.ContinuedBy w2 := by
  obtain ⟨a1, e1, n1⟩ := h1
  obtain ⟨a2, e2, n2⟩ := h2
  refine ⟨a1 ++ a2, by rw [e2, e1, List.append_assoc], ?_⟩
  intro a ha
  rcases List.mem_append.mp ha with h | h
  · exact n1 a h
  · exact n2 a h

theorem ContinuedBy_log (w : World) (a : Action) (ha : a.isPatch = false) :
    w.ContinuedBy (w.log a) :=
  ⟨[a], rfl, fun b hb => by rw [List.mem_singleton.mp hb]; exact ha⟩

theorem ContinuedBy_fs (w w1 : World) (fs : FileSystem) (h : w.ContinuedBy w1) :
    w.ContinuedBy { w1 with fs := fs } := h

theorem ContinuedBy_of_trace (w w1 w2 : World) (h : w.ContinuedBy w1)
    (ht : w2.trace = w1.trace) : w.ContinuedBy w2 := by
  obtain ⟨a1, e1, n1⟩ := h
  exact ⟨a1, by rw [ht, e1], n1⟩

theorem getConfigMap_ContinuedBy (env : Env) (w : World) (n : NamespacedName) :
    w.ContinuedBy (getConfigMap env w n).2 := by
  unfold getConfigMap
  split <;> exact ContinuedBy_log w _ rfl

theorem getSecret_ContinuedBy (env : Env) (w : World) (n : NamespacedName) :
    w.ContinuedBy (getSecret env w n).2 := by
  unfold getSecret
  split
  · exact ContinuedBy_log w _ rfl
  · split <;> exact ContinuedBy_log w _ rfl

theorem getFluxObject_ContinuedBy (w : World) (kind : String) (n : NamespacedName)
    (get : NamespacedName → Except ApiError FluxObject) :
    w.ContinuedBy (getFluxObject w kind n get).2 := by
  unfold getFluxObject
  split
  · split <;> exact ContinuedBy_log w _ rfl
  · exact ContinuedBy_log w _ rfl

theorem getSource_ContinuedBy (env : Env) (w : World) (ref : ObjectReference) :
    w.ContinuedBy (getSource env w ref).2 := by
  unfold getSource
  split
  · exact getFluxObject_ContinuedBy _ _ _ _
  · split
    · exact getFluxObject_ContinuedBy _ _ _ _
    · split
      · exact getFluxObject_ContinuedBy _ _ _ _
      · exact ContinuedBy_refl w

theorem ContinuedBy_mk (w w1 : World) (added : List Action)
    (h : w1.trace = w.trace ++ added) (hn : added.all (fun a => !a.isPatch) = true) :
    w.ContinuedBy w1 := by
  refine ⟨added, h, ?_⟩
  intro a ha
  have := List.all_eq_true.mp hn a ha
  simpa using this

theorem prepareFileSystemWithData_ContinuedBy (env : Env) (w : World)
    (binaryData : Option (GoMap String GoBytes)) (ref : ObjectReference) :
    w.ContinuedBy (prepareFileSystemWithData env w binaryData ref).2 := by
  unfold prepareFileSystemWithData
  simp only []
  cases binaryData.bind (fun m => m.lookup "ytt.tar.gz") with
  | none => exact ContinuedBy_refl w
  | some binaryTarGz =>
    simp only []
    cases env.mkdirTemp w.fs ("ytt-" ++ ref.Namespace ++ "-" ++ ref.Name) with
    | error err => exact ContinuedBy_log w _ rfl
    | ok tmpDir =>
      simp only []
      rcases WriteFile _ _ _ with ⟨fs3, _ | err⟩
      · simp only []
        rcases extractTarGzFile _ _ _ _ with ⟨fs4, _ | err⟩ <;>
          exact ContinuedBy_mk _ _ _
            (by simp only [World.log, List.append_assoc]; rfl) (by rfl)
      · exact ContinuedBy_mk _ _ _
          (by simp only [World.log, List.append_assoc]; rfl) (by rfl)

theorem prepareFileSystemWithConfigMap_ContinuedBy (env : Env) (w : World)
    (ref : ObjectReference) :
    w.ContinuedBy (prepareFileSystemWithConfigMap env w ref).2 := by
  unfold prepareFileSystemWithConfigMap
  have h := getConfigMap_ContinuedBy env w ⟨ref.Namespace, ref.Name⟩
  generalize getConfigMap env w ⟨ref.Namespace, ref.Name⟩ = res at h ⊢
  rcases res with ⟨_ | cm, w1⟩
  · exact h
  · exact ContinuedBy_trans _ _ _ h (prepareFileSystemWithData_ContinuedBy env w1 _ ref)

theorem prepareFileSystemWithSecret_ContinuedBy (env : Env) (w : World)
    (ref : ObjectReference) :
    w.ContinuedBy (prepareFileSystemWithSecret env w ref).2 := by
  unfold prepareFileSystemWithSecret
  have h := getSecret_ContinuedBy env w ⟨ref.Namespace, ref.Name⟩
  generalize getSecret env w ⟨ref.Namespace, ref.Name⟩ = res at h ⊢
  rcases res with ⟨_ | sec, w1⟩
  · exact h
  · exact ContinuedBy_trans _ _ _ h (prepareFileSystemWithData_ContinuedBy env w1 _ ref)

theorem prepareFileSystemWithFluxSource_ContinuedBy (env : Env) (w : World)
    (ref : ObjectReference) :
    w.ContinuedBy (prepareFileSystemWithFluxSource env w ref).2 := by
  unfold prepareFileSystemWithFluxSource
  have h := getSource_ContinuedBy env w ref
  generalize getSource env w ref = res at h ⊢
  rcases res with ⟨_ | _ | fluxSource, w1⟩
  · exact h
  · exact h
  · simp only []
    cases fluxSource.Artifact with
    | none => exact h
    | some artifact =>
      simp only []
      cases env.mkdirTemp w1.fs ("kustomization-" ++ ref.Namespace ++ "-" ++ ref.Name) with
      | error err => exact ContinuedBy_trans _ _ _ h (ContinuedBy_log w1 _ rfl)
      | ok tmpDir =>
        simp only []
        rcases env.fetch _ _ _ _ with ⟨fs4, _ | err⟩ <;>
          exact ContinuedBy_trans _ _ _ h (ContinuedBy_mk _ _ _
            (by simp only [World.log, List.append_assoc]; rfl) (by rfl))

theorem prepareFileSystem_ContinuedBy (env : Env) (w : World) (y : YttSource) :
    w.ContinuedBy (prepareFileSystem env w y).2 := by
  unfold prepareFileSystem
  simp only []
  split
  · exact prepareFileSystemWithConfigMap_ContinuedBy _ _ _
  · split
    · exact prepareFileSystemWithSecret_ContinuedBy _ _ _
    · exact prepareFileSystemWithFluxSource_ContinuedBy _ _ _

theorem renderStagingDir_ContinuedBy (env : Env) (w : World) (tmpDir : Path) (y : YttSource) :
    w.ContinuedBy (renderStagingDir env w tmpDir y).2 := by
  unfold renderStagingDir
  simp only []
  cases Stat w.fs (Join tmpDir y.Spec.Path.toList) with
  | none => exact ContinuedBy_refl w
  | some nd =>
    simp only []
    cases templatesAsInput w.fs (Join tmpDir y.Spec.Path.toList) y with
    | error err => exact ContinuedBy_refl w
    | ok input =>
      simp only []
      cases env.RunWithFiles input with
      | error err => exact ContinuedBy_log w _ rfl
      | ok docSet =>
        simp only []
        cases env.AsBytes docSet <;> exact ContinuedBy_log w _ rfl

theorem reconcileNormal_ContinuedBy (env : Env) (r : YttSourceReconciler) (w : World)
    (y : YttSource) : w.ContinuedBy (reconcileNormal env r w y).2.2 := by
  unfold reconcileNormal
  simp only []
  have h := prepareFileSystem_ContinuedBy env w y
  generalize prepareFileSystem env w y = res at h ⊢
  rcases res with ⟨_ | tmpDir, w1⟩
  · exact h
  · simp only []
    split
    · exact h
    · have h2 := renderStagingDir_ContinuedBy env w1 tmpDir y
      generalize renderStagingDir env w1 tmpDir y = res2 at h2 ⊢
      rcases res2 with ⟨res, w2⟩
      exact ContinuedBy_trans _ _ _ h (ContinuedBy_trans _ _ _ h2
        (ContinuedBy_log { w2 with fs := RemoveAll w2.fs tmpDir } _ rfl))

theorem reconcileNormal_index (env : Env) (r : YttSourceReconciler) (w : World)
    (y : YttSource) : (reconcileNormal env r w y).2.1 = updateMaps r y := by
  unfold reconcileNormal
  simp only []
  rcases prepareFileSystem env w y with ⟨_ | tmpDir, w1⟩
  · rfl
  · simp only []
    split
    · rfl
    · rfl

/-! ## Claims on reconciliation -/

theorem prepareFileSystemWithData_missing (env : Env) (w : World)
    (binaryData : Option (GoMap String GoBytes)) (ref : ObjectReference)
    (h : binaryData.bind (fun m => m.lookup "ytt.tar.gz") = none) :
    prepareFileSystemWithData env w binaryData ref = (.error "ytt.tar.gz missing", w) := by
  unfold prepareFileSystemWithData
  simp only [h]
  rfl

theorem prepareFileSystem_not_ready (env : Env) (w : World) (y : YttSource) (obj : FluxObject)
    (hkind : (y.Spec.Kind = GitRepositoryKind ∧
        env.client.getGitRepository ⟨y.Spec.Namespace, y.Spec.Name⟩ = .ok obj) ∨
      (y.Spec.Kind = OCIRepositoryKind ∧
        env.client.getOCIRepository ⟨y.Spec.Namespace, y.Spec.Name⟩ = .ok obj) ∨
      (y.Spec.Kind = BucketKind ∧
        env.client.getBucket ⟨y.Spec.Namespace, y.Spec.Name⟩ = .ok obj))
    (hart : obj.Artifact = none) :
    prepareFileSystem env w y =
      (.ok [], w.log (.getBackend y.Spec.Kind ⟨y.Spec.Namespace, y.Spec.Name⟩)) := by
  unfold prepareFileSystem prepareFileSystemWithFluxSource getSource getFluxObject
  rcases hkind with ⟨hk, hget⟩ | ⟨hk, hget⟩ | ⟨hk, hget⟩ <;>
    simp [getCurrentReference, hk, hget, hart, GitRepositoryKind, OCIRepositoryKind,
      BucketKind, ConfigMapReferencedResourceKind, SecretReferencedResourceKind]

/-- C11 (as stated, refuted): the GitRepository `flux/repo` exists and has no artifact;
`Reconcile` of `ns1/git` fetches nothing, returns no error and leaves
`status.failureMessage` unset. -/
theorem C11_not_ready_leaves_failureMessage_unset :
    (Reconcile sampleEnv (YttSourceReconciler.new sampleScheme) sampleWorld
      ⟨"ns1", "git"⟩).object.map (fun o => o.Status.FailureMessage) = some none ∧
    (Reconcile sampleEnv (YttSourceReconciler.new sampleScheme) sampleWorld
      ⟨"ns1", "git"⟩).reterr = none ∧
    (Reconcile sampleEnv (YttSourceReconciler.new sampleScheme) sampleWorld
      ⟨"ns1", "git"⟩).world.trace.any Action.isFetch = false := by
  decide

/-- C11 (amended): for every loaded, live SourceObject of kind GitRepository, OCIRepository or
Bucket whose backend object exists and has no artifact, `Reconcile` reads the backend object
and then only patches: no temporary directory, no artifact fetch, no rendering; the status it
patches has `failureMessage` unset and `resources` empty, and the error it returns is that
of the patch. -/
theorem C11_not_ready_source (env : Env) (r : YttSourceReconciler) (w : World)
    (req : NamespacedName) (y : YttSource) (obj : FluxObject)
    (hload : env.client.getYttSource req = .ok y) (hhelper : env.newHelper y = none)
    (hlive : y.DeletionTimestamp = none)
    (hkind : (y.Spec.Kind = GitRepositoryKind ∧
        env.client.getGitRepository ⟨y.Spec.Namespace, y.Spec.Name⟩ = .ok obj) ∨
      (y.Spec.Kind = OCIRepositoryKind ∧
        env.client.getOCIRepository ⟨y.Spec.Namespace, y.Spec.Name⟩ = .ok obj) ∨
      (y.Spec.Kind = BucketKind ∧
        env.client.getBucket ⟨y.Spec.Namespace, y.Spec.Name⟩ = .ok obj))
    (hart : obj.Artifact = none) :
    (Reconcile env r w req).object =
      some { y with Status := { Resources := "", FailureMessage := none } } ∧
    (Reconcile env r w req).world.trace =
      w.trace ++ [.get req, .getBackend y.Spec.Kind ⟨y.Spec.Namespace, y.Spec.Name⟩,
        .patch { y with Status := { Resources := "", FailureMessage := none } }] ∧
    (Reconcile env r w req).world.trace.any Action.isFetch = w.trace.any Action.isFetch ∧
    (Reconcile env r w req).world.fs = w.fs ∧
    (Reconcile env r w req).reterr =
      env.patch y { y with Status := { Resources := "", FailureMessage := none } } := by
  have hrn : reconcileNormal env r (w.log (.get req)) y =
      (.ok "", updateMaps r y,
        (w.log (.get req)).log (.getBackend y.Spec.Kind ⟨y.Spec.Namespace, y.Spec.Name⟩)) := by
    unfold reconcileNormal
    simp only [prepareFileSystem_not_ready env _ y obj hkind hart, if_true]
  have hd : y.DeletionTimestamp.isSome = false := by rw [hlive]; rfl
  unfold Reconcile
  simp only [hload, hhelper, hd, Bool.false_eq_true, if_false, hrn]
  unfold closeDeferred Close
  cases hp : env.patch y { y with Status := { Resources := "", FailureMessage := none } } <;>
    simp [World.log, Action.isFetch]

/-- C11 at a concrete input: `ns1/git` in the sample cluster, whose GitRepository `flux/repo`
has no artifact. -/
theorem C11_not_ready_source_witness :
    (Reconcile sampleEnv (YttSourceReconciler.new sampleScheme) sampleWorld
      ⟨"ns1", "git"⟩).object =
      some { sampleGitSource with Status := { Resources := "", FailureMessage := none } } ∧
    (Reconcile sampleEnv (YttSourceReconciler.new sampleScheme) sampleWorld
      ⟨"ns1", "git"⟩).world.fs = sampleWorld.fs :=
  have h := C11_not_ready_source sampleEnv (YttSourceReconciler.new sampleScheme) sampleWorld
    ⟨"ns1", "git"⟩ sampleGitSource ⟨"", "flux", "repo", none⟩ rfl rfl rfl
    (Or.inl ⟨rfl, rfl⟩) rfl
  ⟨h.1, h.2.2.2.1⟩

/-- C12: for every ConfigMap or Secret source whose referenced object's binary data has no
`ytt.tar.gz` key, `prepareFileSystemWithData` fails with `ytt.tar.gz missing` and leaves the
world as it was (no directory created); `Reconcile` of the loaded, live object ends with a
non-empty `status.failureMessage`, empty `status.resources` and an untouched file system. -/
theorem C12_missing_payload (env : Env) (r : YttSourceReconciler) (w : World)
    (req : NamespacedName) (y : YttSource) (binaryData : Option (GoMap String GoBytes))
    (hload : env.client.getYttSource req = .ok y) (hhelper : env.newHelper y = none)
    (hlive : y.DeletionTimestamp = none)
    (hkind : (y.Spec.Kind = ConfigMapReferencedResourceKind ∧
        ∃ cm, env.client.getConfigMap ⟨y.Spec.Namespace, y.Spec.Name⟩ = .ok cm ∧
          cm.BinaryData = binaryData) ∨
      (y.Spec.Kind = SecretReferencedResourceKind ∧
        ∃ sec, env.client.getSecret ⟨y.Spec.Namespace, y.Spec.Name⟩ = .ok sec ∧
          sec.Data = binaryData))
    (hmissing : binaryData.bind (fun m => m.lookup "ytt.tar.gz") = none) :
    (∀ (w1 : World) (ref : ObjectReference),
      prepareFileSystemWithData env w1 binaryData ref = (.error "ytt.tar.gz missing", w1)) ∧
    ∃ msg : String, msg ≠ "" ∧
      (Reconcile env r w req).object =
        some { y with Status := { Resources := "", FailureMessage := some msg } } ∧
      (Reconcile env r w req).world.fs = w.fs ∧
      (Reconcile env r w req).world.trace.any Action.isMkdirTemp =
        w.trace.any Action.isMkdirTemp := by
  have hdata := fun (w1 : World) (ref : ObjectReference) =>
    prepareFileSystemWithData_missing env w1 binaryData ref hmissing
  refine ⟨hdata, ?_⟩
  have hd : y.DeletionTimestamp.isSome = false := by rw [hlive]; rfl
  have hprep : ∃ msg : String, msg ≠ "" ∧ ∃ kind : String,
      prepareFileSystem env (w.log (.get req)) y =
        (.error msg, (w.log (.get req)).log
          (.getBackend kind ⟨y.Spec.Namespace, y.Spec.Name⟩)) := by
    rcases hkind with ⟨hk, cm, hget, hbd⟩ | ⟨hk, sec, hget, hbd⟩
    · refine ⟨"ytt.tar.gz missing", by decide, ConfigMapReferencedResourceKind, ?_⟩
      unfold prepareFileSystem prepareFileSystemWithConfigMap getConfigMap
      simp only [getCurrentReference, hk, if_true, hget, hbd, hdata]
    · by_cases ht : sec.SecretType = ClusterProfileSecretType
      · refine ⟨"ytt.tar.gz missing", by decide, SecretReferencedResourceKind, ?_⟩
        unfold prepareFileSystem prepareFileSystemWithSecret getSecret
        have hne : SecretReferencedResourceKind ≠ ConfigMapReferencedResourceKind := by decide
        simp only [getCurrentReference, hk, hne, if_false, if_true, hget, hbd, hdata, ht,
          ne_eq, not_true_eq_false]
      · refine ⟨ErrSecretTypeNotSupported, by decide, SecretReferencedResourceKind, ?_⟩
        unfold prepareFileSystem prepareFileSystemWithSecret getSecret
        have hne : SecretReferencedResourceKind ≠ ConfigMapReferencedResourceKind := by decide
        simp only [getCurrentReference, hk, hne, if_false, if_true, hget, ht, ne_eq,
          not_false_eq_true]
  obtain ⟨msg, hmsg, kind, hp⟩ := hprep
  refine ⟨msg, hmsg, ?_⟩
  have hrn : reconcileNormal env r (w.log (.get req)) y =
      (.error msg, updateMaps r y,
        (w.log (.get req)).log (.getBackend kind ⟨y.Spec.Namespace, y.Spec.Name⟩)) := by
    unfold reconcileNormal
    simp only [hp]
  unfold Reconcile
  simp only [hload, hhelper, hd, Bool.false_eq_true, if_false, hrn]
  unfold closeDeferred Close
  cases hpatch : env.patch y
      { y with Status := { Resources := "", FailureMessage := some msg } } <;>
    simp [World.log, Action.isMkdirTemp]

/-- C12 at a concrete input: `ns1/cm` in the sample cluster, whose ConfigMap has no binary
data. -/
theorem C12_missing_payload_witness :
    (Option.none : Option (GoMap String GoBytes)).bind (fun m => m.lookup "ytt.tar.gz") = none ∧
    (Reconcile sampleEnv (YttSourceReconciler.new sampleScheme) sampleWorld
      ⟨"ns1", "cm"⟩).object =
      some { sampleConfigMapSource with
        Status := { Resources := "", FailureMessage := some "ytt.tar.gz missing" } } ∧
    ∀ (w1 : World) (ref : ObjectReference),
      prepareFileSystemWithData sampleEnv w1 none ref = (.error "ytt.tar.gz missing", w1) :=
  ⟨rfl, by decide,
    (C12_missing_payload sampleEnv (YttSourceReconciler.new sampleScheme) sampleWorld
      ⟨"ns1", "cm"⟩ sampleConfigMapSource none rfl rfl rfl
      (Or.inl ⟨rfl, { Namespace := "cfg", Name := "nopayload" }, rfl, rfl⟩) rfl).1⟩

/-- C13: for every `Reconcile` of a loaded, live SourceObject: when `reconcileNormal` fails
with error `e` the status afterwards has `failureMessage` equal to the text of `e` and
`resources` empty; when it succeeds with text `t` the status has `failureMessage` unset and
`resources` equal to `t`; in both cases a set `failureMessage` comes with empty
`resources`. -/
theorem C13_status_follows_pipeline (env : Env) (r : YttSourceReconciler) (w : World)
    (req : NamespacedName) (y : YttSource)
    (hload : env.client.getYttSource req = .ok y) (hhelper : env.newHelper y = none)
    (hlive : y.DeletionTimestamp = none) :
    (∀ e : GoError, (reconcileNormal env r (w.log (.get req)) y).1 = .error e →
      (Reconcile env r w req).object =
        some { y with Status := { Resources := "", FailureMessage := some e } }) ∧
    (∀ t : String, (reconcileNormal env r (w.log (.get req)) y).1 = .ok t →
      (Reconcile env r w req).object =
        some { y with Status := { Resources := t, FailureMessage := none } }) ∧
    (∀ obj, (Reconcile env r w req).object = some obj →
      obj.Status.FailureMessage.isSome = true → obj.Status.Resources = "") := by
  have hd : y.DeletionTimestamp.isSome = false := by rw [hlive]; rfl
  have hobj : (Reconcile env r w req).object =
      match (reconcileNormal env r (w.log (.get req)) y).1 with
      | .error e => some { y with Status := { Resources := "", FailureMessage := some e } }
      | .ok t => some { y with Status := { Resources := t, FailureMessage := none } } := by
    unfold Reconcile
    simp only [hload, hhelper, hd, Bool.false_eq_true, if_false]
    rcases reconcileNormal env r (w.log (.get req)) y with ⟨_ | _, r2, w2⟩ <;>
      simp only [closeDeferred, Close] <;> split <;> rfl
  refine ⟨?_, ?_, ?_⟩
  · intro e he
    rw [hobj, he]
  · intro t ht
    rw [hobj, ht]
  · intro obj ho hf
    rw [hobj] at ho
    cases hres : (reconcileNormal env r (w.log (.get req)) y).1 with
    | error e =>
      rw [hres] at ho
      simp only [Option.some.injEq] at ho
      rw [← ho]
    | ok t =>
      rw [hres] at ho
      simp only [Option.some.injEq] at ho
      rw [← ho] at hf
      simp at hf

/-- C13 at a concrete input: `ns1/cm` in the sample cluster, whose pipeline fails with
`ytt.tar.gz missing`. -/
theorem C13_status_follows_pipeline_witness :
    (reconcileNormal sampleEnv (YttSourceReconciler.new sampleScheme)
      (sampleWorld.log (.get ⟨"ns1", "cm"⟩)) sampleConfigMapSource).1 =
      .error "ytt.tar.gz missing" ∧
    (Reconcile sampleEnv (YttSourceReconciler.new sampleScheme) sampleWorld
      ⟨"ns1", "cm"⟩).object =
      some { sampleConfigMapSource with
        Status := { Resources := "", FailureMessage := some "ytt.tar.gz missing" } } :=
  ⟨rfl,
    (C13_status_follows_pipeline sampleEnv (YttSourceReconciler.new sampleScheme) sampleWorld
      ⟨"ns1", "cm"⟩ sampleConfigMapSource rfl rfl rfl).1 "ytt.tar.gz missing" rfl⟩

/-- C14 (as stated, refuted): in the sample cluster the load of `ns1/cm`, the patch helper
and the status patch all succeed and the resolver fails with `ytt.tar.gz missing`;
`Reconcile` returns that error. -/
theorem C14_pipeline_error_returned :
    sampleEnv.newHelper sampleConfigMapSource = none ∧
    sampleEnv.patch sampleConfigMapSource
      { sampleConfigMapSource with
        Status := { Resources := "", FailureMessage := some "ytt.tar.gz missing" } } = none ∧
    (reconcileNormal sampleEnv (YttSourceReconciler.new sampleScheme)
      (sampleWorld.log (.get ⟨"ns1", "cm"⟩)) sampleConfigMapSource).1 =
      .error "ytt.tar.gz missing" ∧
    (Reconcile sampleEnv (YttSourceReconciler.new sampleScheme) sampleWorld
      ⟨"ns1", "cm"⟩).reterr = some "ytt.tar.gz missing" := by
  refine ⟨rfl, rfl, rfl, ?_⟩
  decide

/-- C14 (amended): `Reconcile` returns a non-nil error only when loading the SourceObject
fails with an error other than not-found, when the patch helper cannot be initialised, when
the final status patch fails, or when `reconcileNormal` (resolver or renderer) fails; and for
every `Reconcile` of a loaded, live object in which `reconcileNormal` fails with `e` and the
patch succeeds, `Reconcile` returns `e`. -/
theorem C14_returned_error (env : Env) (r : YttSourceReconciler) (w : World)
    (req : NamespacedName) :
    (∀ e : GoError, (Reconcile env r w req).reterr = some e →
      (∃ err, env.client.getYttSource req = .error err ∧ err.notFound = false) ∨
      (∃ y he, env.client.getYttSource req = .ok y ∧ env.newHelper y = some he) ∨
      (∃ y obj, env.client.getYttSource req = .ok y ∧
        (Reconcile env r w req).object = some obj ∧ env.patch y obj = some e) ∨
      (∃ y, env.client.getYttSource req = .ok y ∧ y.DeletionTimestamp = none ∧
        (reconcileNormal env r (w.log (.get req)) y).1 = .error e)) ∧
    (∀ (y : YttSource) (e : GoError), env.client.getYttSource req = .ok y →
      env.newHelper y = none → y.DeletionTimestamp = none →
      (reconcileNormal env r (w.log (.get req)) y).1 = .error e →
      env.patch y { y with Status := { Resources := "", FailureMessage := some e } } = none →
      (Reconcile env r w req).reterr = some e) := by
  constructor
  · intro e he
    unfold Reconcile at he ⊢
    cases hload : env.client.getYttSource req with
    | error err =>
      rw [hload] at he
      by_cases hnf : err.notFound = true
      · simp [hnf] at he
      · exact Or.inl ⟨err, rfl, by simpa using hnf⟩
    | ok y =>
      simp only [hload] at he ⊢
      cases hh : env.newHelper y with
      | some herr => exact Or.inr (Or.inl ⟨y, herr, rfl, hh⟩)
      | none =>
        simp only [hh] at he ⊢
        cases hdel : y.DeletionTimestamp with
        | some t =>
          simp only [hdel, Option.isSome_some, if_true, closeDeferred, Close] at he ⊢
          cases hp : env.patch y y with
          | none => simp [hp] at he
          | some pe =>
            simp only [hp] at he ⊢
            simp only [Option.some.injEq] at he
            subst he
            exact Or.inr (Or.inr (Or.inl ⟨y, y, rfl, rfl, hp⟩))
        | none =>
          simp only [hdel, Option.isSome_none, Bool.false_eq_true, if_false] at he ⊢
          rcases hrn : reconcileNormal env r (w.log (.get req)) y with ⟨_ | t, r2, w2⟩
          · rename_i perr
            simp only [hrn, closeDeferred, Close] at he ⊢
            cases hp : env.patch y
                { y with Status := { Resources := "", FailureMessage := some perr } } with
            | none =>
              simp only [hdel] at hp
              simp only [hp, Option.some.injEq] at he
              subst he
              exact Or.inr (Or.inr (Or.inr ⟨y, rfl, hdel, by rw [hrn]⟩))
            | some pe =>
              simp only [hdel] at hp
              simp only [hp, Option.some.injEq] at he ⊢
              subst he
              exact Or.inr (Or.inr (Or.inl ⟨y, _, rfl, rfl, hp⟩))
          · simp only [hrn, closeDeferred, Close] at he ⊢
            cases hp : env.patch y
                { y with Status := { Resources := t, FailureMessage := none } } with
            | none =>
              simp only [hdel] at hp
              simp [hp] at he
            | some pe =>
              simp only [hdel] at hp
              simp only [hp, Option.some.injEq] at he ⊢
              subst he
              exact Or.inr (Or.inr (Or.inl ⟨y, _, rfl, rfl, hp⟩))
  · intro y e hload hhelper hlive hrn hpatch
    have hd : y.DeletionTimestamp.isSome = false := by rw [hlive]; rfl
    unfold Reconcile
    simp only [hload, hhelper, hd, Bool.false_eq_true, if_false]
    rcases hres : reconcileNormal env r (w.log (.get req)) y with ⟨res, r2, w2⟩
    rw [hres] at hrn
    simp only at hrn
    subst hrn
    simp only [closeDeferred, Close, hpatch]

/-- C14 at a concrete input: `ns1/cm` in the sample cluster; the resolver's error is the
error `Reconcile` returns. -/
theorem C14_returned_error_witness :
    (Reconcile sampleEnv (YttSourceReconciler.new sampleScheme) sampleWorld
      ⟨"ns1", "cm"⟩).reterr = some "ytt.tar.gz missing" :=
  (C14_returned_error sampleEnv (YttSourceReconciler.new sampleScheme) sampleWorld
    ⟨"ns1", "cm"⟩).2 sampleConfigMapSource "ytt.tar.gz missing" rfl rfl rfl rfl rfl

/-- C15: for every `Reconcile` in which the SourceObject was loaded and the patch helper
created, the record of actions ends with one status patch (`Close`) of the object in memory,
preceded by no other status patch, on every exit path; and when that patch fails `Reconcile`
returns the patch error, whatever the body returned. -/
theorem C15_patch_once_and_last (env : Env) (r : YttSourceReconciler) (w : World)
    (req : NamespacedName) (y : YttSource)
    (hload : env.client.getYttSource req = .ok y) (hhelper : env.newHelper y = none) :
    ∃ (pre : List Action) (obj : YttSource),
      (Reconcile env r w req).world.trace = w.trace ++ pre ++ [.patch obj] ∧
      (∀ a ∈ pre, a.isPatch = false) ∧
      (Reconcile env r w req).object = some obj ∧
      (∀ pe : GoError, env.patch y obj = some pe →
        (Reconcile env r w req).reterr = some pe) := by
  have hclose : ∀ (r2 : YttSourceReconciler) (w2 : World) (obj : YttSource)
      (bodyErr : Option GoError), (w.log (.get req)).ContinuedBy w2 →
      ∃ (pre : List Action) (obj1 : YttSource),
        (closeDeferred env r2 w2 y obj bodyErr).world.trace = w.trace ++ pre ++ [.patch obj1] ∧
        (∀ a ∈ pre, a.isPatch = false) ∧
        (closeDeferred env r2 w2 y obj bodyErr).object = some obj1 ∧
        (∀ pe : GoError, env.patch y obj1 = some pe →
          (closeDeferred env r2 w2 y obj bodyErr).reterr = some pe) := by
    intro r2 w2 obj bodyErr hc
    obtain ⟨added, htr, hnp⟩ := hc
    refine ⟨.get req :: added, obj, ?_, ?_, ?_, ?_⟩
    · unfold closeDeferred Close
      cases env.patch y obj <;> simp [World.log, htr]
    · intro a ha
      rcases List.mem_cons.mp ha with h | h
      · rw [h]; rfl
      · exact hnp a h
    · unfold closeDeferred Close
      cases env.patch y obj <;> rfl
    · intro pe hpe
      unfold closeDeferred Close
      simp only [hpe]
  unfold Reconcile
  simp only [hload, hhelper]
  split
  · exact hclose _ _ _ _ (ContinuedBy_refl _)
  · have hc := reconcileNormal_ContinuedBy env r (w.log (.get req)) y
    rcases hrn : reconcileNormal env r (w.log (.get req)) y with ⟨_ | t, r2, w2⟩
    · rw [hrn] at hc
      exact hclose _ _ _ _ hc
    · rw [hrn] at hc
      exact hclose _ _ _ _ hc

/-- C15 at a concrete input: `ns1/git` in the sample cluster. -/
theorem C15_patch_once_and_last_witness :
    (Reconcile sampleEnv (YttSourceReconciler.new sampleScheme) sampleWorld
      ⟨"ns1", "git"⟩).world.trace =
      [.get ⟨"ns1", "git"⟩, .getBackend "GitRepository" ⟨"flux", "repo"⟩,
        .patch { sampleGitSource with Status := { Resources := "", FailureMessage := none } }] ∧
    ∃ (pre : List Action) (obj : YttSource),
      (Reconcile sampleEnv (YttSourceReconciler.new sampleScheme) sampleWorld
        ⟨"ns1", "git"⟩).world.trace = sampleWorld.trace ++ pre ++ [.patch obj] ∧
      (∀ a ∈ pre, a.isPatch = false) :=
  have h := C15_patch_once_and_last sampleEnv (YttSourceReconciler.new sampleScheme)
    sampleWorld ⟨"ns1", "git"⟩ sampleGitSource rfl rfl
  ⟨by decide, h.choose, h.choose_spec.choose, h.choose_spec.choose_spec.1,
    h.choose_spec.choose_spec.2.1⟩

/-- C16 (as stated, refuted): `ns1/gone` is marked for deletion; `Reconcile` loads it and
then executes the status patch (`Close`) on it. -/
theorem C16_deleted_object_is_patched :
    sampleDeleted.DeletionTimestamp.isSome = true ∧
    (Reconcile sampleEnv (YttSourceReconciler.new sampleScheme) sampleWorld
      ⟨"ns1", "gone"⟩).world.trace = [.get ⟨"ns1", "gone"⟩, .patch sampleDeleted] ∧
    (Reconcile sampleEnv (YttSourceReconciler.new sampleScheme) sampleWorld
      ⟨"ns1", "gone"⟩).world.trace.any Action.isPatch = true := by
  decide

/-- C16 (amended): for every loaded SourceObject marked for deletion, `Reconcile` removes it
from the index as `cleanMaps` does, calls neither the resolver nor the renderer, leaves the
status and the file system as they were, and still executes the deferred status patch
(`Close`) once, as its last action, on the unchanged object; the error it returns is that
of the patch. -/
theorem C16_deleted_object (env : Env) (r : YttSourceReconciler) (w : World)
    (req : NamespacedName) (y : YttSource)
    (hload : env.client.getYttSource req = .ok y) (hhelper : env.newHelper y = none)
    (hdel : y.DeletionTimestamp.isSome = true) :
    (Reconcile env r w req).r = cleanMaps r y ∧
    (Reconcile env r w req).world.trace = w.trace ++ [.get req, .patch y] ∧
    (Reconcile env r w req).object = some y ∧
    (Reconcile env r w req).world.fs = w.fs ∧
    (Reconcile env r w req).reterr = env.patch y y := by
  unfold Reconcile
  simp only [hload, hhelper, hdel, if_true, closeDeferred, Close]
  cases env.patch y y <;> simp [World.log]

/-- C16 at a concrete input: `ns1/gone` in the sample cluster. -/
theorem C16_deleted_object_witness :
    sampleDeleted.DeletionTimestamp.isSome = true ∧
    (Reconcile sampleEnv (YttSourceReconciler.new sampleScheme) sampleWorld
      ⟨"ns1", "gone"⟩).object = some sampleDeleted ∧
    (Reconcile sampleEnv (YttSourceReconciler.new sampleScheme) sampleWorld
      ⟨"ns1", "gone"⟩).world.trace = sampleWorld.trace ++
        [.get ⟨"ns1", "gone"⟩, .patch sampleDeleted] :=
  have h := C16_deleted_object sampleEnv (YttSourceReconciler.new sampleScheme) sampleWorld
    ⟨"ns1", "gone"⟩ sampleDeleted rfl rfl rfl
  ⟨rfl, h.2.2.1, h.2.1⟩

/-! ## Deep equality of maps -/

theorem GoMap.mem_keys {κ ν : Type} [DecidableEq κ] (m : GoMap κ ν) (k : κ) :
    k ∈ m.keys ↔ (m.lookup k).isSome = true := by
  unfold GoMap.keys GoMap.lookup
  rw [List.mem_dedup, List.mem_map]
  have hs : ∀ o : Option (κ × ν), (o.map Prod.snd).isSome = o.isSome := by
    intro o; cases o <;> rfl
  rw [hs, List.find?_isSome]
  constructor
  · rintro ⟨p, hp, rfl⟩
    exact ⟨p, hp, by simp⟩
  · rintro ⟨p, hp, hk⟩
    exact ⟨p, hp, by simpa using hk⟩

theorem GoMap.lookup_eq_none_of_not_mem_keys {κ ν : Type} [DecidableEq κ] (m : GoMap κ ν)
    (k : κ) (h : k ∉ m.keys) : m.lookup k = none := by
  rw [GoMap.mem_keys] at h
  cases hl : m.lookup k with
  | none => rfl
  | some v => rw [hl] at h; exact absurd rfl h

theorem deepEqualBytes_iff (x y : GoBytes) : deepEqualBytes x y = true ↔ x = y := by
  unfold deepEqualBytes
  cases x <;> cases y <;> simp
  intro h
  rw [h]

theorem deepEqualMap_some_iff {ν : Type} (eqv : ν → ν → Bool)
    (heq : ∀ x y, eqv x y = true ↔ x = y) (m1 m2 : GoMap String ν) :
    deepEqualMap eqv (some m1) (some m2) = true ↔ ∀ k, m1.lookup k = m2.lookup k := by
  unfold deepEqualMap
  simp only [Bool.and_eq_true, beq_iff_eq, List.all_eq_true]
  constructor
  · rintro ⟨hlen, hall⟩ k
    have hsub : m1.keys ⊆ m2.keys := by
      intro k1 hk1
      have := hall k1 hk1
      rw [GoMap.mem_keys]
      cases h2 : m2.lookup k1 with
      | some v => rfl
      | none =>
        rw [h2] at this
        cases h1 : m1.lookup k1 <;> rw [h1] at this <;> simp at this
    have hperm : m1.keys.Perm m2.keys :=
      (List.subperm_of_subset (List.nodup_dedup _) hsub).perm_of_length_le
        (by unfold GoMap.Len at hlen; exact le_of_eq hlen.symm)
    by_cases hk : k ∈ m1.keys
    · have := hall k hk
      cases h1 : m1.lookup k with
      | none => rw [h1] at this; simp at this
      | some v1 =>
        cases h2 : m2.lookup k with
        | none => rw [h1, h2] at this; simp at this
        | some v2 =>
          rw [h1, h2] at this
          rw [(heq v1 v2).mp this]
    · have hk2 : k ∉ m2.keys := fun h => hk (hperm.mem_iff.mpr h)
      rw [GoMap.lookup_eq_none_of_not_mem_keys m1 k hk,
        GoMap.lookup_eq_none_of_not_mem_keys m2 k hk2]
  · intro h
    have hmem : ∀ k, k ∈ m1.keys ↔ k ∈ m2.keys := by
      intro k
      rw [GoMap.mem_keys, GoMap.mem_keys, h k]
    refine ⟨?_, ?_⟩
    · unfold GoMap.Len
      exact ((List.perm_ext_iff_of_nodup (List.nodup_dedup _) (List.nodup_dedup _)).mpr
        hmem).length_eq
    · intro k hk
      have hs := (GoMap.mem_keys m1 k).mp hk
      rw [← h k]
      cases h1 : m1.lookup k with
      | none => rw [h1] at hs; exact absurd hs (by simp)
      | some v => exact (heq v v).mpr rfl

theorem deepEqualMap_iff {ν : Type} (eqv : ν → ν → Bool)
    (heq : ∀ x y, eqv x y = true ↔ x = y) (a b : Option (GoMap String ν)) :
    deepEqualMap eqv a b = true ↔
      (a.isSome = b.isSome ∧
        ∀ k, a.bind (fun g => g.lookup k) = b.bind (fun g => g.lookup k)) := by
  cases a with
  | none =>
    cases b with
    | none => simp [deepEqualMap]
    | some m2 => simp [deepEqualMap]
  | some m1 =>
    cases b with
    | none => simp [deepEqualMap]
    | some m2 =>
      rw [deepEqualMap_some_iff eqv heq]
      simp

theorem deepEqualMap_refl {ν : Type} (eqv : ν → ν → Bool)
    (heq : ∀ x y, eqv x y = true ↔ x = y) (a : Option (GoMap String ν)) :
    deepEqualMap eqv a a = true :=
  (deepEqualMap_iff eqv heq a a).mpr ⟨rfl, fun _ => rfl⟩

/-! ## Claims on the change filter -/

theorem payloadAt_eq_of_lookup_eq (a b : Option (GoMap String GoBytes)) (k : String)
    (h : a.bind (fun g => g.lookup k) = b.bind (fun g => g.lookup k)) :
    payloadAt a k = payloadAt b k := by
  unfold payloadAt
  rw [h]

theorem payload_update_facts (a b : Option (GoMap String GoBytes)) :
    ((if !deepEqualMap deepEqualBytes a b then true else false) = true ↔
      (a.isSome ≠ b.isSome ∨
        ∃ k, a.bind (fun g => g.lookup k) ≠ b.bind (fun g => g.lookup k))) ∧
    ((∃ k, payloadAt a k ≠ payloadAt b k) →
      (if !deepEqualMap deepEqualBytes a b then true else false) = true) ∧
    (b = a → (if !deepEqualMap deepEqualBytes a b then true else false) = false) := by
  have hiff := deepEqualMap_iff deepEqualBytes deepEqualBytes_iff a b
  have hmain : (if !deepEqualMap deepEqualBytes a b then true else false) = true ↔
      (a.isSome ≠ b.isSome ∨
        ∃ k, a.bind (fun g => g.lookup k) ≠ b.bind (fun g => g.lookup k)) := by
    cases hde : deepEqualMap deepEqualBytes a b with
    | true =>
      have := hiff.mp hde
      simp only [Bool.not_true, Bool.false_eq_true, if_false, false_iff, not_or, not_exists,
        ne_eq, not_not]
      exact this
    | false =>
      simp only [Bool.not_false, if_true, true_iff]
      by_contra hcon
      simp only [not_or, not_exists, ne_eq, not_not] at hcon
      have := hiff.mpr hcon
      rw [hde] at this
      exact absurd this (by simp)
  refine ⟨hmain, ?_, ?_⟩
  · rintro ⟨k, hk⟩
    rw [hmain]
    right
    exact ⟨k, fun h => hk (payloadAt_eq_of_lookup_eq a b k h)⟩
  · intro hab
    subst hab
    rw [deepEqualMap_refl deepEqualBytes deepEqualBytes_iff]
    rfl

/-- C17 (as stated, refuted): the old ConfigMap has a nil `BinaryData` map and the new one
an empty map; no key holds any byte on either side, and `UpdateFunc` returns true. -/
theorem C17_nil_versus_empty_payload :
    ConfigMapPredicates.UpdateFunc ⟨some sampleNilPayload, sampleEmptyPayload⟩ = true ∧
    ∀ k, payloadAt sampleNilPayload.BinaryData k = payloadAt sampleEmptyPayload.BinaryData k :=
  ⟨by decide, fun _ => rfl⟩

/-- C17 (amended): for every update event on a ConfigMap (resp. Secret) with a non-nil old
object, `UpdateFunc` returns true if and only if `BinaryData` (resp. `Data`) of old and new
are not deeply equal: one map is nil and the other is not, or some key is bound on one side
only or to values that differ in a byte or in being nil versus empty. A differing payload
byte gives true, and an update that leaves the field as it was gives false whatever else
changed. -/
theorem C17_update_iff_payload_not_deeply_equal (old new : ConfigMap)
    (oldSecret newSecret : Secret) :
    (ConfigMapPredicates.UpdateFunc ⟨some old, new⟩ = true ↔
      (old.BinaryData.isSome ≠ new.BinaryData.isSome ∨
        ∃ k, old.BinaryData.bind (fun g => g.lookup k) ≠
          new.BinaryData.bind (fun g => g.lookup k))) ∧
    ((∃ k, payloadAt old.BinaryData k ≠ payloadAt new.BinaryData k) →
      ConfigMapPredicates.UpdateFunc ⟨some old, new⟩ = true) ∧
    (new.BinaryData = old.BinaryData →
      ConfigMapPredicates.UpdateFunc ⟨some old, new⟩ = false) ∧
    (SecretPredicates.UpdateFunc ⟨some oldSecret, newSecret⟩ = true ↔
      (oldSecret.Data.isSome ≠ newSecret.Data.isSome ∨
        ∃ k, oldSecret.Data.bind (fun g => g.lookup k) ≠
          newSecret.Data.bind (fun g => g.lookup k))) ∧
    ((∃ k, payloadAt oldSecret.Data k ≠ payloadAt newSecret.Data k) →
      SecretPredicates.UpdateFunc ⟨some oldSecret, newSecret⟩ = true) ∧
    (newSecret.Data = oldSecret.Data →
      SecretPredicates.UpdateFunc ⟨some oldSecret, newSecret⟩ = false) := by
  obtain ⟨h1, h2, h3⟩ := payload_update_facts old.BinaryData new.BinaryData
  obtain ⟨h4, h5, h6⟩ := payload_update_facts oldSecret.Data newSecret.Data
  exact ⟨h1, h2, h3, h4, h5, h6⟩

/-- C17 at a concrete input: one payload byte differs between old and new. -/
theorem C17_update_iff_payload_not_deeply_equal_witness :
    payloadAt samplePayload.BinaryData "ytt.tar.gz" ≠
      payloadAt samplePayloadOtherByte.BinaryData "ytt.tar.gz" ∧
    ConfigMapPredicates.UpdateFunc ⟨some samplePayload, samplePayloadOtherByte⟩ = true ∧
    ConfigMapPredicates.UpdateFunc ⟨some samplePayload,
      { samplePayload with ResourceVersion := "2", Data := some GoMap.empty }⟩ = false :=
  have h := C17_update_iff_payload_not_deeply_equal samplePayload samplePayloadOtherByte
    { Namespace := "cfg", Name := "s" } { Namespace := "cfg", Name := "s" }
  ⟨by decide, h.2.1 ⟨"ytt.tar.gz", by decide⟩, by decide⟩

theorem deepEqualArtifact_iff (a b : Artifact) :
    deepEqualArtifact a b = true ↔
      (a.Path = b.Path ∧ a.URL = b.URL ∧ a.Revision = b.Revision ∧ a.Digest = b.Digest ∧
        a.LastUpdateTime = b.LastUpdateTime ∧ a.Size = b.Size ∧
        a.Metadata.isSome = b.Metadata.isSome ∧
        ∀ k, a.Metadata.bind (fun g => g.lookup k) = b.Metadata.bind (fun g => g.lookup k)) := by
  unfold deepEqualArtifact
  simp only [Bool.and_eq_true, beq_iff_eq,
    deepEqualMap_iff (fun x y : String => x == y) (fun x y => beq_iff_eq) a.Metadata b.Metadata]
  tauto

theorem fluxUpdatePredicate_kind_set (p : FluxPredicate) (objNew objOld : FluxObject)
    (hk : (p.goType = .GitRepository ∧ objNew.Kind = GitRepositoryKind) ∨
      (p.goType = .OCIRepository ∧ objNew.Kind = OCIRepositoryKind) ∨
      (p.goType = .Bucket ∧ objNew.Kind = BucketKind)) :
    p.Update ⟨some objOld, objNew⟩ =
      some (!isArtifactSame objOld.Artifact objNew.Artifact) := by
  unfold FluxPredicate.Update fluxUpdatePredicate hasArtifactChanged artifactCase
  rcases hk with ⟨h1, h2⟩ | ⟨h1, h2⟩ | ⟨h1, h2⟩ <;>
    simp [h1, h2, GitRepositoryKind, OCIRepositoryKind, BucketKind]

/-- C18 (as stated, refuted): the new artifact of the GitRepository has the URL and the
digest of the old one and another revision; `fluxUpdatePredicate` returns true. -/
theorem C18_revision_change_is_worthy :
    sampleArtifactOtherRevision.URL = sampleArtifact.URL ∧
    sampleArtifactOtherRevision.Digest = sampleArtifact.Digest ∧
    FluxGitRepositoryPredicate.Update
      ⟨some ⟨"GitRepository", "flux", "repo", some sampleArtifact⟩,
        ⟨"GitRepository", "flux", "repo", some sampleArtifactOtherRevision⟩⟩ = some true := by
  decide

/-- C18 (amended): for every update event on a GitRepository, OCIRepository or Bucket whose
type metadata carries its kind and in which both the old and the new object carry an
artifact, `fluxUpdatePredicate` returns true if and only if the two artifacts are not deeply
equal, that is if they differ in any field: path, URL, revision, digest, last-update time,
size or metadata. A different (URL, digest) pair therefore gives true. -/
theorem C18_update_iff_artifact_differs (p : FluxPredicate) (objNew objOld : FluxObject)
    (a b : Artifact)
    (hk : (p.goType = .GitRepository ∧ objNew.Kind = GitRepositoryKind) ∨
      (p.goType = .OCIRepository ∧ objNew.Kind = OCIRepositoryKind) ∨
      (p.goType = .Bucket ∧ objNew.Kind = BucketKind))
    (ha : objOld.Artifact = some a) (hb : objNew.Artifact = some b) :
    (p.Update ⟨some objOld, objNew⟩ = some true ∨ p.Update ⟨some objOld, objNew⟩ = some false) ∧
    (p.Update ⟨some objOld, objNew⟩ = some false ↔
      (a.Path = b.Path ∧ a.URL = b.URL ∧ a.Revision = b.Revision ∧ a.Digest = b.Digest ∧
        a.LastUpdateTime = b.LastUpdateTime ∧ a.Size = b.Size ∧
        a.Metadata.isSome = b.Metadata.isSome ∧
        ∀ k, a.Metadata.bind (fun g => g.lookup k) = b.Metadata.bind (fun g => g.lookup k))) ∧
    ((a.URL, a.Digest) ≠ (b.URL, b.Digest) → p.Update ⟨some objOld, objNew⟩ = some true) := by
  have hu := fluxUpdatePredicate_kind_set p objNew objOld hk
  have hsame : isArtifactSame objOld.Artifact objNew.Artifact = deepEqualArtifact a b := by
    unfold isArtifactSame
    rw [ha, hb]
    simp
  rw [hu, hsame]
  have hiff := deepEqualArtifact_iff a b
  refine ⟨?_, ?_, ?_⟩
  · cases deepEqualArtifact a b <;> simp
  · rw [← hiff]
    cases deepEqualArtifact a b <;> simp
  · intro hne
    cases hde : deepEqualArtifact a b with
    | false => rfl
    | true =>
      have := hiff.mp hde
      exact absurd (by rw [this.2.1, this.2.2.2.1]) hne

/-- C18 at a concrete input: the GitRepository `flux/repo` with kind set, whose artifact
changes revision only. -/
theorem C18_update_iff_artifact_differs_witness :
    FluxGitRepositoryPredicate.Update
      ⟨some ⟨"GitRepository", "flux", "repo", some sampleArtifact⟩,
        ⟨"GitRepository", "flux", "repo", some sampleArtifact⟩⟩ = some false :=
  (C18_update_iff_artifact_differs FluxGitRepositoryPredicate
    ⟨"GitRepository", "flux", "repo", some sampleArtifact⟩
    ⟨"GitRepository", "flux", "repo", some sampleArtifact⟩ sampleArtifact sampleArtifact
    (Or.inl ⟨rfl, rfl⟩) rfl rfl).2.1.mpr
    ⟨rfl, rfl, rfl, rfl, rfl, rfl, rfl, fun _ => rfl⟩

/-- A new object whose type metadata carries none of the three kinds is never found changed. -/
theorem fluxUpdatePredicate_kind_not_set (p : FluxPredicate) (objNew : FluxObject)
    (objOld : Option FluxObject) (hk : objNew.Kind = "") :
    p.Update ⟨objOld, objNew⟩ = some false := by
  unfold FluxPredicate.Update fluxUpdatePredicate hasArtifactChanged
  simp [hk, GitRepositoryKind, OCIRepositoryKind, BucketKind]

/-- C19 (failing input): the GitRepository `flux/repo` arrives without a kind in its type
metadata, as watched typed objects do; the old object has no artifact and the new one has
one, and `fluxUpdatePredicate` returns false. With the kind set the same pair gives true. -/
theorem C19_kind_not_set_never_worthy :
    sampleGitNotReady.Artifact = none ∧ sampleGitReady.Artifact = some sampleArtifact ∧
    FluxGitRepositoryPredicate.Update ⟨some sampleGitNotReady, sampleGitReady⟩ = some false ∧
    FluxGitRepositoryPredicate.Update ⟨some sampleGitReady, sampleGitNotReady⟩ = some false ∧
    FluxGitRepositoryPredicate.Update
      ⟨some { sampleGitNotReady with Kind := "GitRepository" },
        { sampleGitReady with Kind := "GitRepository" }⟩ = some true := by
  decide

/-- C20: for each of the five watched kinds, the predicate of the kind returns true on every
creation event and on every deletion event, whatever the object holds. -/
theorem C20_create_delete_always_worthy (cm : ConfigMap) (sec : Secret) (obj : FluxObject) :
    ConfigMapPredicates.CreateFunc ⟨cm⟩ = true ∧ ConfigMapPredicates.DeleteFunc ⟨cm⟩ = true ∧
    SecretPredicates.CreateFunc ⟨sec⟩ = true ∧ SecretPredicates.DeleteFunc ⟨sec⟩ = true ∧
    FluxGitRepositoryPredicate.Create ⟨obj⟩ = true ∧
    FluxGitRepositoryPredicate.Delete ⟨obj⟩ = true ∧
    FluxOCIRepositoryPredicate.Create ⟨obj⟩ = true ∧
    FluxOCIRepositoryPredicate.Delete ⟨obj⟩ = true ∧
    FluxBucketPredicate.Create ⟨obj⟩ = true ∧ FluxBucketPredicate.Delete ⟨obj⟩ = true :=
  ⟨rfl, rfl, rfl, rfl, rfl, rfl, rfl, rfl, rfl, rfl⟩

/-! ## Claims on the resolver dispatch, the not-found path and the frame of the index -/

/-- C25: for every object whose `spec.kind` is none of ConfigMap, Secret, GitRepository,
OCIRepository and Bucket (the empty string included), `prepareFileSystem` fails with the
`kind not supported` error of `getSource` and returns the world as it received it: no
backend object is read, no directory is created, nothing is recorded. -/
theorem C25_unsupported_kind (env : Env) (w : World) (y : YttSource)
    (hcm : y.Spec.Kind ≠ ConfigMapReferencedResourceKind)
    (hsec : y.Spec.Kind ≠ SecretReferencedResourceKind)
    (hgit : y.Spec.Kind ≠ GitRepositoryKind)
    (hoci : y.Spec.Kind ≠ OCIRepositoryKind)
    (hbucket : y.Spec.Kind ≠ BucketKind) :
    prepareFileSystem env w y =
      (.error ("source `" ++ y.Spec.Name ++ "` kind '" ++ y.Spec.Kind ++ "' not supported"),
        w) := by
  unfold prepareFileSystem prepareFileSystemWithFluxSource getSource
  simp only [getCurrentReference, hcm, hsec, hgit, hoci, hbucket, if_false]

/-- C25 at a concrete input: the object `ns1/nokind` with an empty `spec.kind`. -/
theorem C25_unsupported_kind_witness :
    prepareFileSystem sampleEnv sampleWorld sampleNoKind =
      (.error ("source `" ++ sampleNoKind.Spec.Name ++ "` kind '" ++ sampleNoKind.Spec.Kind ++
        "' not supported"), sampleWorld) :=
  C25_unsupported_kind sampleEnv sampleWorld sampleNoKind (by decide) (by decide) (by decide)
    (by decide) (by decide)

/-- C26: when loading the SourceObject reports not-found, `Reconcile` returns a nil error,
holds no object, records the load as its only action (so it issues no status patch and
touches no file), and leaves the reconciler, with `ReferenceMap` and `YttSourceMap`, exactly
as it was. -/
theorem C26_not_found_is_a_no_op (env : Env) (r : YttSourceReconciler) (w : World)
    (req : NamespacedName) (err : ApiError)
    (hload : env.client.getYttSource req = .error err) (hnf : err.notFound = true) :
    (Reconcile env r w req).reterr = none ∧
    (Reconcile env r w req).object = none ∧
    (Reconcile env r w req).r.ReferenceMap = r.ReferenceMap ∧
    (Reconcile env r w req).r.YttSourceMap = r.YttSourceMap ∧
    (Reconcile env r w req).r.Scheme = r.Scheme ∧
    (Reconcile env r w req).world.trace = w.trace ++ [.get req] ∧
    (Reconcile env r w req).world.trace.any Action.isPatch = w.trace.any Action.isPatch ∧
    (Reconcile env r w req).world.fs = w.fs := by
  unfold Reconcile
  simp [hload, hnf, World.log, Action.isPatch]

/-- C26 at a concrete input: `ns1/absent` does not exist in the sample cluster; the index
that holds `sampleA` and `sampleC` is returned as it was. -/
theorem C26_not_found_is_a_no_op_witness :
    sampleEnv.client.getYttSource ⟨"ns1", "absent"⟩ = .error sampleNotFound ∧
    (Reconcile sampleEnv sampleFanOutIndex sampleWorld ⟨"ns1", "absent"⟩).reterr = none ∧
    (Reconcile sampleEnv sampleFanOutIndex sampleWorld ⟨"ns1", "absent"⟩).r.ReferenceMap =
      sampleFanOutIndex.ReferenceMap :=
  have h := C26_not_found_is_a_no_op sampleEnv sampleFanOutIndex sampleWorld ⟨"ns1", "absent"⟩
    sampleNotFound rfl rfl
  ⟨rfl, h.1, h.2.2.1⟩

/-- C29: `updateMaps` of an object `k` touches only `k`: for every index state and every
object `k1` with another namespace/name, the entry of `k1` in `YttSourceMap` is unchanged,
and `k1` is a member of the dependents set of a reference after the call if and only if it
was before, for every reference. -/
theorem C29_updateMaps_frame (r : YttSourceReconciler) (k k1 : YttSource)
    (hne : (⟨k1.Namespace, k1.Name⟩ : NamespacedName) ≠ ⟨k.Namespace, k.Name⟩) :
    (updateMaps r k).YttSourceMap.lookup ⟨k1.Namespace, k1.Name⟩ =
      r.YttSourceMap.lookup ⟨k1.Namespace, k1.Name⟩ ∧
    ∀ ref : ObjectReference,
      getKeyFromObject r.Scheme k1 ∈ dependentsOf (updateMaps r k).ReferenceMap ref ↔
        getKeyFromObject r.Scheme k1 ∈ dependentsOf r.ReferenceMap ref := by
  refine ⟨?_, ?_⟩
  · rw [lookup_YttSourceMap_updateMaps, if_neg hne]
  · intro ref
    have hkey : getKeyFromObject r.Scheme k1 ≠ getKeyFromObject r.Scheme k :=
      key_ne_of_name_ne r.Scheme k ⟨k1.Namespace, k1.Name⟩ hne
    rw [mem_dependentsOf_updateMaps]
    constructor
    · rintro ⟨h | h, _⟩
      · exact absurd h.2 hkey
      · exact h
    · intro h
      exact ⟨Or.inr h, fun hc => hkey hc.2⟩

/-- C29 at a concrete input: the index holds `ns1/src` and `ns2/other`; `ns1/src` is
reconciled again after its spec was edited. -/
theorem C29_updateMaps_frame_witness :
    (updateMaps sampleFanOutIndex sampleB).YttSourceMap.lookup ⟨"ns2", "other"⟩ =
      sampleFanOutIndex.YttSourceMap.lookup ⟨"ns2", "other"⟩ ∧
    (getKeyFromObject sampleScheme sampleC ∈
      dependentsOf (updateMaps sampleFanOutIndex sampleB).ReferenceMap
        (getCurrentReference sampleA) ↔
      getKeyFromObject sampleScheme sampleC ∈
        dependentsOf sampleFanOutIndex.ReferenceMap (getCurrentReference sampleA)) :=
  have h := C29_updateMaps_frame sampleFanOutIndex sampleB sampleC (by decide)
  ⟨h.1, h.2 (getCurrentReference sampleA)⟩

/-- The state a lookup leaves: the maps as they were, but for an empty set stored under the
key when the key had none. -/
theorem requeueForKey_state (r : YttSourceReconciler) (key : ObjectReference) :
    (requeueForKey r key).2.YttSourceMap = r.YttSourceMap ∧
    (requeueForKey r key).2.Scheme = r.Scheme ∧
    ((requeueForKey r key).2.ReferenceMap = r.ReferenceMap ∨
      (r.ReferenceMap.lookup key = none ∧
        (requeueForKey r key).2.ReferenceMap =
          r.ReferenceMap.store key libsveltosset.Set.empty)) := by
  refine ⟨rfl, rfl, ?_⟩
  unfold requeueForKey getReferenceMapForEntry
  cases h : r.ReferenceMap.lookup key with
  | some s => left; simp [h]
  | none => right; simp [h]

/-- C30: a dependents lookup does not change the observable index. For every index state
and every watched object, `requeueYttSourceForReference` and
`requeueYttSourceForFluxSources` leave `YttSourceMap` unchanged and leave the members of
the dependents set of every reference unchanged; `ReferenceMap` is either unchanged or has
gained an empty set under the looked-up key, which had none; and when the looked-up
reference has no registered dependent the request list is empty. -/
theorem C30_lookup_frame (r : YttSourceReconciler) (o : ClientObject) :
    ((requeueYttSourceForReference r o).2.YttSourceMap = r.YttSourceMap ∧
      (∀ ref, dependentsOf (requeueYttSourceForReference r o).2.ReferenceMap ref =
        dependentsOf r.ReferenceMap ref) ∧
      ((requeueYttSourceForReference r o).2.ReferenceMap = r.ReferenceMap ∨
        (r.ReferenceMap.lookup (referenceKey o) = none ∧
          (requeueYttSourceForReference r o).2.ReferenceMap =
            r.ReferenceMap.store (referenceKey o) libsveltosset.Set.empty)) ∧
      (dependentsOf r.ReferenceMap (referenceKey o) = [] →
        (requeueYttSourceForReference r o).1 = [])) ∧
    ((requeueYttSourceForFluxSources r o).2.YttSourceMap = r.YttSourceMap ∧
      (∀ ref, dependentsOf (requeueYttSourceForFluxSources r o).2.ReferenceMap ref =
        dependentsOf r.ReferenceMap ref) ∧
      ((requeueYttSourceForFluxSources r o).2.ReferenceMap = r.ReferenceMap ∨
        (r.ReferenceMap.lookup (fluxSourceKey o) = none ∧
          (requeueYttSourceForFluxSources r o).2.ReferenceMap =
            r.ReferenceMap.store (fluxSourceKey o) libsveltosset.Set.empty)) ∧
      (dependentsOf r.ReferenceMap (fluxSourceKey o) = [] →
        (requeueYttSourceForFluxSources r o).1 = [])) := by
  unfold requeueYttSourceForReference requeueYttSourceForFluxSources
  refine ⟨⟨rfl, dependentsOf_requeueForKey r _, (requeueForKey_state r _).2.2, ?_⟩,
    ⟨rfl, dependentsOf_requeueForKey r _, (requeueForKey_state r _).2.2, ?_⟩⟩ <;>
  · intro h
    rw [requeueForKey_requests, h]
    rfl

/-! ## The staging directory of an embedded source -/

theorem lookup_RemoveAll (fs : FileSystem) (path p : Path) :
    (RemoveAll fs path).lookup p = if isAtOrBelow path p = true then none else fs.lookup p := by
  obtain ⟨l⟩ := fs
  unfold RemoveAll GoMap.lookup
  simp only []
  induction l with
  | nil => simp
  | cons a l ih =>
    by_cases hb : isAtOrBelow path a.1 = true
    · have hf : (!isAtOrBelow path a.1) = false := by simp [hb]
      simp only [List.filter_cons, hf, Bool.false_eq_true, if_false, List.find?_cons]
      by_cases hp : a.1 = p
      · subst hp
        simp only [hb, if_true] at ih ⊢
        exact ih
      · simp only [hp, decide_False]
        exact ih
    · have hf : (!isAtOrBelow path a.1) = true := by simp [hb]
      simp only [List.filter_cons, hf, if_true, List.find?_cons]
      by_cases hp : a.1 = p
      · subst hp
        simp [hb]
      · simp only [hp, decide_False]
        exact ih

/-- What the deferred `os.RemoveAll(tmpDir)` of `reconcileNormal` does remove: once the
resolver returned a staging directory, nothing exists at or below that directory when
`reconcileNormal` returns, whether rendering succeeded or failed. -/
theorem reconcileNormal_removes_staging_dir (env : Env) (r : YttSourceReconciler) (w w1 : World)
    (y : YttSource) (tmpDir : Path) (hne : tmpDir ≠ [])
    (hprep : prepareFileSystem env w y = (.ok tmpDir, w1)) (p : Path)
    (hp : isAtOrBelow tmpDir p = true) :
    (reconcileNormal env r w y).2.2.fs.lookup p = none := by
  unfold reconcileNormal
  simp only [hprep, hne, if_false]
  rcases renderStagingDir env w1 tmpDir y with ⟨res, w2⟩
  simp only [World.log]
  rw [lookup_RemoveAll, if_pos hp]

/-- C21 (failing input): the ConfigMap `cfg/tpl` carries a payload and `ns1/ok` references
it. Before the attempt nothing exists under `/tmp`. When `reconcileNormal` returns with the
rendered text, the `extracted` subtree is gone but the temporary directory
`/tmp/ytt-cfg-tpl-1` and the file `ytt.tar.gz` written into it still exist; when the
extraction fails (payload without directory entries) they still exist as well. -/
theorem C21_temp_directory_and_payload_remain :
    sampleWorld.fs.lookup "/tmp/ytt-cfg-tpl-1".toList = none ∧
    ((reconcileNormal samplePayloadEnv (YttSourceReconciler.new sampleScheme) sampleWorld
        sampleRendered).1.toOption.isSome = true ∧
      (reconcileNormal samplePayloadEnv (YttSourceReconciler.new sampleScheme) sampleWorld
        sampleRendered).2.2.fs.lookup "/tmp/ytt-cfg-tpl-1/extracted".toList = none ∧
      (reconcileNormal samplePayloadEnv (YttSourceReconciler.new sampleScheme) sampleWorld
        sampleRendered).2.2.fs.lookup "/tmp/ytt-cfg-tpl-1".toList = some .dir ∧
      (reconcileNormal samplePayloadEnv (YttSourceReconciler.new sampleScheme) sampleWorld
        sampleRendered).2.2.fs.lookup "/tmp/ytt-cfg-tpl-1/ytt.tar.gz".toList =
          some (.file [31, 139, 8])) ∧
    ((reconcileNormal sampleFilesOnlyEnv (YttSourceReconciler.new sampleScheme) sampleWorld
        sampleRendered).1.toOption = none ∧
      (reconcileNormal sampleFilesOnlyEnv (YttSourceReconciler.new sampleScheme) sampleWorld
        sampleRendered).2.2.fs.lookup "/tmp/ytt-cfg-tpl-1".toList = some .dir ∧
      (reconcileNormal sampleFilesOnlyEnv (YttSourceReconciler.new sampleScheme) sampleWorld
        sampleRendered).2.2.fs.lookup "/tmp/ytt-cfg-tpl-1/ytt.tar.gz".toList =
          some (.file [31, 139, 8])) := by
  decide

/-! ## More on paths made of plain elements -/

theorem splitOn_plain (Z : List Path) (hZ : ∀ z ∈ Z, '/' ∉ z) (hZne : Z ≠ []) :
    (['/'].intercalate Z).splitOn '/' = Z :=
  List.splitOn_intercalate _ '/' hZ hZne

theorem isPlainPath_rel (X : List Path) (hX : ∀ c ∈ X, isPlainElement c = true) (hXne : X ≠ []) :
    isPlainPath (['/'].intercalate X) = true := by
  unfold isPlainPath
  rw [splitOn_plain X (plain_no_sep X hX) hXne]
  cases X with
  | nil => exact absurd rfl hXne
  | cons x X =>
    have hx := (isPlainElement_iff x).mp (hX x (List.mem_cons_self _ _))
    cases x with
    | nil => exact absurd rfl hx.1
    | cons a x =>
      simp only [List.all_eq_true]
      exact hX

theorem isPlainPath_abs (X : List Path) (hX : ∀ c ∈ X, isPlainElement c = true) (hXne : X ≠ []) :
    isPlainPath ('/' :: ['/'].intercalate X) = true := by
  unfold isPlainPath
  rw [← intercalate_nil_cons X hXne, splitOn_plain ([] :: X) ?_ (List.cons_ne_nil _ _)]
  · cases X with
    | nil => exact absurd rfl hXne
    | cons x X =>
      simp only [List.all_eq_true]
      exact hX
  · intro z hz
    rcases List.mem_cons.mp hz with hz | hz
    · subst hz; simp
    · exact plain_no_sep X hX z hz

/-- A plain path followed by a separator and a plain element is a plain path. -/
theorem isPlainPath_child (path name : Path) (hp : isPlainPath path = true)
    (hn : isPlainElement name = true) : isPlainPath (path ++ '/' :: name) = true := by
  have hall : ∀ X : List Path, (∀ c ∈ X, isPlainElement c = true) →
      ∀ c ∈ X ++ [name], isPlainElement c = true := by
    intro X hX c hc
    rcases List.mem_append.mp hc with h | h
    · exact hX c h
    · rw [List.mem_singleton] at h; subst h; exact hn
  obtain ⟨X, hXne, hX, h | h⟩ := isPlainPath_form path hp <;> subst h
  · have := intercalate_append X [name] hXne (List.cons_ne_nil _ _)
    rw [intercalate_single] at this
    rw [← this]
    exact isPlainPath_rel _ (hall X hX) (by simp)
  · have := intercalate_append X [name] hXne (List.cons_ne_nil _ _)
    rw [intercalate_single] at this
    rw [List.cons_append, ← this]
    exact isPlainPath_abs _ (hall X hX) (by simp)

theorem splitOn_no_sep (name : Path) (h : '/' ∉ name) : name.splitOn '/' = [name] := by
  have := splitOn_plain [name] (by simpa using h) (List.cons_ne_nil _ _)
  rwa [intercalate_single] at this

theorem isWalkName_of_plain (name : Path) (hn : isPlainElement name = true) :
    isWalkName name = true := by
  have h := (isPlainElement_iff name).mp hn
  unfold isWalkName
  rw [splitOn_no_sep name h.2.1]
  simp [hn]

/-- Joining a plain path and a plain element puts a separator between them. -/
theorem Join_plain (path name : Path) (hp : isPlainPath path = true)
    (hn : isPlainElement name = true) : Join path name = path ++ '/' :: name := by
  have h := (isPlainElement_iff name).mp hn
  rw [Join_walkName path name hp (isWalkName_of_plain name hn) h.1]
  unfold targetOf
  rw [if_neg h.1]

theorem Stat_plain (fs : FileSystem) (p : Path) (hp : isPlainPath p = true) :
    Stat fs p = fs.lookup p := by
  unfold Stat
  split
  · rename_i h
    rcases h with h | h <;> subst h <;> exact absurd hp (by decide)
  · rfl

/-! ## Extraction into the staging directory of `prepareFileSystemWithData` -/

theorem OpenFile_no_parent (fs : FileSystem) (t : Path) (hnone : Stat fs t = none)
    (hpar : Stat fs (containerOf t) = none) : OpenFile fs t = (fs, some (.notExist t)) := by
  unfold OpenFile
  simp only [hnone, hpar]

/-- C28 (as stated, refuted): the archive `sampleFilesOnly` holds one regular file, `a.yaml`,
and no directory entry; extracting it into the not yet created
`/tmp/ytt-cfg-tpl-1/extracted` fails with "no such file or directory" and creates nothing,
and so `prepareFileSystem` of `ns1/ok` fails with that error. -/
theorem C28_files_only_archive_is_rejected :
    sampleFilesOnly.entries.all (fun e => decide (e.Typeflag = .TypeReg)) = true ∧
    Join "/tmp/ytt-cfg-tpl-1".toList "extracted".toList =
      "/tmp/ytt-cfg-tpl-1/extracted".toList ∧
    extractTarGz sampleFilesOnly "/tmp/ytt-cfg-tpl-1/extracted".toList sampleStagedFS =
      (sampleStagedFS, some (.notExist "/tmp/ytt-cfg-tpl-1/extracted/a.yaml".toList)) ∧
    (match (prepareFileSystem sampleFilesOnlyEnv sampleWorld sampleRendered).1 with
      | .error err => err
      | .ok _ => "") = "/tmp/ytt-cfg-tpl-1/extracted/a.yaml: no such file or directory" := by
  decide

/-- C28 (amended): let `extracted` be the not yet created subdirectory of a temporary
directory. An archive whose first entry is a regular file below the destination (so every
non-empty archive without directory entries) is rejected at that entry with "no such file
or directory" and nothing is created: `os.OpenFile` creates the file, not its missing
parents, and the destination itself is created only by a directory entry. An archive as a
tree walk writes it, starting with the entry of the root directory and with every directory
entry ahead of the entries below it, is extracted without error and every regular file is
created with the bytes of its entry. -/
theorem C28_file_entries_need_directory_entries (tmpDir : Path) (fs : FileSystem)
    (htmp : isPlainPath tmpDir = true) (hdir : Stat fs tmpDir = some .dir)
    (hfresh : ∀ p, Join tmpDir "extracted".toList <+: p → fs.lookup p = none) :
    (∀ (e : TarEntry) (rest : List TarEntry) (readError : Option Error),
      e.Typeflag = .TypeReg → isWalkName e.Name = true → e.Name ≠ [] →
      extractTarGz ⟨e :: rest, readError⟩ (Join tmpDir "extracted".toList) fs =
        (fs, some (.notExist (Join (Join tmpDir "extracted".toList) e.Name)))) ∧
    (∀ (root : TarEntry) (rest : List TarEntry),
      root.Name = [] → root.Typeflag = .TypeDir → isWalkArchive (root :: rest) = true →
      (extractTarGz ⟨root :: rest, none⟩ (Join tmpDir "extracted".toList) fs).2 = none ∧
      ∀ e ∈ rest, e.Typeflag = .TypeReg →
        (extractTarGz ⟨root :: rest, none⟩ (Join tmpDir "extracted".toList) fs).1.lookup
          (Join (Join tmpDir "extracted".toList) e.Name) = some (.file e.data)) := by
  have hel : isPlainElement "extracted".toList = true := by decide
  have hjoin : Join tmpDir "extracted".toList = tmpDir ++ '/' :: "extracted".toList :=
    Join_plain tmpDir _ htmp hel
  rw [hjoin] at hfresh ⊢
  generalize hdest : tmpDir ++ '/' :: "extracted".toList = dest at hfresh ⊢
  have hd : isPlainPath dest = true := by
    rw [← hdest]; exact isPlainPath_child tmpDir _ htmp hel
  have hdne := isPlainPath_ne_nil dest hd
  have hnone : ∀ m, Stat fs (targetOf dest m) = none := by
    intro m
    by_cases hm : m = []
    · subst hm
      have ht : targetOf dest [] = dest := by simp [targetOf]
      rw [ht, Stat_plain fs dest hd]
      exact hfresh dest (List.prefix_refl _)
    · rw [Stat_targetOf fs dest m hdne hm]
      apply hfresh
      unfold targetOf
      rw [if_neg hm]
      exact List.prefix_append _ _
  refine ⟨?_, ?_⟩
  · intro e rest readError hreg hw hne
    have hpeq := dirOf_targetOf dest e.Name hw hne
    have hcont : containerOf (targetOf dest e.Name) = targetOf dest (dirOf e.Name) := by
      unfold containerOf
      rw [hpeq, if_neg (targetOf_ne_nil dest _ hdne)]
    have hopen := OpenFile_no_parent fs (targetOf dest e.Name) (hnone _)
      (by rw [hcont]; exact hnone _)
    unfold extractTarGz
    rw [extractEntries]
    simp only [Join_Clean_walkName dest e.Name hd hw, HasPrefix_targetOf, Bool.not_true,
      Bool.false_eq_true, if_false, hreg, hopen, Join_walkName dest e.Name hd hw hne]
  · intro root rest hroot hrdir ha
    unfold isWalkArchive at ha
    simp only [Bool.and_eq_true, List.all_eq_true, decide_eq_true_eq] at ha
    obtain ⟨⟨hall, hnodup⟩, hpar⟩ := ha
    have hwroot : isWalkName root.Name = true := by rw [hroot]; rfl
    have htroot : targetOf dest root.Name = dest := by simp [targetOf, hroot]
    have hparent : dirOf dest = tmpDir := by
      rw [← hdest]
      exact dirOf_append_element tmpDir _ (by decide) (by decide)
    have hmk : MkdirAll fs dest = (fs.store dest .dir, none) := by
      apply MkdirAll_fresh
      · have := hnone []
        simpa [targetOf] using this
      · rw [hparent]; exact isPlainPath_ne_nil tmpDir htmp
      · rw [hparent]; exact hdir
    have hinv : WalkInv dest (fs.store dest .dir) [root] := by
      refine ⟨by simp, ?_, ?_⟩
      · intro e he hne
        rw [List.mem_singleton] at he
        subst he
        exact absurd hroot hne
      · intro p hp hl
        exfalso
        apply hl
        have hpd : p ≠ dest := by
          intro h
          subst h
          have := hp.length_le
          simp at this
        rw [GoMap.lookup_store_ne _ _ _ _ hpd]
        exact hfresh p ((List.prefix_append dest ['/']).trans hp)
    unfold parentsPrecede at hpar
    simp only [hrdir, if_true, Bool.and_eq_true] at hpar
    rw [hroot] at hpar
    obtain ⟨fs1, hrun, -, h2, -⟩ :=
      extractEntries_walk dest hd rest [root] [[]] (fs.store dest .dir)
        (fun e he => hall e (List.mem_cons_of_mem _ he)) (by simpa using hnodup) hpar.2
        (fun n hn => ⟨root, by simp, hrdir, by rw [hroot]; exact (List.mem_singleton.mp hn).symm⟩) hinv
    have hres : extractTarGz ⟨root :: rest, none⟩ dest fs = (fs1, none) := by
      unfold extractTarGz
      simp only []
      rw [extractEntries_cons_walk dest fs root rest hd hwroot]
      simp only [hrdir, htroot, hmk]
      exact hrun
    rw [hres]
    refine ⟨rfl, ?_⟩
    intro e he hreg
    have hwe := hall e (List.mem_cons_of_mem _ he)
    unfold isWalkEntry at hwe
    simp only [Bool.and_eq_true, Bool.or_eq_true, decide_eq_true_eq, hreg] at hwe
    obtain ⟨hw, h | ⟨⟨_, hne⟩, _⟩⟩ := hwe
    · exact absurd h (by decide)
    · have hne1 : e.Name ≠ [] := by simpa using hne
      rw [Join_walkName dest e.Name hd hw hne1]
      have := h2 e (by simp [he]) hne1
      simpa [nodeOf, hreg] using this

theorem sampleStagedFS_fresh (p : Path)
    (hp : Join "/tmp/ytt-cfg-tpl-1".toList "extracted".toList <+: p) :
    sampleStagedFS.lookup p = none := by
  have hj : Join "/tmp/ytt-cfg-tpl-1".toList "extracted".toList =
      "/tmp/ytt-cfg-tpl-1/extracted".toList := by decide
  rw [hj] at hp
  obtain ⟨t, rfl⟩ := hp
  unfold sampleStagedFS sampleWorld
  simp only [GoMap.lookup_store]
  have h1 : "/tmp/ytt-cfg-tpl-1/extracted".toList ++ t ≠ "/tmp/ytt-cfg-tpl-1/ytt.tar.gz".toList := by
    intro h
    have := congrArg (fun l => l.take 20) h
    simp at this
  have h2 : "/tmp/ytt-cfg-tpl-1/extracted".toList ++ t ≠ "/tmp/ytt-cfg-tpl-1".toList := by
    intro h
    have := congrArg List.length h
    simp at this
  have h3 : "/tmp/ytt-cfg-tpl-1/extracted".toList ++ t ≠ "/tmp".toList := by
    intro h
    have := congrArg List.length h
    simp at this
  simp [h1, h2, h3]

/-- C28 at a concrete input: the staged file system of `ns1/ok`; the archive without
directory entries is rejected, the archive of the extraction test is extracted. -/
theorem C28_file_entries_need_directory_entries_witness :
    isPlainPath "/tmp/ytt-cfg-tpl-1".toList = true ∧
    Stat sampleStagedFS "/tmp/ytt-cfg-tpl-1".toList = some .dir ∧
    extractTarGz ⟨[⟨"a.yaml".toList, .TypeReg, [1]⟩], none⟩
        (Join "/tmp/ytt-cfg-tpl-1".toList "extracted".toList) sampleStagedFS =
      (sampleStagedFS, some (.notExist
        (Join (Join "/tmp/ytt-cfg-tpl-1".toList "extracted".toList) "a.yaml".toList))) ∧
    (extractTarGz ⟨⟨[], .TypeDir, []⟩ :: sampleWalk.entries.tail, none⟩
        (Join "/tmp/ytt-cfg-tpl-1".toList "extracted".toList) sampleStagedFS).2 = none :=
  have h := C28_file_entries_need_directory_entries "/tmp/ytt-cfg-tpl-1".toList sampleStagedFS
    (by decide) (by decide) sampleStagedFS_fresh
  ⟨by decide, by decide,
    h.1 ⟨"a.yaml".toList, .TypeReg, [1]⟩ [] none rfl (by decide) (by decide),
    (h.2 ⟨[], .TypeDir, []⟩ sampleWalk.entries.tail rfl rfl (by decide)).1⟩

/-! ## The size cap of a regular-file entry -/

/-- A regular-file entry whose target does not exist yet, in an existing directory: the file
is created with the first `min (length, maxSize)` bytes of the entry data, whatever the
length of the data, and the loop goes on with the next entry. -/
theorem extractEntries_regular_fresh (dest : Path) (readError : Option Error) (fs : FileSystem)
    (e : TarEntry) (rest : List TarEntry)
    (hpre : HasPrefix (Join dest (Clean e.Name)) dest = true) (hreg : e.Typeflag = .TypeReg)
    (hnone : Stat fs (Join dest (Clean e.Name)) = none)
    (hpar : Stat fs (containerOf (Join dest (Clean e.Name))) = some .dir) :
    ∃ fs1, extractEntries dest readError fs (e :: rest) = extractEntries dest readError fs1 rest ∧
      fs1.lookup (Join dest (Clean e.Name)) = some (.file (e.data.take maxSize)) ∧
      (e.data.take maxSize).length = min maxSize e.data.length ∧
      ∀ p, p ≠ Join dest (Clean e.Name) → fs1.lookup p = fs.lookup p := by
  have hopen : OpenFile fs (Join dest (Clean e.Name)) =
      (fs.store (Join dest (Clean e.Name)) (.file []), none) := by
    unfold OpenFile
    simp only [hnone, hpar]
  refine ⟨copyTo (fs.store (Join dest (Clean e.Name)) (.file [])) (Join dest (Clean e.Name))
    (LimitReader e.data maxSize), ?_, ?_, ?_, ?_⟩
  · rw [extractEntries]
    simp only [hpre, Bool.not_true, Bool.false_eq_true, if_false, hreg, hopen]
  · rw [copyTo_fresh]
    simp [LimitReader]
  · exact List.length_take _ _
  · intro p hp
    rw [copyTo_fresh]
    simp [hp]

/-- A regular-file entry whose target is an existing file: the file is not truncated; the
bytes of the old content beyond the length of the copied data stay. -/
theorem extractEntries_regular_existing (dest : Path) (readError : Option Error)
    (fs : FileSystem) (e : TarEntry) (rest : List TarEntry) (old : Bytes)
    (hpre : HasPrefix (Join dest (Clean e.Name)) dest = true) (hreg : e.Typeflag = .TypeReg)
    (hold : Stat fs (Join dest (Clean e.Name)) = some (.file old))
    (hlook : fs.lookup (Join dest (Clean e.Name)) = some (.file old)) :
    extractEntries dest readError fs (e :: rest) =
      extractEntries dest readError
        (fs.store (Join dest (Clean e.Name))
          (.file (e.data.take maxSize ++ old.drop (e.data.take maxSize).length))) rest := by
  have hopen : OpenFile fs (Join dest (Clean e.Name)) = (fs, none) := by
    unfold OpenFile
    simp only [hold]
  rw [extractEntries]
  simp only [hpre, Bool.not_true, Bool.false_eq_true, if_false, hreg, hopen]
  unfold copyTo LimitReader
  simp only [hlook]

/-- C24 (failing input): the archive holds two regular-file entries named `a.txt`, with the
data `[1, 2, 3]` and then `[9]`, and is extracted into the empty `/tmp/dest`. No error is
returned, and `a.txt` ends up holding `[9, 2, 3]`, which is not the data `[9]` of the entry
written last (nor of any entry): `os.OpenFile` is called without `O_TRUNC`. -/
theorem C24_existing_file_not_truncated :
    (extractTarGz sampleDuplicate "/tmp/dest".toList sampleDestFS).2 = none ∧
    (extractTarGz sampleDuplicate "/tmp/dest".toList sampleDestFS).1.lookup
      "/tmp/dest/a.txt".toList = some (.file [9, 2, 3]) ∧
    LimitReader [9] maxSize = [9] ∧ LimitReader [1, 2, 3] maxSize = [1, 2, 3] := by
  decide

/-! ## Template identifiers -/

theorem templatesAsInputFrom_names (fs : FileSystem) (y : YttSource) :
    ∀ (files : List Path) (i : Nat) (out : List (String × Bytes)),
      templatesAsInputFrom fs y i files = .ok out →
      out.map Prod.fst =
        (files.enumFrom i).map (fun jf => templateName jf.1 y.Namespace y.Name jf.2) := by
  intro files
  induction files with
  | nil =>
    intro i out h
    simp only [templatesAsInputFrom, Except.ok.injEq] at h
    subst h
    rfl
  | cons file rest ih =>
    intro i out h
    rw [templatesAsInputFrom] at h
    cases hr : readFileContent fs file with
    | error e => rw [hr] at h; simp at h
    | ok content =>
      rw [hr] at h
      simp only [] at h
      cases hrest : templatesAsInputFrom fs y (i + 1) rest with
      | error e => rw [hrest] at h; simp at h
      | ok files1 =>
        rw [hrest] at h
        simp only [Except.ok.injEq] at h
        subst h
        simp only [List.map_cons, List.enumFrom_cons, ih (i + 1) files1 hrest]
        rfl

theorem append_cons_split {α : Type} (a : α) :
    ∀ (l1 l2 r1 r2 : List α), a ∉ l1 → a ∉ l2 → l1 ++ a :: r1 = l2 ++ a :: r2 →
      l1 = l2 ∧ r1 = r2 := by
  intro l1
  induction l1 with
  | nil =>
    intro l2 r1 r2 _ h2 h
    cases l2 with
    | nil => simpa using h
    | cons b l2 =>
      simp only [List.nil_append, List.cons_append, List.cons.injEq] at h
      exact absurd (h.1 ▸ List.mem_cons_self _ _) h2
  | cons x l1 ih =>
    intro l2 r1 r2 h1 h2 h
    cases l2 with
    | nil =>
      simp only [List.nil_append, List.cons_append, List.cons.injEq] at h
      exact absurd (h.1 ▸ List.mem_cons_self _ _) h1
    | cons b l2 =>
      simp only [List.cons_append, List.cons.injEq] at h
      obtain ⟨e1, e2⟩ := ih l2 r1 r2 (fun hm => h1 (List.mem_cons_of_mem _ hm))
        (fun hm => h2 (List.mem_cons_of_mem _ hm)) h.2
      exact ⟨by rw [h.1, e1], e2⟩

theorem digitChar_digit (m : Nat) (h : m < 10) :
    Nat.digitChar m ≠ '-' ∧ digitValue (Nat.digitChar m) = m := by
  interval_cases m <;> decide

theorem decodeDigits_append (l : List Char) (d : Char) :
    decodeDigits (l ++ [d]) = 10 * decodeDigits l + digitValue d := by
  simp [decodeDigits, List.foldl_append]

theorem toDigitsCore_decimal : ∀ (fuel n : Nat) (ds : List Char), n < fuel →
    ∃ l, Nat.toDigitsCore 10 fuel n ds = l ++ ds ∧ '-' ∉ l ∧ decodeDigits l = n := by
  intro fuel
  induction fuel with
  | zero => intro n ds h; exact absurd h (Nat.not_lt_zero _)
  | succ fuel ih =>
    intro n ds h
    have hd := digitChar_digit (n % 10) (Nat.mod_lt _ (by decide))
    rw [Nat.toDigitsCore]
    by_cases h0 : n / 10 = 0
    · simp only [h0, if_true]
      refine ⟨[Nat.digitChar (n % 10)], rfl, ?_, ?_⟩
      · simpa using hd.1.symm
      · have := decodeDigits_append [] (Nat.digitChar (n % 10))
        simp only [List.nil_append] at this
        rw [this, hd.2]
        simp only [decodeDigits, List.foldl_nil]
        omega
    · simp only [h0, if_false]
      obtain ⟨l, hl, hno, hdec⟩ := ih (n / 10) (Nat.digitChar (n % 10) :: ds) (by omega)
      refine ⟨l ++ [Nat.digitChar (n % 10)], ?_, ?_, ?_⟩
      · rw [hl]; simp
      · intro hm
        rcases List.mem_append.mp hm with hm | hm
        · exact hno hm
        · rw [List.mem_singleton] at hm
          exact hd.1 hm.symm
      · rw [decodeDigits_append, hdec, hd.2]
        omega

theorem toString_decimal (n : Nat) :
    '-' ∉ (toString n).data ∧ decodeDigits (toString n).data = n := by
  obtain ⟨l, hl, hno, hdec⟩ := toDigitsCore_decimal (n + 1) n [] (Nat.lt_succ_self n)
  have hdata : (toString n).data = l := by
    rw [List.append_nil] at hl
    rw [← hl]
    rfl
  rw [hdata]
  exact ⟨hno, hdec⟩

theorem templateName_data (i : Nat) (ns name : String) (file : Path) :
    (templateName i ns name file).data =
      't' :: 'p' :: 'l' :: ((toString i).data ++ '-' :: ((ns ++ "-" ++ name).data ++ '/' :: file)) := by
  unfold templateName
  simp only [String.data_append]
  simp [List.append_assoc]

theorem isKubernetesName_no_sep (s : String) (h : isKubernetesName s = true) :
    '/' ∉ s.data := by
  unfold isKubernetesName at h
  simp only [Bool.and_eq_true, List.all_eq_true] at h
  intro hm
  have := h.1.1 '/' hm
  exact absurd this (by decide)

/-- When two identifiers are equal: same index, same file path, and the same text
`<namespace>-<name>`. -/
theorem templateName_eq_iff (i j : Nat) (ns name ns1 name1 : String) (file file1 : Path)
    (hns : '/' ∉ ns.data) (hname : '/' ∉ name.data) (hns1 : '/' ∉ ns1.data)
    (hname1 : '/' ∉ name1.data) :
    templateName i ns name file = templateName j ns1 name1 file1 ↔
      i = j ∧ file = file1 ∧ ns ++ "-" ++ name = ns1 ++ "-" ++ name1 := by
  constructor
  · intro h
    have hd := congrArg String.data h
    rw [templateName_data, templateName_data] at hd
    simp only [List.cons.injEq, true_and] at hd
    obtain ⟨hdig, hrest⟩ := append_cons_split '-' _ _ _ _ (toString_decimal i).1
      (toString_decimal j).1 hd
    have hsep : ∀ a b : String, '/' ∉ a.data → '/' ∉ b.data → '/' ∉ (a ++ "-" ++ b).data := by
      intro a b ha hb hm
      simp only [String.data_append, List.mem_append] at hm
      rcases hm with (hm | hm) | hm
      · exact ha hm
      · exact absurd hm (by decide)
      · exact hb hm
    obtain ⟨hpair, hfile⟩ := append_cons_split '/' _ _ _ _ (hsep ns name hns hname)
      (hsep ns1 name1 hns1 hname1) hrest
    refine ⟨?_, hfile, String.ext hpair⟩
    rw [← (toString_decimal i).2, ← (toString_decimal j).2, hdig]
  · rintro ⟨rfl, rfl, hpair⟩
    apply String.ext
    rw [templateName_data, templateName_data, hpair]

/-- The index alone is read off an identifier, whatever the names are. -/
theorem templateName_index (i j : Nat) (ns name ns1 name1 : String) (file file1 : Path)
    (h : templateName i ns name file = templateName j ns1 name1 file1) : i = j := by
  have hd := congrArg String.data h
  rw [templateName_data, templateName_data] at hd
  simp only [List.cons.injEq, true_and] at hd
  obtain ⟨hdig, -⟩ := append_cons_split '-' _ _ _ _ (toString_decimal i).1
    (toString_decimal j).1 hd
  rw [← (toString_decimal i).2, ← (toString_decimal j).2, hdig]

theorem templateNames_nodup (ns name : String) :
    ∀ (files : List Path) (i : Nat),
      ((files.enumFrom i).map (fun jf => templateName jf.1 ns name jf.2)).Nodup ∧
      ∀ x ∈ (files.enumFrom i).map (fun jf => templateName jf.1 ns name jf.2),
        ∃ j file, i ≤ j ∧ x = templateName j ns name file := by
  intro files
  induction files with
  | nil => intro i; simp
  | cons f rest ih =>
    intro i
    obtain ⟨hnd, hge⟩ := ih (i + 1)
    simp only [List.enumFrom_cons, List.map_cons, List.nodup_cons, List.mem_cons]
    refine ⟨⟨?_, hnd⟩, ?_⟩
    · intro hm
      obtain ⟨j, file, hj, hx⟩ := hge _ hm
      have := templateName_index _ _ _ _ _ _ _ _ hx
      omega
    · rintro x (hx | hx)
      · exact ⟨i, f, Nat.le_refl _, hx⟩
      · obtain ⟨j, file, hj, hx1⟩ := hge x hx
        exact ⟨j, file, by omega, hx1⟩

/-- C23 (as stated, refuted): `a-b`, `c`, `a` and `b-c` are valid names, the tuples
`(0, a-b, c, /d/a.txt)` and `(0, a, b-c, /d/a.txt)` differ, and their identifiers are the
same string `tpl0-a-b-c//d/a.txt`; `templatesAsInput` builds the same input for the objects
`a-b/c` and `a/b-c` over the same tree. -/
theorem C23_identifiers_collide :
    isKubernetesName "a-b" = true ∧ isKubernetesName "c" = true ∧
    isKubernetesName "a" = true ∧ isKubernetesName "b-c" = true ∧
    ((0 : Nat), "a-b", "c", "/d/a.txt".toList) ≠ ((0 : Nat), "a", "b-c", "/d/a.txt".toList) ∧
    templateName 0 "a-b" "c" "/d/a.txt".toList = templateName 0 "a" "b-c" "/d/a.txt".toList ∧
    templateName 0 "a-b" "c" "/d/a.txt".toList = "tpl0-a-b-c//d/a.txt" ∧
    (templatesAsInput sampleTreeFS "/d".toList sampleDashNamespace).toOption.isSome = true ∧
    (templatesAsInput sampleTreeFS "/d".toList sampleDashNamespace).toOption =
      (templatesAsInput sampleTreeFS "/d".toList sampleDashName).toOption := by
  decide

/-- C23 (amended): for valid Kubernetes names, two tuples (index, namespace, name, file
path) get the same identifier if and only if they have the same index, the same file path
and the same text `<namespace>-<name>`. So two tuples that differ in the index or in the
file path get different identifiers, and the identifiers `templatesAsInput` builds in one
call are pairwise different. -/
theorem C23_identifier_fixes_index_and_path (i j : Nat) (ns name ns1 name1 : String)
    (file file1 : Path)
    (hns : isKubernetesName ns = true) (hname : isKubernetesName name = true)
    (hns1 : isKubernetesName ns1 = true) (hname1 : isKubernetesName name1 = true) :
    (templateName i ns name file = templateName j ns1 name1 file1 ↔
      i = j ∧ file = file1 ∧ ns ++ "-" ++ name = ns1 ++ "-" ++ name1) ∧
    (i ≠ j ∨ file ≠ file1 →
      templateName i ns name file ≠ templateName j ns1 name1 file1) ∧
    (∀ (fs : FileSystem) (dirPath : Path) (y : YttSource) (out : List (String × Bytes)),
      templatesAsInput fs dirPath y = .ok out → (out.map Prod.fst).Nodup) := by
  have hiff := templateName_eq_iff i j ns name ns1 name1 file file1
    (isKubernetesName_no_sep ns hns) (isKubernetesName_no_sep name hname)
    (isKubernetesName_no_sep ns1 hns1) (isKubernetesName_no_sep name1 hname1)
  refine ⟨hiff, ?_, ?_⟩
  · intro hdiff heq
    obtain ⟨h1, h2, -⟩ := hiff.mp heq
    rcases hdiff with h | h
    · exact h h1
    · exact h h2
  · intro fs dirPath y out hout
    unfold templatesAsInput at hout
    cases hfiles : getFilesRecursively fs dirPath with
    | error e => rw [hfiles] at hout; simp at hout
    | ok currentFiles =>
      rw [hfiles] at hout
      simp only [] at hout
      rw [templatesAsInputFrom_names fs y currentFiles 0 out hout]
      exact (templateNames_nodup y.Namespace y.Name currentFiles 0).1

/-- C23 at a concrete input: the first two files of `ns1/ok`. -/
theorem C23_identifier_fixes_index_and_path_witness :
    isKubernetesName "ns1" = true ∧ isKubernetesName "ok" = true ∧
    templateName 0 "ns1" "ok" "/d/a/x".toList ≠ templateName 1 "ns1" "ok" "/d/a.txt".toList :=
  ⟨by decide, by decide,
    (C23_identifier_fixes_index_and_path 0 1 "ns1" "ok" "ns1" "ok" "/d/a/x".toList
      "/d/a.txt".toList (by decide) (by decide) (by decide) (by decide)).2.1
      (Or.inl (by decide))⟩

/-! ## Sorting of directory entries -/

theorem pathLE_total (a b : Path) : pathLE a b = true ∨ pathLE b a = true := by
  induction a generalizing b with
  | nil => left; rfl
  | cons x a ih =>
    cases b with
    | nil => right; rfl
    | cons y b =>
      simp only [pathLE]
      rcases Nat.lt_trichotomy x.toNat y.toNat with h | h | h
      · left; simp [h]
      · have h1 : ¬ x.toNat < y.toNat := by omega
        have h2 : ¬ y.toNat < x.toNat := by omega
        simp only [h1, h2, if_false]
        exact ih b
      · right; simp [h]

theorem pathLE_trans (a b c : Path) (hab : pathLE a b = true) (hbc : pathLE b c = true) :
    pathLE a c = true := by
  induction a generalizing b c with
  | nil => rfl
  | cons x a ih =>
    cases b with
    | nil => simp [pathLE] at hab
    | cons y b =>
      cases c with
      | nil => simp [pathLE] at hbc
      | cons z c =>
        simp only [pathLE] at hab hbc ⊢
        by_cases h1 : x.toNat < y.toNat
        · by_cases h2 : y.toNat < z.toNat
          · have : x.toNat < z.toNat := by omega
            simp [this]
          · by_cases h3 : z.toNat < y.toNat
            · simp [h2, h3] at hbc
            · have : x.toNat < z.toNat := by omega
              simp [this]
        · by_cases h4 : y.toNat < x.toNat
          · simp [h1, h4] at hab
          · simp only [h1, h4, if_false] at hab
            by_cases h2 : y.toNat < z.toNat
            · have : x.toNat < z.toNat := by omega
              simp [this]
            · by_cases h3 : z.toNat < y.toNat
              · simp [h2, h3] at hbc
              · simp only [h2, h3, if_false] at hbc
                have h5 : ¬ x.toNat < z.toNat := by omega
                have h6 : ¬ z.toNat < x.toNat := by omega
                simp only [h5, h6, if_false]
                exact ih b c hab hbc

theorem insertPath_perm (p : Path) (l : List Path) : (insertPath p l).Perm (p :: l) := by
  induction l with
  | nil => exact List.Perm.refl _
  | cons q rest ih =>
    unfold insertPath
    split
    · exact List.Perm.refl _
    · exact ((List.Perm.cons q ih).trans (List.Perm.swap p q rest))

theorem sortPaths_perm (l : List Path) : (sortPaths l).Perm l := by
  induction l with
  | nil => exact List.Perm.refl _
  | cons p l ih =>
    have : sortPaths (p :: l) = insertPath p (sortPaths l) := rfl
    rw [this]
    exact (insertPath_perm p _).trans (List.Perm.cons p ih)

theorem insertPath_sorted (p : Path) (l : List Path)
    (h : l.Pairwise (fun a b => pathLE a b = true)) :
    (insertPath p l).Pairwise (fun a b => pathLE a b = true) := by
  induction l with
  | nil => simp [insertPath]
  | cons q rest ih =>
    rw [List.pairwise_cons] at h
    unfold insertPath
    split
    · rename_i hpq
      refine List.pairwise_cons.mpr ⟨?_, List.pairwise_cons.mpr h⟩
      intro x hx
      rcases List.mem_cons.mp hx with hx | hx
      · subst hx; exact hpq
      · exact pathLE_trans p q x hpq (h.1 x hx)
    · rename_i hpq
      have hqp : pathLE q p = true := (pathLE_total p q).resolve_left hpq
      refine List.pairwise_cons.mpr ⟨?_, ih h.2⟩
      intro x hx
      rcases List.mem_cons.mp ((insertPath_perm p rest).mem_iff.mp hx) with hx | hx
      · subst hx; exact hqp
      · exact h.1 x hx

theorem sortPaths_sorted (l : List Path) :
    (sortPaths l).Pairwise (fun a b => pathLE a b = true) := by
  induction l with
  | nil => exact List.Pairwise.nil
  | cons p l ih =>
    have : sortPaths (p :: l) = insertPath p (sortPaths l) := rfl
    rw [this]
    exact insertPath_sorted p _ ih

/-! ## The order of a walk -/

theorem walkLE_append_left (pre a b : Path) : walkLE (pre ++ a) (pre ++ b) = walkLE a b := by
  induction pre with
  | nil => rfl
  | cons x pre ih =>
    simp only [List.cons_append, walkLE, Nat.lt_irrefl, if_false]
    exact ih

theorem toNat_eq (c d : Char) (h : c.toNat = d.toNat) : c = d := by
  have := congrArg Char.ofNat h
  simpa [Char.ofNat_toNat] using this

/-- Two names of one directory, the first ahead of the second in byte order: every path that
starts with the first name is ahead, in the order of the walk, of every path that starts
with the second one. -/
theorem walkLE_of_names : ∀ (n1 n2 r1 r2 : Path), '/' ∉ n1 → '/' ∉ n2 →
    pathLE n1 n2 = true → n1 ≠ n2 → (r1 = [] ∨ r1.head? = some '/') →
    walkLE (n1 ++ r1) (n2 ++ r2) = true ∧ n1 ++ r1 ≠ n2 ++ r2 := by
  intro n1
  induction n1 with
  | nil =>
    intro n2 r1 r2 _ h2 _ hne hr1
    cases n2 with
    | nil => exact absurd rfl hne
    | cons b bs =>
      have hb : b ≠ '/' := fun h => h2 (h ▸ List.mem_cons_self _ _)
      rcases hr1 with hr1 | hr1
      · subst hr1
        exact ⟨rfl, by simp⟩
      · cases r1 with
        | nil => simp at hr1
        | cons c t =>
          simp only [List.head?_cons, Option.some.injEq] at hr1
          subst hr1
          refine ⟨?_, ?_⟩
          · simp [walkLE, walkRank, hb]
          · simp only [List.nil_append, List.cons_append, ne_eq, List.cons.injEq, not_and]
            intro h
            exact absurd h.symm hb
  | cons a as ih =>
    intro n2 r1 r2 h1 h2 hle hne hr1
    cases n2 with
    | nil => simp [pathLE] at hle
    | cons b bs =>
      have ha : a ≠ '/' := fun h => h1 (h ▸ List.mem_cons_self _ _)
      have hb : b ≠ '/' := fun h => h2 (h ▸ List.mem_cons_self _ _)
      simp only [pathLE] at hle
      by_cases hab : a.toNat < b.toNat
      · refine ⟨?_, ?_⟩
        · simp [walkLE, walkRank, ha, hb, hab]
        · simp only [List.cons_append, ne_eq, List.cons.injEq, not_and]
          intro h
          subst h
          omega
      · by_cases hba : b.toNat < a.toNat
        · simp [hab, hba] at hle
        · simp only [hab, hba, if_false] at hle
          have heq : a = b := toNat_eq a b (by omega)
          subst heq
          have hne1 : as ≠ bs := fun h => hne (by rw [h])
          obtain ⟨hw, hd⟩ := ih bs r1 r2 (fun hm => h1 (List.mem_cons_of_mem _ hm))
            (fun hm => h2 (List.mem_cons_of_mem _ hm)) hle hne1 hr1
          refine ⟨?_, ?_⟩
          · simp only [List.cons_append, walkLE, Nat.lt_irrefl, if_false]
            exact hw
          · simp only [List.cons_append, ne_eq, List.cons.injEq, true_and]
            exact hd

/-! ## Reading a directory of a tree -/

theorem plain_last (p : Path) (hp : isPlainPath p = true) :
    ∃ e, isPlainElement e = true ∧ (p = e ∨ ∃ q, p = q ++ '/' :: e) := by
  obtain ⟨X, hXne, hX, h⟩ := isPlainPath_form p hp
  rcases List.eq_nil_or_concat X with hnil | ⟨init, e, rfl⟩
  · exact absurd hnil hXne
  · simp only [List.concat_eq_append] at hX h
    have he : isPlainElement e = true := hX e (by simp)
    refine ⟨e, he, ?_⟩
    by_cases hi : init = []
    · subst hi
      simp only [List.nil_append, intercalate_single] at h
      rcases h with h | h
      · left; exact h
      · right; exact ⟨[], by simpa using h⟩
    · have happ := intercalate_append init [e] hi (List.cons_ne_nil _ _)
      rw [intercalate_single] at happ
      rw [happ] at h
      right
      rcases h with h | h
      · exact ⟨_, h⟩
      · exact ⟨'/' :: ['/'].intercalate init, by simpa using h⟩

theorem plain_getLast (p : Path) (hp : isPlainPath p = true) : p.getLast? ≠ some '/' := by
  intro hlast
  obtain ⟨ys, hys⟩ := List.getLast?_eq_some_iff.mp hlast
  obtain ⟨e, he, h⟩ := plain_last p hp
  have hel := (isPlainElement_iff e).mp he
  rcases h with h | ⟨q, h⟩
  · apply hel.2.1
    rw [← h, hys]
    simp
  · have hrev := congrArg List.reverse (h.symm.trans hys)
    simp only [List.reverse_append, List.reverse_cons, List.reverse_nil, List.nil_append,
      List.append_assoc, List.singleton_append] at hrev
    cases hr : e.reverse with
    | nil => exact hel.1 (List.reverse_eq_nil_iff.mp hr)
    | cons x t =>
      rw [hr] at hrev
      simp only [List.cons_append, List.cons.injEq] at hrev
      apply hel.2.1
      rw [← List.mem_reverse, hr, hrev.1]
      exact List.mem_cons_self _ _

theorem readDirNames_mem (fs : FileSystem) (dir name : Path) (hp : isPlainPath dir = true) :
    name ∈ readDirNames fs dir ↔
      name ≠ [] ∧ '/' ∉ name ∧ ∃ node, (dir ++ '/' :: name, node) ∈ fs.entries := by
  unfold readDirNames
  simp only [if_neg (plain_getLast dir hp)]
  rw [(sortPaths_perm _).mem_iff, List.mem_dedup, List.mem_filterMap]
  constructor
  · rintro ⟨a, ha, hf⟩
    split at hf
    · rename_i hpre
      split at hf
      · rename_i hname
        simp only [Option.some.injEq] at hf
        have hprefix := List.isPrefixOf_iff_prefix.mp hpre
        have ha1 := List.prefix_iff_eq_append.mp hprefix
        rw [hf] at ha1 hname
        obtain ⟨⟨b, node⟩, hb, hba⟩ := List.mem_map.mp ha
        refine ⟨hname.1, hname.2, node, ?_⟩
        simp only at hba
        have : dir ++ '/' :: name = b := by
          rw [hba, ← ha1]; simp
        rw [this]
        exact hb
      · simp at hf
    · simp at hf
  · rintro ⟨hne, hsep, node, hmem⟩
    refine ⟨dir ++ '/' :: name, List.mem_map.mpr ⟨_, hmem, rfl⟩, ?_⟩
    have hpre : (dir ++ ['/']).isPrefixOf (dir ++ '/' :: name) = true := by
      rw [List.isPrefixOf_iff_prefix]
      exact ⟨name, by simp⟩
    have hdrop : (dir ++ '/' :: name).drop (dir ++ ['/']).length = name := by
      have : dir ++ '/' :: name = (dir ++ ['/']) ++ name := by simp
      rw [this, List.drop_left]
    simp only [hpre, if_true, hdrop]
    rw [if_pos ⟨hne, hsep⟩]

theorem readDirNames_sorted (fs : FileSystem) (dir : Path) :
    (readDirNames fs dir).Pairwise (fun a b => pathLE a b = true ∧ a ≠ b) := by
  unfold readDirNames
  simp only []
  apply List.Pairwise.and (sortPaths_sorted _)
  exact (sortPaths_perm _).nodup_iff.mpr (List.nodup_dedup _)

/-! ## The files of a directory tree -/

theorem GoMap.mem_of_lookup {κ ν : Type} [DecidableEq κ] (m : GoMap κ ν) (k : κ) (v : ν)
    (h : m.lookup k = some v) : (k, v) ∈ m.entries := by
  unfold GoMap.lookup at h
  cases hf : m.entries.find? (fun p => decide (p.1 = k)) with
  | none => rw [hf] at h; simp at h
  | some p =>
    rw [hf] at h
    simp only [Option.map_some', Option.some.injEq] at h
    have hp := List.find?_some hf
    have hm := List.mem_of_find?_eq_some hf
    simp only [decide_eq_true_eq] at hp
    obtain ⟨a, b⟩ := p
    simp only at hp h
    subst hp
    subst h
    exact hm

theorem GoMap.lookup_of_mem {κ ν : Type} [DecidableEq κ] (m : GoMap κ ν) (k : κ) (v : ν)
    (h : (k, v) ∈ m.entries) : ∃ v1, m.lookup k = some v1 := by
  have hk : k ∈ m.keys := by
    unfold GoMap.keys
    rw [List.mem_dedup]
    exact List.mem_map.mpr ⟨_, h, rfl⟩
  rw [GoMap.mem_keys] at hk
  exact Option.isSome_iff_exists.mp hk

theorem isTree_entry (fs : FileSystem) (h : isTree fs = true) (p : Path) (node : Node)
    (hm : (p, node) ∈ fs.entries) :
    isPlainPath p = true ∧ Stat fs (containerOf p) = some .dir := by
  unfold isTree at h
  rw [List.all_eq_true] at h
  have := h (p, node) hm
  simpa using this

theorem countBelow_child (fs : FileSystem) (path c : Path) (node : Node)
    (hm : (c, node) ∈ fs.entries) (hbelow : (path ++ ['/']) <+: c) :
    countBelow fs c < countBelow fs path := by
  unfold countBelow
  have himp : ∀ e : Path × Node, (c ++ ['/']).isPrefixOf e.1 = true →
      (path ++ ['/']).isPrefixOf e.1 = true := by
    intro e he
    rw [List.isPrefixOf_iff_prefix] at he ⊢
    exact hbelow.trans ((List.prefix_append c ['/']).trans he)
  have heq : fs.entries.filter (fun e => (c ++ ['/']).isPrefixOf e.1) =
      (fs.entries.filter (fun e => (path ++ ['/']).isPrefixOf e.1)).filter
        (fun e => (c ++ ['/']).isPrefixOf e.1) := by
    rw [List.filter_filter]
    apply List.filter_congr
    intro e _
    by_cases he : (c ++ ['/']).isPrefixOf e.1 = true
    · simp [he, himp e he]
    · simp [he]
  rw [heq, List.length_filter_lt_length_iff_exists]
  refine ⟨(c, node), List.mem_filter.mpr ⟨hm, ?_⟩, ?_⟩
  · simpa [List.isPrefixOf_iff_prefix] using hbelow
  · simp only [List.isPrefixOf_iff_prefix]
    intro hp
    have := hp.length_le
    simp at this

theorem cons_append_split {α : Type} (a : α) (l1 l2 r1 r2 : List α) (h1 : a ∉ r1)
    (h2 : a ∉ r2) (h : l1 ++ a :: r1 = l2 ++ a :: r2) : l1 = l2 ∧ r1 = r2 := by
  have hrev := congrArg List.reverse h
  simp only [List.reverse_append, List.reverse_cons, List.append_assoc,
    List.singleton_append] at hrev
  obtain ⟨e1, e2⟩ := append_cons_split a _ _ _ _ (by simpa using h1) (by simpa using h2) hrev
  exact ⟨List.reverse_injective e2, List.reverse_injective e1⟩

theorem child_name_plain (path name : Path) (hc : isPlainPath (path ++ '/' :: name) = true)
    (hsep : '/' ∉ name) : isPlainElement name = true := by
  obtain ⟨e, he, h | ⟨q, h⟩⟩ := plain_last _ hc
  · exfalso
    apply ((isPlainElement_iff e).mp he).2.1
    rw [← h]
    simp
  · obtain ⟨-, hname⟩ := cons_append_split '/' _ _ _ _ hsep
      ((isPlainElement_iff e).mp he).2.1 h
    rw [hname]
    exact he

theorem Stat_long (fs : FileSystem) (q : Path) (h : 2 ≤ q.length) : Stat fs q = fs.lookup q := by
  unfold Stat
  split
  · rename_i hq
    rcases hq with hq | hq <;> subst hq <;> simp at h
  · rfl

/-- The first step from a directory towards an entry below it: the entry starts with a child
of the directory, and unless it is that child the child is a directory; the directory
itself is one. -/
theorem tree_first_step (fs : FileSystem) (htree : isTree fs = true) (path : Path)
    (hpath : path ≠ []) :
    ∀ (n : Nat) (p : Path) (node : Node), p.length ≤ n → (p, node) ∈ fs.entries →
      (path ++ ['/']) <+: p →
      Stat fs path = some .dir ∧
      ∃ name rest, p = path ++ '/' :: name ++ rest ∧ isPlainElement name = true ∧
        (rest = [] ∨ (rest.head? = some '/' ∧ fs.lookup (path ++ '/' :: name) = some .dir)) := by
  intro n
  induction n with
  | zero =>
    intro p node hlen _ hbelow
    have := hbelow.length_le
    rw [List.length_append, List.length_singleton] at this
    omega
  | succ n ih =>
    intro p node hlen hm hbelow
    obtain ⟨hplain, hcont⟩ := isTree_entry fs htree p node hm
    obtain ⟨e, he, h | ⟨q, h⟩⟩ := plain_last p hplain
    · exfalso
      apply ((isPlainElement_iff e).mp he).2.1
      rw [← h]
      exact hbelow.subset (by simp)
    · have hel := (isPlainElement_iff e).mp he
      obtain ⟨s, hs⟩ := hbelow
      have hsplit : path ++ '/' :: s = q ++ '/' :: e := by
        rw [← h, ← hs]; simp
      have hdirOf : dirOf p = q := by
        rw [h]; exact dirOf_append_element q e hel.1 hel.2.1
      have hsame : q = path → Stat fs path = some .dir ∧
          ∃ name rest, p = path ++ '/' :: name ++ rest ∧ isPlainElement name = true ∧
            (rest = [] ∨
              (rest.head? = some '/' ∧ fs.lookup (path ++ '/' :: name) = some .dir)) := by
        intro hq
        subst hq
        have hc : containerOf p = q := by
          unfold containerOf
          rw [hdirOf, if_neg hpath]
        rw [hc] at hcont
        exact ⟨hcont, e, [], by simpa using h, he, Or.inl rfl⟩
      rcases List.append_eq_append_iff.mp hsplit with ⟨a, hq, ha⟩ | ⟨c, hq, hc⟩
      · cases a with
        | nil => exact hsame (by simpa using hq)
        | cons x t =>
          simp only [List.cons_append, List.cons.injEq] at ha
          obtain ⟨hx, hst⟩ := ha
          subst hx
          have hqlen : 2 ≤ q.length := by
            have := List.length_pos.mpr hpath
            rw [hq]; simp; omega
          have hqne : q ≠ [] := by
            intro h0; rw [h0] at hqlen; simp at hqlen
          have hcq : containerOf p = q := by
            unfold containerOf
            rw [hdirOf, if_neg hqne]
          rw [hcq, Stat_long fs q hqlen] at hcont
          have hqm := GoMap.mem_of_lookup fs q .dir hcont
          have hqn : q.length ≤ n := by
            have := congrArg List.length h
            simp at this
            omega
          obtain ⟨hroot, name, rest, hqeq, hname, hrest⟩ :=
            ih q .dir hqn hqm ⟨t, by rw [hq]; simp⟩
          refine ⟨hroot, name, rest ++ '/' :: e, ?_, hname, Or.inr ?_⟩
          · rw [h, hqeq]; simp
          · rcases hrest with hrest | ⟨hhead, hlook⟩
            · subst hrest
              refine ⟨rfl, ?_⟩
              have : q = path ++ '/' :: name := by simpa using hqeq
              rw [← this]
              exact hcont
            · refine ⟨?_, hlook⟩
              cases rest with
              | nil => simp at hhead
              | cons y rest => simpa using hhead
      · cases c with
        | nil => exact hsame (by simpa using hq.symm)
        | cons x t =>
          exfalso
          simp only [List.cons_append, List.cons.injEq] at hc
          apply hel.2.1
          rw [hc.2]
          simp

theorem decompose_below (c p : Path) (h : p = c ∨ (c ++ ['/']) <+: p) :
    ∃ r, p = c ++ r ∧ (r = [] ∨ r.head? = some '/') := by
  rcases h with h | ⟨t, ht⟩
  · exact ⟨[], by simpa using h, Or.inl rfl⟩
  · exact ⟨'/' :: t, by rw [← ht]; simp, Or.inr rfl⟩

/-- The walk below an entry of a tree, with fuel beyond the number of entries below it:
exactly the files at or below the entry, in the strict order of the walk. -/
theorem walkFiles_spec (fs : FileSystem) (htree : isTree fs = true) :
    ∀ (fuel : Nat) (path : Path) (node : Node), isPlainPath path = true →
      fs.lookup path = some node → countBelow fs path < fuel →
      (∀ p, p ∈ walkFiles fuel fs path ↔
        (∃ c, fs.lookup p = some (.file c)) ∧ (p = path ∨ (path ++ ['/']) <+: p)) ∧
      (walkFiles fuel fs path).Pairwise (fun p q => walkLE p q = true ∧ p ≠ q) := by
  intro fuel
  induction fuel with
  | zero => intro path node _ _ h; exact absurd h (Nat.not_lt_zero _)
  | succ fuel ih =>
    intro path node hplain hlook hcount
    have hpne := isPlainPath_ne_nil path hplain
    have hstat : Stat fs path = some node := by rw [Stat_plain fs path hplain]; exact hlook
    rw [walkFiles]
    cases node with
    | file c0 =>
      simp only [hstat]
      refine ⟨?_, List.pairwise_singleton _ _⟩
      intro p
      rw [List.mem_singleton]
      constructor
      · intro hp
        subst hp
        exact ⟨⟨c0, hlook⟩, Or.inl rfl⟩
      · rintro ⟨⟨c, hc⟩, h | h⟩
        · exact h
        · exfalso
          have := (tree_first_step fs htree path hpne p.length p (.file c) (Nat.le_refl _)
            (GoMap.mem_of_lookup fs p _ hc) h).1
          rw [hstat] at this
          simp at this
    | dir =>
      simp only [hstat]
      have hchild : ∀ name ∈ readDirNames fs path,
          isPlainElement name = true ∧ Join path name = path ++ '/' :: name ∧
          (∀ p, p ∈ walkFiles fuel fs (path ++ '/' :: name) ↔
            (∃ c, fs.lookup p = some (.file c)) ∧
              (p = path ++ '/' :: name ∨ (path ++ '/' :: name ++ ['/']) <+: p)) ∧
          (walkFiles fuel fs (path ++ '/' :: name)).Pairwise
            (fun p q => walkLE p q = true ∧ p ≠ q) := by
        intro name hn
        obtain ⟨-, hsep, node1, hm⟩ := (readDirNames_mem fs path name hplain).mp hn
        have hcplain := (isTree_entry fs htree _ node1 hm).1
        have hel := child_name_plain path name hcplain hsep
        obtain ⟨node2, hl2⟩ := GoMap.lookup_of_mem fs _ _ hm
        have hcnt : countBelow fs (path ++ '/' :: name) < fuel := by
          have := countBelow_child fs path (path ++ '/' :: name) node1 hm ⟨name, by simp⟩
          omega
        exact ⟨hel, Join_plain path name hplain hel,
          ih (path ++ '/' :: name) node2 hcplain hl2 hcnt⟩
      refine ⟨?_, ?_⟩
      · intro p
        rw [List.mem_flatMap]
        constructor
        · rintro ⟨name, hn, hp⟩
          obtain ⟨-, hjoin, hmem, -⟩ := hchild name hn
          rw [hjoin] at hp
          obtain ⟨hc, hpos⟩ := (hmem p).mp hp
          refine ⟨hc, Or.inr ?_⟩
          rcases hpos with h | h
          · rw [h]; exact ⟨name, by simp⟩
          · exact (List.IsPrefix.trans ⟨name ++ ['/'], by simp⟩ h)
        · rintro ⟨⟨c0, hc⟩, h | h⟩
          · rw [h, hlook] at hc
            simp at hc
          · obtain ⟨-, name, rest, hpeq, hel, hrest⟩ :=
              tree_first_step fs htree path hpne p.length p (.file c0) (Nat.le_refl _)
                (GoMap.mem_of_lookup fs p _ hc) h
            have helf := (isPlainElement_iff name).mp hel
            have hcm : ∃ node1, (path ++ '/' :: name, node1) ∈ fs.entries := by
              rcases hrest with hrest | ⟨-, hl⟩
              · subst hrest
                refine ⟨.file c0, ?_⟩
                have : p = path ++ '/' :: name := by simpa using hpeq
                rw [← this]
                exact GoMap.mem_of_lookup fs p _ hc
              · exact ⟨.dir, GoMap.mem_of_lookup fs _ _ hl⟩
            have hn : name ∈ readDirNames fs path :=
              (readDirNames_mem fs path name hplain).mpr ⟨helf.1, helf.2.1, hcm⟩
            obtain ⟨-, hjoin, hmem, -⟩ := hchild name hn
            refine ⟨name, hn, ?_⟩
            rw [hjoin]
            refine (hmem p).mpr ⟨⟨c0, hc⟩, ?_⟩
            rcases hrest with hrest | ⟨hhead, -⟩
            · subst hrest
              left
              simpa using hpeq
            · right
              cases rest with
              | nil => simp at hhead
              | cons x t =>
                simp only [List.head?_cons, Option.some.injEq] at hhead
                subst hhead
                exact ⟨t, by rw [hpeq]; simp⟩
      · rw [List.pairwise_flatMap]
        refine ⟨?_, ?_⟩
        · intro name hn
          obtain ⟨-, hjoin, -, hpw⟩ := hchild name hn
          rw [hjoin]
          exact hpw
        · refine List.Pairwise.imp_of_mem ?_ (readDirNames_sorted fs path)
          intro n1 n2 hn1 hn2 hlt p1 hp1 p2 hp2
          obtain ⟨hel1, hjoin1, hmem1, -⟩ := hchild n1 hn1
          obtain ⟨hel2, hjoin2, hmem2, -⟩ := hchild n2 hn2
          rw [hjoin1] at hp1
          rw [hjoin2] at hp2
          obtain ⟨r1, hp1eq, hr1⟩ := decompose_below _ p1 ((hmem1 p1).mp hp1).2
          obtain ⟨r2, hp2eq, -⟩ := decompose_below _ p2 ((hmem2 p2).mp hp2).2
          obtain ⟨hw, hd⟩ := walkLE_of_names n1 n2 r1 r2
            ((isPlainElement_iff n1).mp hel1).2.1 ((isPlainElement_iff n2).mp hel2).2.1
            hlt.1 hlt.2 hr1
          have e1 : p1 = (path ++ ['/']) ++ (n1 ++ r1) := by rw [hp1eq]; simp
          have e2 : p2 = (path ++ ['/']) ++ (n2 ++ r2) := by rw [hp2eq]; simp
          rw [e1, e2, walkLE_append_left]
          exact ⟨hw, fun h => hd (List.append_cancel_left h)⟩

/-- C22 (as stated, refuted): the directory `/d` holds the directory `a` with the file
`a/x`, and the file `a.txt`. `getFilesRecursively` returns `/d/a/x` ahead of `/d/a.txt`,
while in the lexicographic order of the path strings `/d/a.txt` comes first (`.` is ahead of
`/`): the list is not sorted in that order. -/
theorem C22_not_sorted_by_full_path :
    isTree sampleTreeFS = true ∧
    (getFilesRecursively sampleTreeFS "/d".toList).toOption =
      some ["/d/a/x".toList, "/d/a.txt".toList] ∧
    pathLE "/d/a/x".toList "/d/a.txt".toList = false ∧
    pathLE "/d/a.txt".toList "/d/a/x".toList = true := by
  decide

/-- C22 (amended): for every directory tree and every directory `dir` of it (a cleaned path
of plain elements), `getFilesRecursively` returns a list that contains exactly the files
below `dir`, each once, in the order of the walk: paths compared element by element, each
element in byte order (the separator counts as ahead of every other character). -/
theorem C22_files_in_walk_order (fs : FileSystem) (dir : Path)
    (htree : isTree fs = true) (hdir : isPlainPath dir = true)
    (hstat : Stat fs dir = some .dir) :
    ∃ l, getFilesRecursively fs dir = .ok l ∧
      (∀ p, p ∈ l ↔ (dir ++ ['/']) <+: p ∧ ∃ content, fs.lookup p = some (.file content)) ∧
      l.Nodup ∧ l.Pairwise (fun p q => walkLE p q = true) := by
  have hlook : fs.lookup dir = some .dir := by
    rw [← Stat_plain fs dir hdir]; exact hstat
  have hcount : countBelow fs dir < fs.entries.length + 2 := by
    unfold countBelow
    have := List.length_filter_le (fun e : Path × Node => (dir ++ ['/']).isPrefixOf e.1)
      fs.entries
    omega
  obtain ⟨hmem, hpw⟩ := walkFiles_spec fs htree _ dir .dir hdir hlook hcount
  refine ⟨walkFiles (fs.entries.length + 2) fs dir, ?_, ?_, ?_, ?_⟩
  · unfold getFilesRecursively
    simp only [hstat]
  · intro p
    rw [hmem p]
    constructor
    · rintro ⟨⟨c, hc⟩, h | h⟩
      · rw [h, hlook] at hc
        simp at hc
      · exact ⟨h, c, hc⟩
    · rintro ⟨h, c, hc⟩
      exact ⟨⟨c, hc⟩, Or.inr h⟩
  · exact hpw.imp (fun h => h.2)
  · exact hpw.imp (fun h => h.1)

/-- C22 at a concrete input: the tree under `/d`. -/
theorem C22_files_in_walk_order_witness :
    isTree sampleTreeFS = true ∧ isPlainPath "/d".toList = true ∧
    Stat sampleTreeFS "/d".toList = some .dir ∧
    ∃ l, getFilesRecursively sampleTreeFS "/d".toList = .ok l ∧
      (∀ p, p ∈ l ↔ ("/d".toList ++ ['/']) <+: p ∧
        ∃ content, sampleTreeFS.lookup p = some (.file content)) ∧
      l.Nodup ∧ l.Pairwise (fun p q => walkLE p q = true) :=
  ⟨by decide, by decide, by decide,
    C22_files_in_walk_order sampleTreeFS "/d".toList (by decide) (by decide) (by decide)⟩

end YttController
